import Mathlib

/-!
Verification of the efp64 extended dynamic-range floating-point engine
(src/extended-fp/fp.h and src/extended-fp/efp64-c.h).

Modelling conventions:
* a C `fp64_t` (IEEE-754 binary64) is represented by its 64-bit pattern,
  a natural number below 2^64;
* the C `int64_t` exponent field is represented by an unbounded integer
  (signed overflow is undefined behaviour in C, and all modelled runs
  stay far inside the int64 range);
* the arithmetic operations of the FPU (`*`, `/`, `fma`, ...) are modelled
  as round-to-nearest-even of the exact rational result, with gradual
  underflow and overflow to infinity, matching IEEE-754 semantics for
  finite operands.  Exact-zero results take the round-to-nearest default
  sign +0; the sign of a zero never influences the claims proved below;
* C bitwise tricks on two's-complement integers (`x & (~0 << b)`,
  `x & ((1 << b) - 1)`) are modelled by the arithmetic identities they
  implement: rounding down to a multiple of 2^b, and the nonnegative
  remainder mod 2^b.
-/

set_option maxRecDepth 10000

namespace EFP

/-! ### fp.h: format parameters and bit-level accessors -/

def FP64_EXP_OFFSET : ℕ := 52

def FP64_SIGN_OFFSET : ℕ := 63

def FP64_EXP_MASK : ℕ := 0x7ff

def FP64_BIAS : ℤ := 0x3ff

/-- C: `FP64_EXP_MASK - FP64_BIAS - 1` = 1023. -/
def FP64_MAX_EXPONENT : ℕ := 0x7ff - 0x3ff - 1

/-- Biased exponent field: bits 52..62 of the pattern. -/
def fp64_get_biased_exponent (x : ℕ) : ℕ := x / 2 ^ 52 % 2 ^ 11

/-- Signed exponent: biased exponent minus the bias. -/
def fp64_get_exponent (x : ℕ) : ℤ := (fp64_get_biased_exponent x : ℤ) - FP64_BIAS

/-- Sign bit: bit 63. -/
def fp64_get_sign (x : ℕ) : ℕ := x / 2 ^ 63 % 2

/-- Fraction field: low 52 bits. -/
def fp64_get_fraction (x : ℕ) : ℕ := x % 2 ^ 52

/-- C: `exp <= -(int64_t) FP64_BIAS`. -/
def fp64_exponent_below (e : ℤ) : Bool := e ≤ -FP64_BIAS

/-- C: `exp >= (int64_t) FP64_EXP_MASK - FP64_BIAS`. -/
def fp64_exponent_above (e : ℤ) : Bool := (FP64_EXP_MASK : ℤ) - FP64_BIAS ≤ e

/-- C `fp64_assemble`: `frac + (exp+BIAS) << 52 + sign << 63`, on uint64
(wrap-around mod 2^64, faithful to the C unsigned arithmetic). -/
def fp64_assemble (sign : ℕ) (e : ℤ) (frac : ℕ) : ℕ :=
  (((frac : ℤ) + (e + FP64_BIAS).emod (2 ^ 64) * 2 ^ 52 + (sign : ℤ) * 2 ^ 63).emod (2 ^ 64)).toNat

/-- C `fp64_replace_exponent`: clear the exponent field, then add the new
biased exponent shifted into place (uint64 wrap-around). -/
def fp64_replace_exponent (x : ℕ) (e : ℤ) : ℕ :=
  (((x % 2 ^ 52 + x / 2 ^ 63 * 2 ^ 63 : ℕ) + (e + FP64_BIAS).emod (2 ^ 64) * 2 ^ 52).emod
    (2 ^ 64)).toNat

/-- C `fp64_zero_exponent`: install biased exponent FP64_BIAS (value window [1,2)). -/
def fp64_zero_exponent (x : ℕ) : ℕ := x % 2 ^ 52 + x / 2 ^ 63 * 2 ^ 63 + 1023 * 2 ^ 52

/-- C `fp64_infinity`. -/
def fp64_infinity (sign : ℕ) : ℕ := fp64_assemble sign ((FP64_EXP_MASK : ℤ) - FP64_BIAS) 0

/-- C `fp64_power2`: 2^p as a double, with underflow to 0 below the normal range. -/
def fp64_power2 (p : ℤ) : ℕ := if p ≤ -FP64_BIAS then 0 else fp64_assemble 0 p 0

def fp64_isNaN (x : ℕ) : Bool := fp64_get_biased_exponent x = 2047 && fp64_get_fraction x ≠ 0

def fp64_isInf (x : ℕ) : Bool := fp64_get_biased_exponent x = 2047 && fp64_get_fraction x = 0

/-- The power 2^n in ℚ, computed through the accelerated natural-number
power so that concrete instances evaluate with shallow recursion (it equals
the mathematical zpow, see qpow2_eq). -/
def qpow2 (n : ℤ) : ℚ :=
  if 0 ≤ n then ((2 ^ n.toNat : ℕ) : ℚ) else 1 / ((2 ^ (-n).toNat : ℕ) : ℚ)

/-- Exact rational magnitude of a binary64 pattern.  Subnormals (biased
exponent 0) have no implicit leading 1 and scale 2^-1074.  The same formula
is applied to the patterns with biased exponent 2047, giving an infinity the
value 2^1024 (larger than every finite double, so comparisons behave
correctly) and a NaN a value above that; all NaN-sensitive operations guard
with `fp64_isNaN`. -/
def fp64_toRatMag (x : ℕ) : ℚ :=
  if fp64_get_biased_exponent x = 0 then
    (fp64_get_fraction x : ℚ) * qpow2 (-1074)
  else ((2 ^ 52 + fp64_get_fraction x : ℕ) : ℚ) * qpow2 ((fp64_get_biased_exponent x : ℤ) - 1075)

def fp64_toRat (x : ℕ) : ℚ :=
  if fp64_get_sign x = 1 then -fp64_toRatMag x else fp64_toRatMag x

/-! ### Round to nearest, ties to even

An executable model of binary64 rounding of an exact rational. -/

/-- Fuel-driven floor of log2 on naturals (fuel at least n makes it exact). -/
def natLog2F : ℕ → ℕ → ℕ
  | 0, _ => 0
  | fuel + 1, n => if n ≤ 1 then 0 else natLog2F fuel (n / 2) + 1

/-- Floor of log2 of a positive rational: the unique e with 2^e ≤ q < 2^(e+1). -/
def qLog2 (q : ℚ) : ℤ :=
  let c : ℤ := (natLog2F q.num.natAbs q.num.natAbs : ℤ) - (natLog2F q.den q.den : ℤ)
  if q < qpow2 c then c - 1 else if q < qpow2 (c + 1) then c else c + 1

/-- Nearest integer, ties to even. -/
def rne (x : ℚ) : ℤ :=
  let f := ⌊x⌋
  if x - f < 1 / 2 then f
  else if 1 / 2 < x - f then f + 1
  else if Int.emod f 2 = 0 then f else f + 1

/-- Round a nonnegative rational to the nearest binary64, ties to even:
the pattern of the nearest representable value (with gradual underflow
below 2^-1022 and overflow to +infinity at and beyond 2^1024 - 2^970). -/
def fp64_roundPos (q : ℚ) : ℕ :=
  if q ≤ 0 then 0
  else
    let E := qLog2 q
    if E < -1022 then (rne (q * qpow2 1074)).toNat
    else if 1023 < E then fp64_infinity 0
    else
      let m := rne (q * qpow2 (52 - E))
      if m = 2 ^ 53 then
        if E = 1023 then fp64_infinity 0 else fp64_assemble 0 (E + 1) 0
      else fp64_assemble 0 E (m.toNat - 2 ^ 52)

/-- Round a rational to the nearest binary64 pattern (sign-magnitude). -/
def fp64_round (q : ℚ) : ℕ :=
  if q < 0 then fp64_roundPos (-q) + 2 ^ 63 else fp64_roundPos q

/-! ### Doubles: constants and operation models -/

def fp64_zero_bits : ℕ := 0

def fp64_one : ℕ := fp64_assemble 0 0 0

def fp64_two : ℕ := fp64_assemble 0 1 0

def fp64_half : ℕ := fp64_assemble 0 (-1) 0

def fp64_nan : ℕ := 0x7ff8000000000000

/-- C unary minus on a double: flip the sign bit. -/
def fp64_neg (x : ℕ) : ℕ := if x < 2 ^ 63 then x + 2 ^ 63 else x - 2 ^ 63

/-- C `fabs`: clear the sign bit. -/
def fp64_abs (x : ℕ) : ℕ := x % 2 ^ 63

/-- C `<` on doubles (false whenever an operand is NaN). -/
def fp64_lt (x y : ℕ) : Bool :=
  !fp64_isNaN x && !fp64_isNaN y && decide (fp64_toRat x < fp64_toRat y)

/-- C `<=` on doubles (false whenever an operand is NaN). -/
def fp64_le (x y : ℕ) : Bool :=
  !fp64_isNaN x && !fp64_isNaN y && decide (fp64_toRat x ≤ fp64_toRat y)

/-- C `==` on doubles (false whenever an operand is NaN; +0 == -0). -/
def fp64_beq (x y : ℕ) : Bool :=
  !fp64_isNaN x && !fp64_isNaN y && decide (fp64_toRat x = fp64_toRat y)

/-- IEEE multiplication of finite doubles: round the exact product. -/
def fp64_mul (x y : ℕ) : ℕ := fp64_round (fp64_toRat x * fp64_toRat y)

/-- IEEE subtraction of finite doubles: round the exact difference. -/
def fp64_sub (x y : ℕ) : ℕ := fp64_round (fp64_toRat x - fp64_toRat y)

/-- IEEE division of finite doubles: round the exact quotient; division by
zero gives a signed infinity (0/0 gives NaN). -/
def fp64_div (x y : ℕ) : ℕ :=
  if fp64_toRat y = 0 then
    if fp64_toRat x = 0 then fp64_nan
    else fp64_infinity ((fp64_get_sign x + fp64_get_sign y) % 2)
  else fp64_round (fp64_toRat x / fp64_toRat y)

/-- C `FMA64(x, y, z) = fma(x, y, z)`: a single rounding of x*y + z. -/
def FMA64 (x y z : ℕ) : ℕ := fp64_round (fp64_toRat x * fp64_toRat y + fp64_toRat z)

/-- Nearest natural number (ties to even) to the square root of A/B (B > 0);
uses that the integer part of sqrt(A/B) is Nat.sqrt (A*B) / B and decides
the half-way comparison exactly by squaring. -/
def rneSqrtNat (A B : ℕ) : ℕ :=
  let t := Nat.sqrt (A * B) / B
  if (2 * t + 1) ^ 2 * B < 4 * A then t + 1
  else if (2 * t + 1) ^ 2 * B = 4 * A then (if t % 2 = 0 then t else t + 1) else t

/-- IEEE square root model: round-to-nearest-even of the exact real square
root for positive finite input; NaN for negative input, argument unchanged
for zeros and +infinity. -/
def fp64_sqrt (x : ℕ) : ℕ :=
  if fp64_isNaN x then fp64_nan
  else if fp64_isInf x then (if fp64_get_sign x = 1 then fp64_nan else x)
  else if fp64_toRat x = 0 then x
  else if fp64_toRat x < 0 then fp64_nan
  else
    let q := fp64_toRat x
    let e := Int.fdiv (qLog2 q) 2
    let s := q * qpow2 (2 * (52 - e))
    let m := rneSqrtNat s.num.natAbs s.den
    if m = 2 ^ 53 then fp64_assemble 0 (e + 1) 0
    else if 2 ^ 52 ≤ m then fp64_assemble 0 e (m - 2 ^ 52)
    else fp64_assemble 0 e 0

/-- C cast of a signed integer to double: round to nearest. -/
def fp64_of_int (n : ℤ) : ℕ := fp64_round (n : ℚ)

/-- C cast of an unsigned integer to double: round to nearest. -/
def fp64_of_nat (n : ℕ) : ℕ := fp64_round (n : ℚ)

/-- Model of the C math library log2 on positive finite doubles: the exponent
plus a 60-bit fixed-point binary expansion of the fractional log obtained by
repeated squaring, rounded once at the end.  Deterministic and close to the
true log2; the surrounding code explicitly tolerates libm inaccuracy and no
claim below depends on the values this produces. -/
def fp64_log2_lib_loop : ℕ → ℕ → ℕ → ℕ
  | 0, _, acc => acc
  | fuel + 1, u, acc =>
    let u2 := u * u / 2 ^ 62
    if 2 ^ 63 ≤ u2 then fp64_log2_lib_loop fuel (u2 / 2) (2 * acc + 1)
    else fp64_log2_lib_loop fuel u2 (2 * acc)

def fp64_log2_lib (x : ℕ) : ℕ :=
  if fp64_isNaN x || fp64_toRat x ≤ 0 then fp64_nan
  else if fp64_isInf x then x
  else
    let e := fp64_get_exponent x
    let m := 2 ^ 52 + fp64_get_fraction x
    let bits := fp64_log2_lib_loop 60 (m * 2 ^ 10) 0
    fp64_round ((e : ℚ) + (bits : ℚ) / qpow2 60)

/-! ### efp64-c.h: the extended-range type -/

/-- C `hi_part(x, bits) = x & (~(int64_t)0 << bits)`: on two's-complement,
clearing the low `bits` bits rounds toward -infinity to a multiple of
2^bits, i.e. 2^bits * (x ediv 2^bits). -/
def hi_part (x : ℤ) (bits : ℕ) : ℤ := 2 ^ bits * Int.ediv x (2 ^ bits)

/-- C `lo_part(x, bits) = x & ((1 << bits) - 1)`: the nonnegative remainder. -/
def lo_part (x : ℤ) (bits : ℕ) : ℤ := Int.emod x (2 ^ bits)

def EXP_BITS : ℕ := 6

/-- C `1 << EXP_BITS` = 64. -/
def EXP_MODULUS : ℤ := 2 ^ EXP_BITS

/-- C `hi_part(INT64_MIN/2, EXP_BITS)`; INT64_MIN/2 truncates to -2^62. -/
def ZEXP : ℤ := hi_part (Int.tdiv (-(2 ^ 63)) 2) EXP_BITS

/-- C `FP64_MAX_EXPONENT/EXP_MODULUS - 2` = 1023/64 - 2 = 13. -/
def EFP64_MAX_MUL : ℕ := FP64_MAX_EXPONENT / 2 ^ EXP_BITS - 2

structure efp64_t where
  fp : ℕ
  exp : ℤ
deriving DecidableEq

def efp64_collect (fp : ℕ) (exp : ℤ) : efp64_t := ⟨fp, exp⟩

/-- C `a.fp == 0.0`. -/
def efp64_is_zero (a : efp64_t) : Bool := fp64_beq a.fp fp64_zero_bits

def efp64_zero : efp64_t := ⟨fp64_zero_bits, ZEXP⟩

def efp64_is_valid (a : efp64_t) : Bool := !fp64_isNaN a.fp && !fp64_isInf a.fp

def efp64_full_exponent (v : efp64_t) : ℤ := v.exp + fp64_get_exponent v.fp

def efp64_zeroed_fraction (v : efp64_t) : ℕ := fp64_zero_exponent v.fp

def efp64_canonicalize (a : efp64_t) : efp64_t :=
  if efp64_is_zero a then efp64_zero
  else
    let nexp := efp64_full_exponent a
    ⟨fp64_replace_exponent a.fp (lo_part nexp EXP_BITS), hi_part nexp EXP_BITS⟩

def efp64_quick_canonicalize (a : efp64_t) : efp64_t :=
  let low := fp64_power2 (-EXP_MODULUS)
  let high := fp64_power2 EXP_MODULUS
  if fp64_lt (fp64_abs a.fp) fp64_one then ⟨fp64_mul a.fp high, a.exp - EXP_MODULUS⟩
  else if fp64_le high (fp64_abs a.fp) then ⟨fp64_mul a.fp low, a.exp + EXP_MODULUS⟩
  else a

def efp64_quick_down_canonicalize (a : efp64_t) : efp64_t :=
  let low := fp64_power2 (-EXP_MODULUS)
  let high := fp64_power2 EXP_MODULUS
  if fp64_le high (fp64_abs a.fp) then ⟨fp64_mul a.fp low, a.exp + EXP_MODULUS⟩ else a

def efp64_quick_up_canonicalize (a : efp64_t) : efp64_t :=
  let high := fp64_power2 EXP_MODULUS
  if fp64_lt (fp64_abs a.fp) fp64_one then ⟨fp64_mul a.fp high, a.exp - EXP_MODULUS⟩ else a

def efp64_from_fp64 (d : ℕ) : efp64_t := efp64_canonicalize ⟨d, 0⟩

def efp64_to_fp64 (v : efp64_t) : ℕ :=
  if efp64_is_zero v then fp64_zero_bits
  else
    let full := efp64_full_exponent v
    if fp64_exponent_below full then fp64_zero_bits
    else if fp64_exponent_above full then fp64_infinity (fp64_get_sign v.fp)
    else fp64_replace_exponent v.fp full

def efp64_is_equal (a b : efp64_t) : Bool :=
  if efp64_is_zero a then efp64_is_zero b
  else fp64_beq a.fp b.fp && decide (a.exp = b.exp)

def efp64_negate (a : efp64_t) : efp64_t :=
  if efp64_is_zero a then a else ⟨fp64_neg a.fp, a.exp⟩

/-- C `efp64_add`: align the smaller exponent onto the larger with an fma
against the larger significand, then two-sided quick canonicalize. -/
def efp64_add (a b : efp64_t) : efp64_t :=
  if b.exp < a.exp then
    efp64_quick_canonicalize ⟨FMA64 b.fp (fp64_power2 (b.exp - a.exp)) a.fp, a.exp⟩
  else
    efp64_quick_canonicalize ⟨FMA64 a.fp (fp64_power2 (a.exp - b.exp)) b.fp, b.exp⟩

def efp64_quick_mul (a b : efp64_t) : efp64_t := ⟨fp64_mul a.fp b.fp, a.exp + b.exp⟩

def efp64_mul (a b : efp64_t) : efp64_t :=
  efp64_quick_down_canonicalize (efp64_quick_mul a b)

def efp64_div (a b : efp64_t) : efp64_t :=
  efp64_quick_up_canonicalize ⟨fp64_div a.fp b.fp, a.exp - b.exp⟩

def efp64_cmp (a b : efp64_t) : ℤ :=
  let sa := fp64_lt a.fp fp64_zero_bits
  let sb := fp64_lt b.fp fp64_zero_bits
  if sa && !sb then -1
  else if !sa && sb then 1
  else
    let flip : ℤ := if sa then -1 else 1
    if b.exp < a.exp then flip
    else if a.exp < b.exp then -flip
    else if fp64_lt a.fp b.fp then -1
    else if fp64_lt b.fp a.fp then 1
    else 0

/-- C `efp64_sqrt`; `a.exp / 2` is C signed division (truncation toward 0). -/
def efp64_sqrt (a : efp64_t) : efp64_t :=
  if efp64_is_zero a || fp64_lt a.fp fp64_zero_bits then efp64_zero
  else efp64_canonicalize ⟨fp64_sqrt a.fp, Int.tdiv a.exp 2⟩

def efp64_scale_power2 (v : efp64_t) (power : ℤ) : efp64_t := ⟨v.fp, v.exp + power⟩

/-- C `efp64_mul_seq_slow`: fold the canonicalizing multiply over the list. -/
def efp64_mul_seq_slow (val : List efp64_t) : efp64_t :=
  val.foldl efp64_mul (efp64_from_fp64 fp64_one)

/-- Loop of C `efp64_mul_seq_x1`: quick-multiply, bump the counter, full
canonicalize and reset once the counter passes EFP64_MAX_MUL. -/
def efp64_mul_seq_x1_loop : efp64_t → ℕ → List efp64_t → efp64_t
  | result, _, [] => result
  | result, count, arg :: rest =>
    let r := efp64_quick_mul result arg
    if EFP64_MAX_MUL < count + 1 then efp64_mul_seq_x1_loop (efp64_canonicalize r) 0 rest
    else efp64_mul_seq_x1_loop r (count + 1) rest

def efp64_mul_seq_x1 : List efp64_t → efp64_t
  | [] => efp64_from_fp64 fp64_one
  | v :: rest => efp64_canonicalize (efp64_mul_seq_x1_loop v 1 rest)

def efp64_canon4 (p : efp64_t × efp64_t × efp64_t × efp64_t) :
    efp64_t × efp64_t × efp64_t × efp64_t :=
  (efp64_canonicalize p.1, efp64_canonicalize p.2.1,
   efp64_canonicalize p.2.2.1, efp64_canonicalize p.2.2.2)

/-- Main loop of C `efp64_mul_seq_x4`: consume groups of four while at least
four elements remain (`i <= len-4`), with the shared counter rule; returns
the four accumulators, the final counter and the unconsumed tail. -/
def efp64_mul_seq_x4_loop :
    efp64_t × efp64_t × efp64_t × efp64_t → ℕ → List efp64_t →
    (efp64_t × efp64_t × efp64_t × efp64_t) × ℕ × List efp64_t
  | p, count, a :: b :: c :: d :: rest =>
    let q := (efp64_quick_mul p.1 a, efp64_quick_mul p.2.1 b,
              efp64_quick_mul p.2.2.1 c, efp64_quick_mul p.2.2.2 d)
    if EFP64_MAX_MUL < count + 1 then efp64_mul_seq_x4_loop (efp64_canon4 q) 0 rest
    else efp64_mul_seq_x4_loop q (count + 1) rest
  | p, count, rest => (p, count, rest)

/-- C `efp64_mul_seq_x4` (the code assumes len >= 4; shorter lists take the
final catch-all, unreachable under the dispatcher precondition). -/
def efp64_mul_seq_x4 : List efp64_t → efp64_t
  | a :: b :: c :: d :: rest =>
    let s := efp64_mul_seq_x4_loop (a, b, c, d) 0 rest
    let p := if EFP64_MAX_MUL < s.2.1 * 4 then efp64_canon4 s.1 else s.1
    let r := efp64_quick_mul (efp64_quick_mul (efp64_quick_mul p.1 p.2.1) p.2.2.1) p.2.2.2
    efp64_canonicalize (s.2.2.foldl efp64_quick_mul r)
  | _ => efp64_from_fp64 fp64_one

def efp64_mul_seq (val : List efp64_t) : efp64_t :=
  if val.length < 8 then efp64_mul_seq_x1 val else efp64_mul_seq_x4 val

/-! ### Instrumented x4 reduction

The same computation as `efp64_mul_seq_x4`, additionally returning every
accumulator value the loop, the combine phase and the tail phase produce,
so that statements about intermediate accumulators can be evaluated. -/

def efp64_mul_seq_x4_loop_trace :
    efp64_t × efp64_t × efp64_t × efp64_t → ℕ → List efp64_t → List efp64_t
  | _, _, [] => []
  | p, count, a :: b :: c :: d :: rest =>
    let q := (efp64_quick_mul p.1 a, efp64_quick_mul p.2.1 b,
              efp64_quick_mul p.2.2.1 c, efp64_quick_mul p.2.2.2 d)
    [q.1, q.2.1, q.2.2.1, q.2.2.2] ++
      (if EFP64_MAX_MUL < count + 1 then efp64_mul_seq_x4_loop_trace (efp64_canon4 q) 0 rest
       else efp64_mul_seq_x4_loop_trace q (count + 1) rest)
  | _, _, rest => rest.map id

def efp64_mul_seq_x4_trace : List efp64_t → List efp64_t
  | a :: b :: c :: d :: rest =>
    let s := efp64_mul_seq_x4_loop (a, b, c, d) 0 rest
    let p := if EFP64_MAX_MUL < s.2.1 * 4 then efp64_canon4 s.1 else s.1
    let r1 := efp64_quick_mul p.1 p.2.1
    let r2 := efp64_quick_mul r1 p.2.2.1
    let r3 := efp64_quick_mul r2 p.2.2.2
    efp64_mul_seq_x4_loop_trace (a, b, c, d) 0 rest ++ (s.2.2.scanl efp64_quick_mul r3)
  | _ => []

/-! ### Logarithm -/

/-- The renormalization loop of C `efp64_log2d`: runs while the top bit of
`log_val` is clear (at most 64 iterations, modelled by fuel); doubles the
fixed-point value and injects the next bit of the fractional log. -/
def efp64_log2d_loop : ℕ → ℕ → ℕ → ℕ → ℕ × ℕ × ℕ
  | 0, log_val, dlog, log_weight => (log_val, dlog, log_weight)
  | fuel + 1, log_val, dlog, log_weight =>
    if log_val / 2 ^ 63 = 0 then
      let lv := log_val * 2 % 2 ^ 64
      let dl := fp64_mul dlog fp64_two
      if fp64_le fp64_one dl then
        efp64_log2d_loop fuel (lv + 1) (fp64_sub dl fp64_one) (fp64_mul log_weight fp64_half)
      else efp64_log2d_loop fuel lv dl (fp64_mul log_weight fp64_half)
    else (log_val, dlog, log_weight)

/-- C `efp64_log2d`: exact on powers of two via the cast `(fp64_t) e`,
native log2 when the full exponent is in native range, and the bit-by-bit
construction otherwise (`log_val | 0x1` sets the low bit). -/
def efp64_log2d (a : efp64_t) : ℕ :=
  let d := efp64_zeroed_fraction a
  if fp64_le d fp64_zero_bits then fp64_zero_bits
  else
    let e := efp64_full_exponent a
    if fp64_beq d fp64_one then fp64_of_int e
    else if !fp64_exponent_below e && !fp64_exponent_above e then
      fp64_log2_lib (efp64_to_fp64 a)
    else
      let swd : ℕ × ℕ × ℤ :=
        if e < 0 then
          (fp64_neg fp64_one, fp64_neg (fp64_log2_lib (fp64_div d fp64_two)), -(e + 1))
        else (fp64_one, fp64_log2_lib d, e)
      let uflow := fp64_beq swd.2.1 fp64_zero_bits
      let s := efp64_log2d_loop 64 ((swd.2.2.emod (2 ^ 64)).toNat) swd.2.1 swd.1
      let log_val := if uflow || !fp64_beq s.2.1 fp64_zero_bits then s.1 - s.1 % 2 + 1 else s.1
      fp64_mul (fp64_of_nat log_val) s.2.2

def efp64_log2 (a : efp64_t) : efp64_t := efp64_from_fp64 (efp64_log2d a)

/-! ### Specification predicates -/

/-- The canonical invariant of the representation: zero is exactly the
canonical zero (positive zero pattern, sentinel exponent), and a non-zero
value has its embedded exponent inside the window [0, EXP_MODULUS), its
high exponent an exact multiple of EXP_MODULUS, and (per the source comment
on ZEXP, which is smaller than any other exponent) a high exponent above
the zero sentinel. -/
def efp64_canonical (v : efp64_t) : Prop :=
  v.fp < 2 ^ 64 ∧
    ((v.fp = fp64_zero_bits ∧ v.exp = ZEXP) ∨
      (0 ≤ fp64_get_exponent v.fp ∧ fp64_get_exponent v.fp < EXP_MODULUS ∧
        EXP_MODULUS ∣ v.exp ∧ ZEXP < v.exp))

/-- The window part of the canonical invariant, as claimed for results of
public operations: embedded exponent inside [0, EXP_MODULUS) and high
exponent a multiple of EXP_MODULUS. -/
def efp64_invariant (v : efp64_t) : Prop :=
  0 ≤ fp64_get_exponent v.fp ∧ fp64_get_exponent v.fp < EXP_MODULUS ∧ EXP_MODULUS ∣ v.exp

/-- Real (rational) value denoted by an extended value. -/
def efp64_toRat (v : efp64_t) : ℚ := fp64_toRat v.fp * qpow2 v.exp

/-- Concrete input exhibiting the x4 overflow: 17 copies of the largest
canonical significand (2^64 - 2^11) with high exponent 0. -/
def c3_failing_input : List efp64_t :=
  List.replicate 17 ⟨fp64_assemble 0 63 (2 ^ 52 - 1), 0⟩

end EFP

namespace EFP

/-! ## Bit-level lemmas about the binary64 pattern fields -/

theorem fp64_get_sign_lt (x : ℕ) : fp64_get_sign x < 2 :=
  Nat.mod_lt _ (by norm_num)

theorem fp64_get_biased_exponent_lt (x : ℕ) : fp64_get_biased_exponent x < 2 ^ 11 :=
  Nat.mod_lt _ (by norm_num)

theorem fp64_get_fraction_lt (x : ℕ) : fp64_get_fraction x < 2 ^ 52 :=
  Nat.mod_lt _ (by norm_num)

theorem fp64_fields_decomp (x : ℕ) (hx : x < 2 ^ 64) :
    x = fp64_get_sign x * 2 ^ 63 + fp64_get_biased_exponent x * 2 ^ 52 + fp64_get_fraction x := by
  unfold fp64_get_sign fp64_get_biased_exponent fp64_get_fraction
  omega

theorem fp64_fields_of_pattern (s b f : ℕ) (hs : s < 2) (hb : b < 2 ^ 11) (hf : f < 2 ^ 52) :
    fp64_get_sign (s * 2 ^ 63 + b * 2 ^ 52 + f) = s ∧
    fp64_get_biased_exponent (s * 2 ^ 63 + b * 2 ^ 52 + f) = b ∧
    fp64_get_fraction (s * 2 ^ 63 + b * 2 ^ 52 + f) = f := by
  unfold fp64_get_sign fp64_get_biased_exponent fp64_get_fraction
  refine ⟨?_, ?_, ?_⟩ <;> omega

theorem fp64_pattern_lt (s b f : ℕ) (hs : s < 2) (hb : b < 2 ^ 11) (hf : f < 2 ^ 52) :
    s * 2 ^ 63 + b * 2 ^ 52 + f < 2 ^ 64 := by omega

/-- `fp64_assemble` with in-range arguments produces the expected pattern. -/
theorem fp64_assemble_eq (s : ℕ) (e : ℤ) (f : ℕ) (hs : s < 2) (hf : f < 2 ^ 52)
    (he0 : 0 ≤ e + FP64_BIAS) (he1 : e + FP64_BIAS < 2 ^ 11) :
    fp64_assemble s e f = s * 2 ^ 63 + (e + FP64_BIAS).toNat * 2 ^ 52 + f := by
  unfold fp64_assemble
  have h1 : (e + FP64_BIAS).emod (2 ^ 64) = e + FP64_BIAS := Int.emod_eq_of_lt he0 (by omega)
  rw [h1]
  have h2 : ((f : ℤ) + (e + FP64_BIAS) * 2 ^ 52 + (s : ℤ) * 2 ^ 63).emod (2 ^ 64) =
      (f : ℤ) + (e + FP64_BIAS) * 2 ^ 52 + (s : ℤ) * 2 ^ 63 :=
    Int.emod_eq_of_lt (by omega) (by omega)
  rw [h2]
  omega

end EFP

namespace EFP

theorem fp64_replace_exponent_eq (x : ℕ) (e : ℤ) (hx : x < 2 ^ 64)
    (he0 : 0 ≤ e + FP64_BIAS) (he1 : e + FP64_BIAS < 2 ^ 11) :
    fp64_replace_exponent x e =
      fp64_get_sign x * 2 ^ 63 + (e + FP64_BIAS).toNat * 2 ^ 52 + fp64_get_fraction x := by
  unfold fp64_replace_exponent
  have h1 : (e + FP64_BIAS).emod (2 ^ 64) = e + FP64_BIAS := Int.emod_eq_of_lt he0 (by omega)
  rw [h1]
  have h2 : (((x % 2 ^ 52 + x / 2 ^ 63 * 2 ^ 63 : ℕ) : ℤ) + (e + FP64_BIAS) * 2 ^ 52).emod (2 ^ 64) =
      ((x % 2 ^ 52 + x / 2 ^ 63 * 2 ^ 63 : ℕ) : ℤ) + (e + FP64_BIAS) * 2 ^ 52 :=
    Int.emod_eq_of_lt (by omega) (by omega)
  rw [h2]
  unfold fp64_get_sign fp64_get_fraction
  omega

theorem fp64_zero_exponent_eq (x : ℕ) (hx : x < 2 ^ 64) :
    fp64_zero_exponent x =
      fp64_get_sign x * 2 ^ 63 + 1023 * 2 ^ 52 + fp64_get_fraction x := by
  unfold fp64_zero_exponent fp64_get_sign fp64_get_fraction
  omega

theorem fp64_assemble_fields (s : ℕ) (e : ℤ) (f : ℕ) (hs : s < 2) (hf : f < 2 ^ 52)
    (he0 : 0 ≤ e + FP64_BIAS) (he1 : e + FP64_BIAS < 2 ^ 11) :
    fp64_get_sign (fp64_assemble s e f) = s ∧
    fp64_get_biased_exponent (fp64_assemble s e f) = (e + FP64_BIAS).toNat ∧
    fp64_get_fraction (fp64_assemble s e f) = f ∧
    fp64_get_exponent (fp64_assemble s e f) = e ∧
    fp64_assemble s e f < 2 ^ 64 := by
  rw [fp64_assemble_eq s e f hs hf he0 he1]
  have h := fp64_fields_of_pattern s (e + FP64_BIAS).toNat f hs (by omega) hf
  refine ⟨h.1, h.2.1, h.2.2, ?_, fp64_pattern_lt _ _ _ hs (by omega) hf⟩
  unfold fp64_get_exponent
  rw [h.2.1]
  unfold FP64_BIAS at *
  omega

theorem fp64_replace_exponent_fields (x : ℕ) (e : ℤ) (hx : x < 2 ^ 64)
    (he0 : 0 ≤ e + FP64_BIAS) (he1 : e + FP64_BIAS < 2 ^ 11) :
    fp64_get_sign (fp64_replace_exponent x e) = fp64_get_sign x ∧
    fp64_get_biased_exponent (fp64_replace_exponent x e) = (e + FP64_BIAS).toNat ∧
    fp64_get_fraction (fp64_replace_exponent x e) = fp64_get_fraction x ∧
    fp64_get_exponent (fp64_replace_exponent x e) = e ∧
    fp64_replace_exponent x e < 2 ^ 64 := by
  rw [fp64_replace_exponent_eq x e hx he0 he1]
  have h := fp64_fields_of_pattern (fp64_get_sign x) (e + FP64_BIAS).toNat (fp64_get_fraction x)
    (fp64_get_sign_lt x) (by omega) (fp64_get_fraction_lt x)
  refine ⟨h.1, h.2.1, h.2.2, ?_,
    fp64_pattern_lt _ _ _ (fp64_get_sign_lt x) (by omega) (fp64_get_fraction_lt x)⟩
  unfold fp64_get_exponent
  rw [h.2.1]
  unfold FP64_BIAS at *
  omega

theorem fp64_zero_exponent_fields (x : ℕ) (hx : x < 2 ^ 64) :
    fp64_get_sign (fp64_zero_exponent x) = fp64_get_sign x ∧
    fp64_get_biased_exponent (fp64_zero_exponent x) = 1023 ∧
    fp64_get_fraction (fp64_zero_exponent x) = fp64_get_fraction x := by
  rw [fp64_zero_exponent_eq x hx]
  exact fp64_fields_of_pattern (fp64_get_sign x) 1023 (fp64_get_fraction x)
    (fp64_get_sign_lt x) (by norm_num) (fp64_get_fraction_lt x)

/-! ## Value lemmas -/

theorem qpow2_eq (n : ℤ) : qpow2 n = (2 : ℚ) ^ n := by
  unfold qpow2
  split_ifs with h
  · rw [show ((2 ^ n.toNat : ℕ) : ℚ) = (2 : ℚ) ^ n.toNat by push_cast; ring]
    rw [← zpow_natCast, Int.toNat_of_nonneg h]
  · push_neg at h
    rw [show ((2 ^ (-n).toNat : ℕ) : ℚ) = (2 : ℚ) ^ (-n).toNat by push_cast; ring]
    rw [← zpow_natCast, Int.toNat_of_nonneg (by omega)]
    rw [one_div, ← zpow_neg, neg_neg]

theorem fp64_toRatMag_nonneg (x : ℕ) : 0 ≤ fp64_toRatMag x := by
  unfold fp64_toRatMag
  simp only [qpow2_eq]
  split_ifs
  · positivity
  · positivity

theorem fp64_toRatMag_pos (x : ℕ) (h : fp64_get_biased_exponent x ≠ 0 ∨ fp64_get_fraction x ≠ 0) :
    0 < fp64_toRatMag x := by
  unfold fp64_toRatMag
  simp only [qpow2_eq]
  split_ifs with hb
  · have hf : fp64_get_fraction x ≠ 0 := by tauto
    have h1 : (0 : ℚ) < (fp64_get_fraction x : ℚ) := by exact_mod_cast Nat.pos_of_ne_zero hf
    exact mul_pos h1 (zpow_pos (by norm_num) _)
  · have h1 : (0 : ℚ) < ((2 ^ 52 + fp64_get_fraction x : ℕ) : ℚ) := by positivity
    exact mul_pos h1 (zpow_pos (by norm_num) _)

theorem fp64_toRatMag_eq_zero_iff (x : ℕ) :
    fp64_toRatMag x = 0 ↔ fp64_get_biased_exponent x = 0 ∧ fp64_get_fraction x = 0 := by
  constructor
  · intro h
    by_contra hc
    have : fp64_get_biased_exponent x ≠ 0 ∨ fp64_get_fraction x ≠ 0 := by tauto
    exact absurd h (ne_of_gt (fp64_toRatMag_pos x this))
  · rintro ⟨h0, hf⟩
    unfold fp64_toRatMag
    rw [if_pos h0, hf]
    simp

theorem fp64_toRat_eq_zero_iff (x : ℕ) :
    fp64_toRat x = 0 ↔ fp64_get_biased_exponent x = 0 ∧ fp64_get_fraction x = 0 := by
  unfold fp64_toRat
  rw [← fp64_toRatMag_eq_zero_iff]
  split_ifs
  · exact neg_eq_zero
  · exact Iff.rfl

theorem fp64_abs_toRat (x : ℕ) : |fp64_toRat x| = fp64_toRatMag x := by
  unfold fp64_toRat
  split_ifs
  · rw [abs_neg, abs_of_nonneg (fp64_toRatMag_nonneg x)]
  · exact abs_of_nonneg (fp64_toRatMag_nonneg x)

theorem fp64_toRat_of_sign_zero (x : ℕ) (h : fp64_get_sign x = 0) :
    fp64_toRat x = fp64_toRatMag x := by
  unfold fp64_toRat
  rw [if_neg (by omega)]

theorem fp64_toRat_of_sign_one (x : ℕ) (h : fp64_get_sign x = 1) :
    fp64_toRat x = -fp64_toRatMag x := by
  unfold fp64_toRat
  rw [if_pos h]

theorem fp64_toRatMag_normal (x : ℕ) (hb : 1 ≤ fp64_get_biased_exponent x) :
    fp64_toRatMag x =
      ((2 ^ 52 + fp64_get_fraction x : ℕ) : ℚ) *
        (2 : ℚ) ^ ((fp64_get_biased_exponent x : ℤ) - 1075) := by
  unfold fp64_toRatMag
  simp only [qpow2_eq]
  rw [if_neg (by omega)]

/-- A normal pattern has magnitude in [2^e, 2^(e+1)) for e its signed exponent. -/
theorem fp64_toRatMag_bounds (x : ℕ) (hb : 1 ≤ fp64_get_biased_exponent x) :
    (2 : ℚ) ^ fp64_get_exponent x ≤ fp64_toRatMag x ∧
      fp64_toRatMag x < (2 : ℚ) ^ (fp64_get_exponent x + 1) := by
  rw [fp64_toRatMag_normal x hb]
  have hf := fp64_get_fraction_lt x
  have he : fp64_get_exponent x = (fp64_get_biased_exponent x : ℤ) - 1023 := by
    unfold fp64_get_exponent FP64_BIAS
    norm_num
  have h52 : ((2 : ℚ) ^ (52 : ℤ)) * (2 : ℚ) ^ ((fp64_get_biased_exponent x : ℤ) - 1075) =
      (2 : ℚ) ^ ((fp64_get_biased_exponent x : ℤ) - 1023) := by
    rw [← zpow_add₀ (by norm_num : (2:ℚ) ≠ 0)]
    ring_nf
  have h53 : ((2 : ℚ) ^ (53 : ℤ)) * (2 : ℚ) ^ ((fp64_get_biased_exponent x : ℤ) - 1075) =
      (2 : ℚ) ^ ((fp64_get_biased_exponent x : ℤ) - 1022) := by
    rw [← zpow_add₀ (by norm_num : (2:ℚ) ≠ 0)]
    ring_nf
  have hzp : (0 : ℚ) < (2 : ℚ) ^ ((fp64_get_biased_exponent x : ℤ) - 1075) :=
    zpow_pos (by norm_num) _
  constructor
  · rw [he, ← h52]
    apply mul_le_mul_of_nonneg_right _ (le_of_lt hzp)
    have : ((2 : ℚ) ^ (52 : ℤ)) = ((2 ^ 52 : ℕ) : ℚ) := by norm_num
    rw [this]
    exact_mod_cast Nat.le_add_right (2 ^ 52) (fp64_get_fraction x)
  · have he1 : fp64_get_exponent x + 1 = (fp64_get_biased_exponent x : ℤ) - 1022 := by omega
    rw [he1, ← h53]
    apply mul_lt_mul_of_pos_right _ hzp
    have : ((2 : ℚ) ^ (53 : ℤ)) = ((2 ^ 53 : ℕ) : ℚ) := by norm_num
    rw [this]
    exact_mod_cast (by omega : 2 ^ 52 + fp64_get_fraction x < 2 ^ 53)

end EFP

namespace EFP

/-! ## The rounding model: exponent finder and nearest integer -/

theorem natLog2F_spec : ∀ fuel n : ℕ, 1 ≤ n → n ≤ fuel →
    2 ^ natLog2F fuel n ≤ n ∧ n < 2 ^ (natLog2F fuel n + 1) := by
  intro fuel
  induction fuel with
  | zero => intro n h1 h2; omega
  | succ f ih =>
    intro n h1 h2
    unfold natLog2F
    by_cases hn : n ≤ 1
    · rw [if_pos hn]
      norm_num
      omega
    · rw [if_neg hn]
      have h3 := ih (n / 2) (by omega) (by omega)
      set k := natLog2F f (n / 2) with hk
      have hp1 : (2 : ℕ) ^ (k + 1) = 2 * 2 ^ k := by ring
      have hp2 : (2 : ℕ) ^ (k + 1 + 1) = 2 * 2 ^ (k + 1) := by ring
      omega

theorem qLog2_spec (q : ℚ) (hq : 0 < q) :
    (2 : ℚ) ^ qLog2 q ≤ q ∧ q < (2 : ℚ) ^ (qLog2 q + 1) := by
  have hnum0 : 0 < q.num := Rat.num_pos.mpr hq
  have hnum : 1 ≤ q.num.natAbs := by omega
  have hden : 1 ≤ q.den := q.pos
  have hn := natLog2F_spec q.num.natAbs q.num.natAbs hnum le_rfl
  have hd := natLog2F_spec q.den q.den hden le_rfl
  have hqe : q = (q.num : ℚ) / (q.den : ℚ) := (Rat.num_div_den q).symm
  have hna : ((q.num.natAbs : ℕ) : ℚ) = (q.num : ℚ) := by
    rw [← Int.cast_natCast (R := ℚ), Int.natAbs_of_nonneg hnum0.le]
  set ln := natLog2F q.num.natAbs q.num.natAbs with hln
  set ld := natLog2F q.den q.den with hld
  have hdq : (0 : ℚ) < (q.den : ℚ) := by exact_mod_cast hden
  have hz : ∀ m : ℤ, (0 : ℚ) < (2 : ℚ) ^ m := fun m => zpow_pos (by norm_num) m
  have hn1 : (2 : ℚ) ^ (ln : ℤ) ≤ (q.num : ℚ) := by
    rw [← hna, zpow_natCast]
    exact_mod_cast hn.1
  have hn2 : (q.num : ℚ) < (2 : ℚ) ^ ((ln : ℤ) + 1) := by
    rw [← hna]
    have h4 : ((ln : ℤ) + 1) = ((ln + 1 : ℕ) : ℤ) := by push_cast; ring
    rw [h4, zpow_natCast]
    exact_mod_cast hn.2
  have hd1 : (2 : ℚ) ^ (ld : ℤ) ≤ (q.den : ℚ) := by
    rw [zpow_natCast]
    exact_mod_cast hd.1
  have hd2 : (q.den : ℚ) < (2 : ℚ) ^ ((ld : ℤ) + 1) := by
    have h4 : ((ld : ℤ) + 1) = ((ld + 1 : ℕ) : ℤ) := by push_cast; ring
    rw [h4, zpow_natCast]
    exact_mod_cast hd.2
  have hlow : (2 : ℚ) ^ ((ln : ℤ) - ld - 1) < q := by
    rw [hqe, lt_div_iff₀ hdq]
    calc (2 : ℚ) ^ ((ln : ℤ) - ld - 1) * (q.den : ℚ)
        < (2 : ℚ) ^ ((ln : ℤ) - ld - 1) * (2 : ℚ) ^ ((ld : ℤ) + 1) :=
          mul_lt_mul_of_pos_left hd2 (hz _)
      _ = (2 : ℚ) ^ (ln : ℤ) := by
          rw [← zpow_add₀ (by norm_num : (2 : ℚ) ≠ 0)]
          ring_nf
      _ ≤ (q.num : ℚ) := hn1
  have hhigh : q < (2 : ℚ) ^ ((ln : ℤ) - ld + 1) := by
    rw [hqe, div_lt_iff₀ hdq]
    calc (q.num : ℚ) < (2 : ℚ) ^ ((ln : ℤ) + 1) := hn2
      _ = (2 : ℚ) ^ ((ln : ℤ) - ld + 1) * (2 : ℚ) ^ (ld : ℤ) := by
          rw [← zpow_add₀ (by norm_num : (2 : ℚ) ≠ 0)]
          ring_nf
      _ ≤ (2 : ℚ) ^ ((ln : ℤ) - ld + 1) * (q.den : ℚ) :=
          mul_le_mul_of_nonneg_left hd1 (hz _).le
  simp only [qLog2, qpow2_eq]
  rw [← hln, ← hld]
  by_cases h1 : q < (2 : ℚ) ^ ((ln : ℤ) - ld)
  · rw [if_pos h1]
    have h4 : (ln : ℤ) - ld - 1 + 1 = (ln : ℤ) - ld := by ring
    exact ⟨hlow.le, by rw [h4]; exact h1⟩
  · rw [if_neg h1]
    by_cases h2 : q < (2 : ℚ) ^ ((ln : ℤ) - ld + 1)
    · rw [if_pos h2]
      exact ⟨not_lt.mp h1, h2⟩
    · exact absurd hhigh h2

theorem qLog2_unique (q : ℚ) (e : ℤ) (h1 : (2 : ℚ) ^ e ≤ q) (h2 : q < (2 : ℚ) ^ (e + 1)) :
    qLog2 q = e := by
  have hq : 0 < q := lt_of_lt_of_le (zpow_pos (by norm_num) e) h1
  have hs := qLog2_spec q hq
  by_contra hne
  rcases lt_or_gt_of_ne hne with h | h
  · have : qLog2 q + 1 ≤ e := by omega
    have h3 : (2 : ℚ) ^ (qLog2 q + 1) ≤ (2 : ℚ) ^ e :=
      zpow_le_zpow_right₀ (by norm_num) this
    exact absurd (lt_of_lt_of_le hs.2 h3) (not_lt.mpr h1)
  · have : e + 1 ≤ qLog2 q := by omega
    have h3 : (2 : ℚ) ^ (e + 1) ≤ (2 : ℚ) ^ qLog2 q :=
      zpow_le_zpow_right₀ (by norm_num) this
    exact absurd (lt_of_lt_of_le h2 h3) (not_lt.mpr hs.1)

theorem rne_intCast (n : ℤ) : rne (n : ℚ) = n := by
  simp only [rne, Int.floor_intCast, sub_self]
  norm_num

theorem rne_ge (x : ℚ) : x - 1 / 2 ≤ (rne x : ℚ) := by
  simp only [rne]
  have h1 := Int.sub_one_lt_floor x
  have h2 := Int.floor_le x
  split_ifs with ha hb hc
  · linarith
  · push_cast
    linarith
  · linarith
  · push_cast
    linarith

theorem rne_le (x : ℚ) : (rne x : ℚ) ≤ x + 1 / 2 := by
  simp only [rne]
  have h2 := Int.floor_le x
  split_ifs with ha hb hc
  · linarith
  · push_cast
    linarith
  · linarith
  · push_cast
    linarith

end EFP

namespace EFP

theorem FP64_BIAS_eq : FP64_BIAS = 1023 := rfl

theorem EXP_MODULUS_eq : EXP_MODULUS = 64 := rfl

theorem ZEXP_eq : ZEXP = -(2 ^ 62) := by decide

theorem EFP64_MAX_MUL_eq : EFP64_MAX_MUL = 13 := by decide

theorem fp64_assemble_lt_sign0 (e : ℤ) (f : ℕ) (hf : f < 2 ^ 52)
    (he0 : 0 ≤ e + FP64_BIAS) (he1 : e + FP64_BIAS < 2 ^ 11) :
    fp64_assemble 0 e f < 2 ^ 63 := by
  rw [fp64_assemble_eq 0 e f (by norm_num) hf he0 he1]
  omega

/-- Value of an assembled nonnegative normal pattern. -/
theorem fp64_toRat_assemble (e : ℤ) (f : ℕ) (hf : f < 2 ^ 52)
    (he0 : -1022 ≤ e) (he1 : e ≤ 1023) :
    fp64_toRat (fp64_assemble 0 e f) = ((2 ^ 52 + f : ℕ) : ℚ) * (2 : ℚ) ^ (e - 52) := by
  have hfld := fp64_assemble_fields 0 e f (by norm_num) hf
    (by rw [FP64_BIAS_eq]; omega) (by rw [FP64_BIAS_eq]; omega)
  rw [fp64_toRat_of_sign_zero _ hfld.1]
  rw [fp64_toRatMag_normal _ (by rw [hfld.2.1, FP64_BIAS_eq]; omega)]
  rw [hfld.2.1, hfld.2.2.1]
  congr 1
  have : (((e + FP64_BIAS).toNat : ℕ) : ℤ) = e + FP64_BIAS :=
    Int.toNat_of_nonneg (by rw [FP64_BIAS_eq]; omega)
  rw [this, FP64_BIAS_eq]
  ring_nf

/-- The scaled mantissa of a positive rational lies in [2^52, 2^53), and its
nearest integer in [2^52, 2^53]. -/
theorem fp64_roundPos_m_bounds (q : ℚ) (hq : 0 < q) :
    (2 : ℚ) ^ (52 : ℤ) ≤ q * (2 : ℚ) ^ (52 - qLog2 q) ∧
    q * (2 : ℚ) ^ (52 - qLog2 q) < (2 : ℚ) ^ (53 : ℤ) ∧
    2 ^ 52 ≤ rne (q * (2 : ℚ) ^ (52 - qLog2 q)) ∧
    rne (q * (2 : ℚ) ^ (52 - qLog2 q)) ≤ 2 ^ 53 := by
  have hb := qLog2_spec q hq
  set E := qLog2 q with hE
  have hzp : (0 : ℚ) < (2 : ℚ) ^ (52 - E) := zpow_pos (by norm_num) _
  have hx1 : (2 : ℚ) ^ (52 : ℤ) ≤ q * (2 : ℚ) ^ (52 - E) := by
    calc (2 : ℚ) ^ (52 : ℤ) = (2 : ℚ) ^ E * (2 : ℚ) ^ (52 - E) := by
          rw [← zpow_add₀ (by norm_num : (2 : ℚ) ≠ 0)]
          ring_nf
      _ ≤ q * (2 : ℚ) ^ (52 - E) := mul_le_mul_of_nonneg_right hb.1 hzp.le
  have hx2 : q * (2 : ℚ) ^ (52 - E) < (2 : ℚ) ^ (53 : ℤ) := by
    calc q * (2 : ℚ) ^ (52 - E) < (2 : ℚ) ^ (E + 1) * (2 : ℚ) ^ (52 - E) :=
          mul_lt_mul_of_pos_right hb.2 hzp
      _ = (2 : ℚ) ^ (53 : ℤ) := by
          rw [← zpow_add₀ (by norm_num : (2 : ℚ) ≠ 0)]
          ring_nf
  refine ⟨hx1, hx2, ?_, ?_⟩
  · by_contra hc
    push_neg at hc
    have h1 : ((rne (q * (2 : ℚ) ^ (52 - E)) : ℤ) : ℚ) ≤ ((2 ^ 52 - 1 : ℤ) : ℚ) := by
      exact_mod_cast (by omega : rne (q * (2 : ℚ) ^ (52 - E)) ≤ 2 ^ 52 - 1)
    have h2 := rne_ge (q * (2 : ℚ) ^ (52 - E))
    have h3 : ((2 ^ 52 - 1 : ℤ) : ℚ) < (2 : ℚ) ^ (52 : ℤ) - 1 / 2 := by
      rw [show ((2 : ℚ) ^ (52 : ℤ)) = ((2 ^ 52 : ℤ) : ℚ) by norm_num]
      push_cast
      norm_num
    have h4 : (2 : ℚ) ^ (52 : ℤ) - 1 / 2 ≤ q * (2 : ℚ) ^ (52 - E) - 1 / 2 := by linarith
    exact absurd (h4.trans h2) (not_le.mpr (h1.trans_lt h3))
  · by_contra hc
    push_neg at hc
    have h1 : ((2 ^ 53 + 1 : ℤ) : ℚ) ≤ ((rne (q * (2 : ℚ) ^ (52 - E)) : ℤ) : ℚ) := by
      exact_mod_cast (by omega : 2 ^ 53 + 1 ≤ rne (q * (2 : ℚ) ^ (52 - E)))
    have h2 := rne_le (q * (2 : ℚ) ^ (52 - E))
    have h3 : ((2 ^ 53 + 1 : ℤ) : ℚ) = (2 : ℚ) ^ (53 : ℤ) + 1 := by norm_num
    linarith

/-- Structure of the rounded pattern in the normal range: a nonnegative
normal pattern whose value is the rounded mantissa times 2^(E-52). -/
theorem fp64_roundPos_spec (q : ℚ) (hq : 0 < q) (hE1 : -1022 ≤ qLog2 q) (hE2 : qLog2 q ≤ 1022) :
    fp64_roundPos q < 2 ^ 63 ∧
    fp64_get_sign (fp64_roundPos q) = 0 ∧
    1 ≤ fp64_get_biased_exponent (fp64_roundPos q) ∧
    fp64_get_biased_exponent (fp64_roundPos q) ≤ 2046 ∧
    fp64_toRat (fp64_roundPos q) =
      (rne (q * (2 : ℚ) ^ (52 - qLog2 q)) : ℚ) * (2 : ℚ) ^ (qLog2 q - 52) := by
  have hmb := fp64_roundPos_m_bounds q hq
  set E := qLog2 q with hE
  set m := rne (q * (2 : ℚ) ^ (52 - E)) with hm
  have hunf : fp64_roundPos q =
      (if m = 2 ^ 53 then fp64_assemble 0 (E + 1) 0
       else fp64_assemble 0 E (m.toNat - 2 ^ 52)) := by
    simp only [fp64_roundPos, qpow2_eq]
    rw [if_neg (not_le.mpr hq), ← hE, if_neg (by omega), if_neg (by omega), ← hm]
    by_cases hc : m = 2 ^ 53
    · rw [if_pos hc, if_pos hc, if_neg (by omega : ¬ E = 1023)]
    · rw [if_neg hc, if_neg hc]
  rw [hunf]
  by_cases hc : m = 2 ^ 53
  · rw [if_pos hc]
    have hfld := fp64_assemble_fields 0 (E + 1) 0 (by norm_num) (by norm_num)
      (by rw [FP64_BIAS_eq]; omega) (by rw [FP64_BIAS_eq]; omega)
    refine ⟨fp64_assemble_lt_sign0 _ _ (by norm_num)
      (by rw [FP64_BIAS_eq]; omega) (by rw [FP64_BIAS_eq]; omega),
      hfld.1, ?_, ?_, ?_⟩
    · rw [hfld.2.1, FP64_BIAS_eq]; omega
    · rw [hfld.2.1, FP64_BIAS_eq]; omega
    · rw [fp64_toRat_assemble (E + 1) 0 (by norm_num) (by omega) (by omega), hc]
      push_cast
      rw [show E + 1 - 52 = E - 52 + 1 by ring, zpow_add₀ (by norm_num : (2 : ℚ) ≠ 0)]
      ring
  · rw [if_neg hc]
    have hmn : m.toNat - 2 ^ 52 < 2 ^ 52 := by omega
    have hfld := fp64_assemble_fields 0 E (m.toNat - 2 ^ 52) (by norm_num) hmn
      (by rw [FP64_BIAS_eq]; omega) (by rw [FP64_BIAS_eq]; omega)
    refine ⟨fp64_assemble_lt_sign0 _ _ hmn
      (by rw [FP64_BIAS_eq]; omega) (by rw [FP64_BIAS_eq]; omega),
      hfld.1, ?_, ?_, ?_⟩
    · rw [hfld.2.1, FP64_BIAS_eq]; omega
    · rw [hfld.2.1, FP64_BIAS_eq]; omega
    · rw [fp64_toRat_assemble E (m.toNat - 2 ^ 52) hmn (by omega) (by omega)]
      congr 1
      have h1 : (2 ^ 52 + (m.toNat - 2 ^ 52) : ℕ) = m.toNat := by omega
      rw [h1]
      exact_mod_cast congrArg (fun z : ℤ => (z : ℚ)) (Int.toNat_of_nonneg (by omega : (0:ℤ) ≤ m))

end EFP

namespace EFP

theorem two_zpow_pos (m : ℤ) : (0 : ℚ) < (2 : ℚ) ^ m := zpow_pos (by norm_num) m

theorem two_zpow_le_iff {a b : ℤ} : (2 : ℚ) ^ a ≤ (2 : ℚ) ^ b ↔ a ≤ b := by
  constructor
  · intro h
    by_contra hc
    have h2 : (2 : ℚ) ^ b < (2 : ℚ) ^ a := by
      have : b + 1 ≤ a := by omega
      calc (2 : ℚ) ^ b < (2 : ℚ) ^ b * 2 := by nlinarith [two_zpow_pos b]
        _ = (2 : ℚ) ^ (b + 1) := by
            rw [zpow_add₀ (by norm_num : (2 : ℚ) ≠ 0)]
            norm_num
        _ ≤ (2 : ℚ) ^ a := zpow_le_zpow_right₀ (by norm_num) this
    exact absurd h (not_le.mpr h2)
  · exact fun h => zpow_le_zpow_right₀ (by norm_num) h

theorem two_zpow_lt_iff {a b : ℤ} : (2 : ℚ) ^ a < (2 : ℚ) ^ b ↔ a < b := by
  constructor
  · intro h
    by_contra hc
    exact absurd (two_zpow_le_iff.mpr (by omega)) (not_le.mpr h)
  · intro h
    exact lt_of_lt_of_le (by nlinarith [two_zpow_pos a] :
      (2 : ℚ) ^ a < (2 : ℚ) ^ a * 2) (by
        rw [show (2 : ℚ) ^ a * 2 = (2 : ℚ) ^ (a + 1) by
          rw [zpow_add₀ (by norm_num : (2 : ℚ) ≠ 0)]; norm_num]
        exact zpow_le_zpow_right₀ (by norm_num) (by omega))

/-- Magnitude depends only on the biased exponent and fraction fields. -/
theorem fp64_toRatMag_congr (x y : ℕ)
    (hb : fp64_get_biased_exponent x = fp64_get_biased_exponent y)
    (hf : fp64_get_fraction x = fp64_get_fraction y) :
    fp64_toRatMag x = fp64_toRatMag y := by
  unfold fp64_toRatMag
  rw [hb, hf]

theorem fp64_exponent_ge (x : ℕ) (hb : 1 ≤ fp64_get_biased_exponent x) (k : ℤ)
    (h : (2 : ℚ) ^ k ≤ fp64_toRatMag x) : k ≤ fp64_get_exponent x := by
  have h2 := (fp64_toRatMag_bounds x hb).2
  have h3 : (2 : ℚ) ^ k < (2 : ℚ) ^ (fp64_get_exponent x + 1) := lt_of_le_of_lt h h2
  have := two_zpow_lt_iff.mp h3
  omega

theorem fp64_exponent_lt (x : ℕ) (hb : 1 ≤ fp64_get_biased_exponent x) (k : ℤ)
    (h : fp64_toRatMag x < (2 : ℚ) ^ k) : fp64_get_exponent x < k := by
  have h1 := (fp64_toRatMag_bounds x hb).1
  exact two_zpow_lt_iff.mp (lt_of_le_of_lt h1 h)

/-- The pattern the positive rounder produces, explicitly. -/
theorem fp64_roundPos_eq_assemble (q : ℚ) (hq : 0 < q)
    (hE1 : -1022 ≤ qLog2 q) (hE2 : qLog2 q ≤ 1022) :
    fp64_roundPos q =
      if rne (q * (2 : ℚ) ^ (52 - qLog2 q)) = 2 ^ 53 then fp64_assemble 0 (qLog2 q + 1) 0
      else fp64_assemble 0 (qLog2 q) ((rne (q * (2 : ℚ) ^ (52 - qLog2 q))).toNat - 2 ^ 52) := by
  simp only [fp64_roundPos, qpow2_eq]
  rw [if_neg (not_le.mpr hq), if_neg (by omega), if_neg (by omega)]
  by_cases hc : rne (q * (2 : ℚ) ^ (52 - qLog2 q)) = 2 ^ 53
  · rw [if_pos hc, if_pos hc, if_neg (by omega : ¬ qLog2 q = 1023)]
  · rw [if_neg hc, if_neg hc]

theorem fp64_roundPos_lower (q : ℚ) (hq : 0 < q)
    (hE1 : -1022 ≤ qLog2 q) (hE2 : qLog2 q ≤ 1022) :
    (2 : ℚ) ^ qLog2 q ≤ fp64_toRat (fp64_roundPos q) := by
  have hs := fp64_roundPos_spec q hq hE1 hE2
  have hmb := fp64_roundPos_m_bounds q hq
  rw [hs.2.2.2.2]
  have h1 : ((2 ^ 52 : ℤ) : ℚ) ≤ ((rne (q * (2 : ℚ) ^ (52 - qLog2 q)) : ℤ) : ℚ) := by
    exact_mod_cast hmb.2.2.1
  calc (2 : ℚ) ^ qLog2 q = ((2 ^ 52 : ℤ) : ℚ) * (2 : ℚ) ^ (qLog2 q - 52) := by
        rw [show ((2 ^ 52 : ℤ) : ℚ) = (2 : ℚ) ^ (52 : ℤ) by norm_num,
          ← zpow_add₀ (by norm_num : (2 : ℚ) ≠ 0)]
        ring_nf
    _ ≤ _ := mul_le_mul_of_nonneg_right h1 (two_zpow_pos _).le

theorem fp64_roundPos_upper (q : ℚ) (hq : 0 < q)
    (hE1 : -1022 ≤ qLog2 q) (hE2 : qLog2 q ≤ 1022) :
    fp64_toRat (fp64_roundPos q) ≤ (2 : ℚ) ^ (qLog2 q + 1) := by
  have hs := fp64_roundPos_spec q hq hE1 hE2
  have hmb := fp64_roundPos_m_bounds q hq
  rw [hs.2.2.2.2]
  have h1 : ((rne (q * (2 : ℚ) ^ (52 - qLog2 q)) : ℤ) : ℚ) ≤ ((2 ^ 53 : ℤ) : ℚ) := by
    exact_mod_cast hmb.2.2.2
  calc (rne (q * (2 : ℚ) ^ (52 - qLog2 q)) : ℚ) * (2 : ℚ) ^ (qLog2 q - 52)
      ≤ ((2 ^ 53 : ℤ) : ℚ) * (2 : ℚ) ^ (qLog2 q - 52) :=
        mul_le_mul_of_nonneg_right h1 (two_zpow_pos _).le
    _ = (2 : ℚ) ^ (qLog2 q + 1) := by
        rw [show ((2 ^ 53 : ℤ) : ℚ) = (2 : ℚ) ^ (53 : ℤ) by norm_num,
          ← zpow_add₀ (by norm_num : (2 : ℚ) ≠ 0)]
        ring_nf

theorem fp64_roundPos_upper_strict (q : ℚ) (hq : 0 < q)
    (hE1 : -1022 ≤ qLog2 q) (hE2 : qLog2 q ≤ 1022)
    (hst : q < (2 : ℚ) ^ (qLog2 q + 1) - (2 : ℚ) ^ (qLog2 q - 53)) :
    fp64_toRat (fp64_roundPos q) < (2 : ℚ) ^ (qLog2 q + 1) := by
  have hs := fp64_roundPos_spec q hq hE1 hE2
  rw [hs.2.2.2.2]
  set E := qLog2 q with hE
  have hx : q * (2 : ℚ) ^ (52 - E) < (2 : ℚ) ^ (53 : ℤ) - 1 / 2 := by
    have h1 : ((2 : ℚ) ^ (E + 1) - (2 : ℚ) ^ (E - 53)) * (2 : ℚ) ^ (52 - E) =
        (2 : ℚ) ^ (53 : ℤ) - 1 / 2 := by
      rw [sub_mul, ← zpow_add₀ (by norm_num : (2 : ℚ) ≠ 0),
        ← zpow_add₀ (by norm_num : (2 : ℚ) ≠ 0),
        show E + 1 + (52 - E) = (53 : ℤ) by ring,
        show E - 53 + (52 - E) = (-1 : ℤ) by ring]
      norm_num
    rw [← h1]
    exact mul_lt_mul_of_pos_right hst (two_zpow_pos _)
  have hm : rne (q * (2 : ℚ) ^ (52 - E)) ≤ 2 ^ 53 - 1 := by
    by_contra hc
    push_neg at hc
    have h1 : ((2 ^ 53 : ℤ) : ℚ) ≤ ((rne (q * (2 : ℚ) ^ (52 - E)) : ℤ) : ℚ) := by
      exact_mod_cast (by omega : (2 ^ 53 : ℤ) ≤ rne (q * (2 : ℚ) ^ (52 - E)))
    have h2 := rne_le (q * (2 : ℚ) ^ (52 - E))
    have h3 : ((2 ^ 53 : ℤ) : ℚ) = (2 : ℚ) ^ (53 : ℤ) := by norm_num
    linarith
  have h1 : ((rne (q * (2 : ℚ) ^ (52 - E)) : ℤ) : ℚ) ≤ ((2 ^ 53 - 1 : ℤ) : ℚ) := by
    exact_mod_cast hm
  calc (rne (q * (2 : ℚ) ^ (52 - E)) : ℚ) * (2 : ℚ) ^ (E - 52)
      ≤ ((2 ^ 53 - 1 : ℤ) : ℚ) * (2 : ℚ) ^ (E - 52) :=
        mul_le_mul_of_nonneg_right h1 (two_zpow_pos _).le
    _ < ((2 ^ 53 : ℤ) : ℚ) * (2 : ℚ) ^ (E - 52) := by
        have := two_zpow_pos (E - 52)
        have hlt : ((2 ^ 53 - 1 : ℤ) : ℚ) < ((2 ^ 53 : ℤ) : ℚ) := by exact_mod_cast (by omega : (2 ^ 53 - 1 : ℤ) < 2 ^ 53)
        exact mul_lt_mul_of_pos_right hlt this
    _ = (2 : ℚ) ^ (E + 1) := by
        rw [show ((2 ^ 53 : ℤ) : ℚ) = (2 : ℚ) ^ (53 : ℤ) by norm_num,
          ← zpow_add₀ (by norm_num : (2 : ℚ) ≠ 0)]
        ring_nf

theorem fp64_roundPos_exact (q : ℚ) (hq : 0 < q)
    (hE1 : -1022 ≤ qLog2 q) (hE2 : qLog2 q ≤ 1022) (k : ℤ)
    (hk : q * (2 : ℚ) ^ (52 - qLog2 q) = (k : ℚ)) :
    fp64_toRat (fp64_roundPos q) = q := by
  have hs := fp64_roundPos_spec q hq hE1 hE2
  rw [hs.2.2.2.2, hk, rne_intCast, ← hk]
  rw [mul_assoc, ← zpow_add₀ (by norm_num : (2 : ℚ) ≠ 0)]
  norm_num

end EFP

namespace EFP

theorem fp64_round_of_pos (q : ℚ) (hq : 0 < q) : fp64_round q = fp64_roundPos q := by
  unfold fp64_round
  rw [if_neg (not_lt.mpr hq.le)]

theorem fp64_round_of_neg (q : ℚ) (hq : q < 0) : fp64_round q = fp64_roundPos (-q) + 2 ^ 63 := by
  unfold fp64_round
  rw [if_pos hq]

/-- Setting the sign bit of a small pattern flips the value and keeps the
other fields. -/
theorem fp64_add_sign_fields (p : ℕ) (hp : p < 2 ^ 63) :
    fp64_get_sign (p + 2 ^ 63) = 1 ∧
    fp64_get_biased_exponent (p + 2 ^ 63) = fp64_get_biased_exponent p ∧
    fp64_get_fraction (p + 2 ^ 63) = fp64_get_fraction p ∧
    fp64_toRat (p + 2 ^ 63) = -fp64_toRat p ∧
    fp64_toRatMag (p + 2 ^ 63) = fp64_toRatMag p ∧
    p + 2 ^ 63 < 2 ^ 64 := by
  have hs : fp64_get_sign (p + 2 ^ 63) = 1 := by
    unfold fp64_get_sign
    omega
  have hs0 : fp64_get_sign p = 0 := by
    unfold fp64_get_sign
    omega
  have hb : fp64_get_biased_exponent (p + 2 ^ 63) = fp64_get_biased_exponent p := by
    unfold fp64_get_biased_exponent
    omega
  have hf : fp64_get_fraction (p + 2 ^ 63) = fp64_get_fraction p := by
    unfold fp64_get_fraction
    omega
  have hmag : fp64_toRatMag (p + 2 ^ 63) = fp64_toRatMag p := fp64_toRatMag_congr _ _ hb hf
  refine ⟨hs, hb, hf, ?_, hmag, by omega⟩
  rw [fp64_toRat_of_sign_one _ hs, fp64_toRat_of_sign_zero _ hs0, hmag]

/-- Structure of the signed rounded pattern in the normal range. -/
theorem fp64_round_spec (q : ℚ) (hq : q ≠ 0)
    (hE1 : -1022 ≤ qLog2 |q|) (hE2 : qLog2 |q| ≤ 1022) :
    fp64_round q < 2 ^ 64 ∧
    1 ≤ fp64_get_biased_exponent (fp64_round q) ∧
    fp64_get_biased_exponent (fp64_round q) ≤ 2046 ∧
    fp64_toRatMag (fp64_round q) = fp64_toRat (fp64_roundPos |q|) ∧
    fp64_get_sign (fp64_round q) = (if q < 0 then 1 else 0) := by
  rcases lt_or_gt_of_ne hq with hneg | hpos
  · have habs : |q| = -q := abs_of_neg hneg
    rw [habs] at hE1 hE2
    have hs := fp64_roundPos_spec (-q) (by linarith) hE1 hE2
    rw [fp64_round_of_neg q hneg]
    have hadd := fp64_add_sign_fields (fp64_roundPos (-q)) hs.1
    refine ⟨hadd.2.2.2.2.2, ?_, ?_, ?_, ?_⟩
    · rw [hadd.2.1]; exact hs.2.2.1
    · rw [hadd.2.1]; exact hs.2.2.2.1
    · rw [hadd.2.2.2.2.1, habs]
      exact (fp64_toRat_of_sign_zero _ hs.2.1).symm
    · rw [if_pos hneg]; exact hadd.1
  · have habs : |q| = q := abs_of_pos hpos
    rw [habs] at hE1 hE2
    have hs := fp64_roundPos_spec q hpos hE1 hE2
    rw [fp64_round_of_pos q hpos]
    refine ⟨by omega, hs.2.2.1, hs.2.2.2.1, ?_, ?_⟩
    · rw [habs]
      exact (fp64_toRat_of_sign_zero _ hs.2.1).symm
    · rw [if_neg (by linarith)]
      exact hs.2.1

theorem fp64_round_exact (q : ℚ) (hq : q ≠ 0)
    (hE1 : -1022 ≤ qLog2 |q|) (hE2 : qLog2 |q| ≤ 1022) (k : ℤ)
    (hk : |q| * (2 : ℚ) ^ (52 - qLog2 |q|) = (k : ℚ)) :
    fp64_toRat (fp64_round q) = q := by
  rcases lt_or_gt_of_ne hq with hneg | hpos
  · have habs : |q| = -q := abs_of_neg hneg
    rw [habs] at hE1 hE2 hk
    have hs := fp64_roundPos_spec (-q) (by linarith) hE1 hE2
    rw [fp64_round_of_neg q hneg]
    rw [(fp64_add_sign_fields (fp64_roundPos (-q)) hs.1).2.2.2.1]
    rw [fp64_roundPos_exact (-q) (by linarith) hE1 hE2 k hk]
    ring
  · have habs : |q| = q := abs_of_pos hpos
    rw [habs] at hE1 hE2 hk
    rw [fp64_round_of_pos q hpos]
    exact fp64_roundPos_exact q hpos hE1 hE2 k hk

/-- The positive rounder reproduces a normal pattern given its exact value. -/
theorem fp64_roundPos_pattern (b f : ℕ) (hb1 : 1 ≤ b) (hb2 : b ≤ 2045) (hf : f < 2 ^ 52) :
    fp64_roundPos (((2 ^ 52 + f : ℕ) : ℚ) * (2 : ℚ) ^ ((b : ℤ) - 1075)) = b * 2 ^ 52 + f := by
  set q := ((2 ^ 52 + f : ℕ) : ℚ) * (2 : ℚ) ^ ((b : ℤ) - 1075) with hq
  have hm : (0 : ℚ) < ((2 ^ 52 + f : ℕ) : ℚ) := by positivity
  have hqpos : 0 < q := mul_pos hm (two_zpow_pos _)
  have hE : qLog2 q = (b : ℤ) - 1023 := by
    apply qLog2_unique
    · calc (2 : ℚ) ^ ((b : ℤ) - 1023) = (2 : ℚ) ^ (52 : ℤ) * (2 : ℚ) ^ ((b : ℤ) - 1075) := by
            rw [← zpow_add₀ (by norm_num : (2 : ℚ) ≠ 0)]
            ring_nf
        _ ≤ q := by
            apply mul_le_mul_of_nonneg_right _ (two_zpow_pos _).le
            rw [show ((2 : ℚ) ^ (52 : ℤ)) = ((2 ^ 52 : ℕ) : ℚ) by norm_num]
            exact_mod_cast Nat.le_add_right (2 ^ 52) f
    · calc q < (2 : ℚ) ^ (53 : ℤ) * (2 : ℚ) ^ ((b : ℤ) - 1075) := by
            apply mul_lt_mul_of_pos_right _ (two_zpow_pos _)
            rw [show ((2 : ℚ) ^ (53 : ℤ)) = ((2 ^ 53 : ℕ) : ℚ) by norm_num]
            exact_mod_cast (by omega : 2 ^ 52 + f < 2 ^ 53)
        _ = (2 : ℚ) ^ ((b : ℤ) - 1023 + 1) := by
            rw [← zpow_add₀ (by norm_num : (2 : ℚ) ≠ 0)]
            ring_nf
  have hx : q * (2 : ℚ) ^ (52 - qLog2 q) = (((2 ^ 52 + f : ℕ) : ℤ) : ℚ) := by
    rw [hE, hq]
    rw [mul_assoc, ← zpow_add₀ (by norm_num : (2 : ℚ) ≠ 0),
      show (b : ℤ) - 1075 + (52 - ((b : ℤ) - 1023)) = 0 by ring]
    push_cast
    ring
  have hrm : rne (q * (2 : ℚ) ^ (52 - qLog2 q)) = ((2 ^ 52 + f : ℕ) : ℤ) := by
    rw [hx, rne_intCast]
  rw [fp64_roundPos_eq_assemble q hqpos (by omega) (by omega)]
  rw [hrm, if_neg (by push_cast; omega), hE]
  have htn : (((2 ^ 52 + f : ℕ) : ℤ)).toNat = 2 ^ 52 + f := by omega
  rw [htn]
  rw [fp64_assemble_eq 0 ((b : ℤ) - 1023) (2 ^ 52 + f - 2 ^ 52)
    (by norm_num) (by omega) (by rw [FP64_BIAS_eq]; omega) (by rw [FP64_BIAS_eq]; omega)]
  rw [FP64_BIAS_eq]
  omega

/-- Rounding is exact on normal patterns (with room for the sign path). -/
theorem fp64_round_idem (x : ℕ) (hx : x < 2 ^ 64)
    (hb1 : 1 ≤ fp64_get_biased_exponent x) (hb2 : fp64_get_biased_exponent x ≤ 2045) :
    fp64_round (fp64_toRat x) = x := by
  have hd := fp64_fields_decomp x hx
  have hmagpos : 0 < fp64_toRatMag x := fp64_toRatMag_pos x (Or.inl (by omega))
  have hmag : fp64_toRatMag x =
      ((2 ^ 52 + fp64_get_fraction x : ℕ) : ℚ) *
        (2 : ℚ) ^ ((fp64_get_biased_exponent x : ℤ) - 1075) :=
    fp64_toRatMag_normal x hb1
  have hpat := fp64_roundPos_pattern (fp64_get_biased_exponent x) (fp64_get_fraction x)
    hb1 hb2 (fp64_get_fraction_lt x)
  have hsign : fp64_get_sign x = 0 ∨ fp64_get_sign x = 1 := by
    have := fp64_get_sign_lt x
    omega
  rcases hsign with hs | hs
  · rw [fp64_toRat_of_sign_zero _ hs]
    rw [fp64_round_of_pos _ hmagpos, hmag, hpat]
    omega
  · rw [fp64_toRat_of_sign_one _ hs]
    rw [fp64_round_of_neg _ (by linarith), neg_neg, hmag, hpat]
    omega

end EFP

namespace EFP

/-! ## Constants, comparisons and the canonical predicate -/

theorem fp64_isNaN_false_of_biased (x : ℕ) (h : fp64_get_biased_exponent x ≤ 2046) :
    fp64_isNaN x = false := by
  unfold fp64_isNaN
  simp only [Bool.and_eq_false_iff]
  left
  simp only [decide_eq_false_iff_not]
  omega

theorem fp64_isInf_false_of_biased (x : ℕ) (h : fp64_get_biased_exponent x ≤ 2046) :
    fp64_isInf x = false := by
  unfold fp64_isInf
  simp only [Bool.and_eq_false_iff]
  left
  simp only [decide_eq_false_iff_not]
  omega

theorem fp64_toRat_zero : fp64_toRat 0 = 0 :=
  (fp64_toRat_eq_zero_iff 0).mpr ⟨rfl, rfl⟩

theorem fp64_isNaN_zero : fp64_isNaN 0 = false := fp64_isNaN_false_of_biased 0 (by norm_num [fp64_get_biased_exponent])

theorem fp64_one_fields :
    fp64_get_sign fp64_one = 0 ∧ fp64_get_biased_exponent fp64_one = 1023 ∧
    fp64_get_fraction fp64_one = 0 ∧ fp64_one < 2 ^ 64 := by
  have h := fp64_assemble_fields 0 0 0 (by norm_num) (by norm_num)
    (by rw [FP64_BIAS_eq]; norm_num) (by rw [FP64_BIAS_eq]; norm_num)
  refine ⟨h.1, ?_, h.2.2.1, h.2.2.2.2⟩
  show fp64_get_biased_exponent (fp64_assemble 0 0 0) = 1023
  rw [h.2.1]
  rfl

theorem fp64_toRat_one : fp64_toRat fp64_one = 1 := by
  unfold fp64_one
  rw [fp64_toRat_assemble 0 0 (by norm_num) (by norm_num) (by norm_num)]
  norm_num

theorem fp64_power2_of_ge (p : ℤ) (hp : -1022 ≤ p) :
    fp64_power2 p = fp64_assemble 0 p 0 := by
  unfold fp64_power2
  rw [if_neg (by rw [FP64_BIAS_eq]; omega)]

theorem fp64_power2_underflow (p : ℤ) (hp : p ≤ -1023) : fp64_power2 p = 0 := by
  unfold fp64_power2
  rw [if_pos (by rw [FP64_BIAS_eq]; omega)]

theorem fp64_power2_toRat (p : ℤ) (hp1 : -1022 ≤ p) (hp2 : p ≤ 1023) :
    fp64_toRat (fp64_power2 p) = (2 : ℚ) ^ p := by
  rw [fp64_power2_of_ge p hp1, fp64_toRat_assemble p 0 (by norm_num) hp1 hp2]
  rw [show ((2 ^ 52 + 0 : ℕ) : ℚ) = (2 : ℚ) ^ (52 : ℤ) by norm_num]
  rw [← zpow_add₀ (by norm_num : (2 : ℚ) ≠ 0)]
  ring_nf

/-- The comparison operators agree with the rational order on non-NaN patterns. -/
theorem fp64_lt_iff (x y : ℕ) (hx : fp64_isNaN x = false) (hy : fp64_isNaN y = false) :
    fp64_lt x y = true ↔ fp64_toRat x < fp64_toRat y := by
  unfold fp64_lt
  rw [hx, hy]
  simp

theorem fp64_le_iff (x y : ℕ) (hx : fp64_isNaN x = false) (hy : fp64_isNaN y = false) :
    fp64_le x y = true ↔ fp64_toRat x ≤ fp64_toRat y := by
  unfold fp64_le
  rw [hx, hy]
  simp

theorem fp64_beq_iff (x y : ℕ) (hx : fp64_isNaN x = false) (hy : fp64_isNaN y = false) :
    fp64_beq x y = true ↔ fp64_toRat x = fp64_toRat y := by
  unfold fp64_beq
  rw [hx, hy]
  simp

theorem efp64_is_zero_iff (a : efp64_t) :
    efp64_is_zero a = true ↔ (fp64_isNaN a.fp = false ∧ fp64_toRat a.fp = 0) := by
  unfold efp64_is_zero fp64_zero_bits
  rw [show fp64_beq a.fp 0 = (!fp64_isNaN a.fp && decide (fp64_toRat a.fp = 0)) by
    unfold fp64_beq
    rw [fp64_isNaN_zero, fp64_toRat_zero]
    simp]
  simp

/-- abs strips the sign and keeps the other fields. -/
theorem fp64_abs_fields (x : ℕ) :
    fp64_get_sign (fp64_abs x) = 0 ∧
    fp64_get_biased_exponent (fp64_abs x) = fp64_get_biased_exponent x ∧
    fp64_get_fraction (fp64_abs x) = fp64_get_fraction x ∧
    fp64_toRat (fp64_abs x) = fp64_toRatMag x ∧
    fp64_isNaN (fp64_abs x) = fp64_isNaN x := by
  have hs : fp64_get_sign (fp64_abs x) = 0 := by
    unfold fp64_get_sign fp64_abs
    omega
  have hb : fp64_get_biased_exponent (fp64_abs x) = fp64_get_biased_exponent x := by
    unfold fp64_get_biased_exponent fp64_abs
    omega
  have hf : fp64_get_fraction (fp64_abs x) = fp64_get_fraction x := by
    unfold fp64_get_fraction fp64_abs
    omega
  refine ⟨hs, hb, hf, ?_, ?_⟩
  · rw [fp64_toRat_of_sign_zero _ hs]
    exact fp64_toRatMag_congr _ _ hb hf
  · unfold fp64_isNaN
    rw [hb, hf]

/-- Elimination of the canonical predicate: either the canonical zero, or a
normal nonzero pattern with window bounds. -/
theorem efp64_canonical_elim (v : efp64_t) (hc : efp64_canonical v) :
    v = efp64_zero ∨
    (v.fp < 2 ^ 64 ∧ 1023 ≤ fp64_get_biased_exponent v.fp ∧
     fp64_get_biased_exponent v.fp ≤ 1086 ∧
     fp64_isNaN v.fp = false ∧ fp64_isInf v.fp = false ∧
     (1 : ℚ) ≤ fp64_toRatMag v.fp ∧
     fp64_toRatMag v.fp ≤ (2 : ℚ) ^ (64 : ℤ) - (2 : ℚ) ^ (11 : ℤ) ∧
     EXP_MODULUS ∣ v.exp ∧ ZEXP < v.exp ∧ efp64_is_zero v = false) := by
  obtain ⟨hlt, hz | hnz⟩ := hc
  · left
    have hv : v = ⟨v.fp, v.exp⟩ := rfl
    rw [hv, hz.1, hz.2]
    rfl
  · right
    obtain ⟨he0, he1, hdvd, hzx⟩ := hnz
    have hb : 1023 ≤ fp64_get_biased_exponent v.fp ∧ fp64_get_biased_exponent v.fp ≤ 1086 := by
      unfold fp64_get_exponent FP64_BIAS at he0 he1
      rw [EXP_MODULUS_eq] at he1
      omega
    have hnan : fp64_isNaN v.fp = false := fp64_isNaN_false_of_biased _ (by omega)
    have hinf : fp64_isInf v.fp = false := fp64_isInf_false_of_biased _ (by omega)
    have hmag := fp64_toRatMag_bounds v.fp (by omega)
    have hml : (1 : ℚ) ≤ fp64_toRatMag v.fp := by
      refine le_trans ?_ hmag.1
      rw [show (1 : ℚ) = (2 : ℚ) ^ (0 : ℤ) by norm_num]
      exact two_zpow_le_iff.mpr he0
    have hmu : fp64_toRatMag v.fp ≤ (2 : ℚ) ^ (64 : ℤ) - (2 : ℚ) ^ (11 : ℤ) := by
      rw [fp64_toRatMag_normal v.fp (by omega)]
      have hfr := fp64_get_fraction_lt v.fp
      calc ((2 ^ 52 + fp64_get_fraction v.fp : ℕ) : ℚ) *
            (2 : ℚ) ^ ((fp64_get_biased_exponent v.fp : ℤ) - 1075)
          ≤ ((2 ^ 53 - 1 : ℕ) : ℚ) * (2 : ℚ) ^ ((fp64_get_biased_exponent v.fp : ℤ) - 1075) := by
            apply mul_le_mul_of_nonneg_right _ (two_zpow_pos _).le
            exact_mod_cast (by omega : 2 ^ 52 + fp64_get_fraction v.fp ≤ 2 ^ 53 - 1)
        _ ≤ ((2 ^ 53 - 1 : ℕ) : ℚ) * (2 : ℚ) ^ (11 : ℤ) := by
            apply mul_le_mul_of_nonneg_left (two_zpow_le_iff.mpr (by omega)) (by positivity)
        _ = (2 : ℚ) ^ (64 : ℤ) - (2 : ℚ) ^ (11 : ℤ) := by norm_num
    have hz : efp64_is_zero v = false := by
      rw [← Bool.not_eq_true, efp64_is_zero_iff]
      intro hcontra
      have := (fp64_toRat_eq_zero_iff v.fp).mp hcontra.2
      omega
    exact ⟨hlt, hb.1, hb.2, hnan, hinf, hml, hmu, hdvd, hzx, hz⟩

theorem FP64_EXP_MASK_eq : FP64_EXP_MASK = 2047 := rfl

theorem fp64_exponent_below_false (e : ℤ) (h : -1022 ≤ e) :
    fp64_exponent_below e = false := by
  unfold fp64_exponent_below
  rw [FP64_BIAS_eq]
  simp only [decide_eq_false_iff_not]
  omega

theorem fp64_exponent_above_false (e : ℤ) (h : e ≤ 1023) :
    fp64_exponent_above e = false := by
  unfold fp64_exponent_above
  rw [FP64_EXP_MASK_eq, FP64_BIAS_eq]
  simp only [decide_eq_false_iff_not]
  omega

/-- In-range conversion back to a native double installs the full exponent. -/
theorem efp64_to_fp64_in_range (v : efp64_t) (hnz : efp64_is_zero v = false)
    (h1 : -1022 ≤ efp64_full_exponent v) (h2 : efp64_full_exponent v ≤ 1023) :
    efp64_to_fp64 v = fp64_replace_exponent v.fp (efp64_full_exponent v) := by
  simp only [efp64_to_fp64]
  rw [if_neg (by simp [hnz]), fp64_exponent_below_false _ h1, fp64_exponent_above_false _ h2]
  simp

/-! ## hi and lo part -/

theorem lo_part_bounds (x : ℤ) : 0 ≤ lo_part x EXP_BITS ∧ lo_part x EXP_BITS < 64 := by
  unfold lo_part EXP_BITS
  constructor
  · exact Int.emod_nonneg x (by norm_num)
  · exact Int.emod_lt_of_pos x (by norm_num)

theorem hi_part_dvd (x : ℤ) : (64 : ℤ) ∣ hi_part x EXP_BITS :=
  ⟨Int.ediv x (2 ^ EXP_BITS), by unfold hi_part EXP_BITS; norm_num⟩

theorem hi_lo_part_add (x : ℤ) : hi_part x EXP_BITS + lo_part x EXP_BITS = x := by
  unfold hi_part lo_part
  exact Int.ediv_add_emod x (2 ^ EXP_BITS)

/-- Full canonicalize always yields the canonical zero or a value satisfying
the window invariant: this depends only on the bit split, not on rounding. -/
theorem efp64_canonicalize_inv (a : efp64_t) (ha : a.fp < 2 ^ 64) :
    efp64_canonicalize a = efp64_zero ∨ efp64_invariant (efp64_canonicalize a) := by
  unfold efp64_canonicalize
  by_cases hz : efp64_is_zero a
  · rw [if_pos hz]
    exact Or.inl rfl
  · rw [if_neg hz]
    right
    set nexp := efp64_full_exponent a with hnexp
    have hlo := lo_part_bounds nexp
    have hfld := fp64_replace_exponent_fields a.fp (lo_part nexp EXP_BITS) ha
      (by rw [FP64_BIAS_eq]; omega) (by rw [FP64_BIAS_eq]; omega)
    refine ⟨?_, ?_, ?_⟩
    · rw [hfld.2.2.2.1]
      exact hlo.1
    · rw [hfld.2.2.2.1, EXP_MODULUS_eq]
      exact hlo.2
    · rw [EXP_MODULUS_eq]
      exact hi_part_dvd nexp

end EFP

namespace EFP

theorem efp64_is_zero_efp64_zero : efp64_is_zero efp64_zero = true := by with_unfolding_all decide

/-- A value whose significand is a normal pattern inside the window [1, 2^64)
passes through the two-sided quick canonicalize unchanged. -/
theorem efp64_quick_canonicalize_id (v : efp64_t)
    (hnan : fp64_isNaN v.fp = false)
    (h1 : (1 : ℚ) ≤ fp64_toRatMag v.fp) (h2 : fp64_toRatMag v.fp < (2 : ℚ) ^ (64 : ℤ)) :
    efp64_quick_canonicalize v = v := by
  have habs := fp64_abs_fields v.fp
  have hnanabs : fp64_isNaN (fp64_abs v.fp) = false := by rw [habs.2.2.2.2, hnan]
  have hlt : fp64_lt (fp64_abs v.fp) fp64_one = false := by
    rw [← Bool.not_eq_true, fp64_lt_iff _ _ hnanabs (fp64_isNaN_false_of_biased _ (by rw [fp64_one_fields.2.1]; norm_num))]
    rw [habs.2.2.2.1, fp64_toRat_one]
    exact not_lt.mpr h1
  have hle : fp64_le (fp64_power2 EXP_MODULUS) (fp64_abs v.fp) = false := by
    have hp2 : fp64_power2 EXP_MODULUS = fp64_assemble 0 64 0 := by
      rw [EXP_MODULUS_eq]
      exact fp64_power2_of_ge 64 (by norm_num)
    have hnanp : fp64_isNaN (fp64_power2 EXP_MODULUS) = false := by
      rw [hp2]
      exact fp64_isNaN_false_of_biased _ (by
        rw [(fp64_assemble_fields 0 64 0 (by norm_num) (by norm_num)
          (by rw [FP64_BIAS_eq]; norm_num) (by rw [FP64_BIAS_eq]; norm_num)).2.1]
        rw [FP64_BIAS_eq]
        norm_num)
    rw [← Bool.not_eq_true, fp64_le_iff _ _ hnanp hnanabs]
    rw [habs.2.2.2.1]
    have hval : fp64_toRat (fp64_power2 EXP_MODULUS) = (2 : ℚ) ^ (64 : ℤ) := by
      rw [EXP_MODULUS_eq]
      exact fp64_power2_toRat 64 (by norm_num) (by norm_num)
    rw [hval]
    exact not_le.mpr h2
  simp only [efp64_quick_canonicalize]
  rw [hlt, hle]
  simp

/-- C9: an input that is zero or has a negative significand makes
`efp64_sqrt` return the canonical zero value (significand 0.0, exponentHigh
ZEXP) instead of a domain error or NaN. -/
theorem C9_theorem (a : efp64_t)
    (h : efp64_is_zero a = true ∨ fp64_lt a.fp fp64_zero_bits = true) :
    efp64_sqrt a = efp64_zero := by
  unfold efp64_sqrt
  rcases h with h | h
  · rw [if_pos (by simp [h])]
  · rw [if_pos (by simp [h])]

/-- C9 witness: the square root of -1 is the canonical zero. -/
theorem C9_witness :
    fp64_lt (efp64_from_fp64 (fp64_neg fp64_one)).fp fp64_zero_bits = true ∧
    efp64_sqrt (efp64_from_fp64 (fp64_neg fp64_one)) = efp64_zero :=
  ⟨by with_unfolding_all decide, C9_theorem (efp64_from_fp64 (fp64_neg fp64_one)) (Or.inr (by with_unfolding_all decide))⟩

/-- C2 counterexample: the smallest positive subnormal double (pattern 1)
is representable and nonzero, but converting it into the extended
representation and back yields 0.0, so the round trip is not exact. -/
theorem C2_counterexample :
    fp64_get_biased_exponent 1 = 0 ∧ fp64_toRat 1 ≠ 0 ∧
    fp64_beq (efp64_to_fp64 (efp64_from_fp64 1)) 1 = false := by with_unfolding_all decide

/-- C2 (amended): for every native double that is zero or normal (biased
exponent in [1, 2046]), converting with efp64_from_fp64 and back with
efp64_to_fp64 yields the same double exactly; nonzero subnormals are
excluded (they collapse to zero, see the counterexample). -/
theorem C2_theorem (d : ℕ) (hd : d < 2 ^ 64)
    (h : fp64_toRat d = 0 ∨
      (1 ≤ fp64_get_biased_exponent d ∧ fp64_get_biased_exponent d ≤ 2046)) :
    fp64_beq (efp64_to_fp64 (efp64_from_fp64 d)) d = true := by
  rcases h with h | h
  · have hzf := (fp64_toRat_eq_zero_iff d).mp h
    have hnan : fp64_isNaN d = false := fp64_isNaN_false_of_biased d (by omega)
    have hz : efp64_is_zero ⟨d, 0⟩ = true := (efp64_is_zero_iff ⟨d, 0⟩).mpr ⟨hnan, h⟩
    unfold efp64_from_fp64 efp64_canonicalize
    rw [if_pos hz]
    rw [show efp64_to_fp64 efp64_zero = fp64_zero_bits by with_unfolding_all decide]
    show fp64_beq 0 d = true
    rw [fp64_beq_iff _ _ fp64_isNaN_zero hnan, fp64_toRat_zero, h]
  · have hnan : fp64_isNaN d = false := fp64_isNaN_false_of_biased d (by omega)
    have hnz : fp64_toRat d ≠ 0 := by
      rw [Ne, fp64_toRat_eq_zero_iff]
      omega
    have hz : efp64_is_zero ⟨d, 0⟩ = false := by
      rw [← Bool.not_eq_true, efp64_is_zero_iff]
      exact fun hc => hnz hc.2
    unfold efp64_from_fp64 efp64_canonicalize
    rw [if_neg (by simp [hz])]
    have hfull : efp64_full_exponent ⟨d, 0⟩ = fp64_get_exponent d := by
      unfold efp64_full_exponent
      simp
    have he : -1022 ≤ fp64_get_exponent d ∧ fp64_get_exponent d ≤ 1023 := by
      unfold fp64_get_exponent FP64_BIAS
      omega
    rw [hfull]
    set e := fp64_get_exponent d with hedef
    have hlo := lo_part_bounds e
    have hfld := fp64_replace_exponent_fields d (lo_part e EXP_BITS) hd
      (by rw [FP64_BIAS_eq]; omega) (by rw [FP64_BIAS_eq]; omega)
    set r := fp64_replace_exponent d (lo_part e EXP_BITS) with hrdef
    have hrnan : fp64_isNaN r = false := by
      apply fp64_isNaN_false_of_biased
      rw [hfld.2.1, FP64_BIAS_eq]
      omega
    have hrnz : efp64_is_zero ⟨r, hi_part e EXP_BITS⟩ = false := by
      rw [← Bool.not_eq_true, efp64_is_zero_iff]
      intro hc
      have := (fp64_toRat_eq_zero_iff r).mp hc.2
      rw [hfld.2.1, FP64_BIAS_eq] at this
      omega
    have hfull2 : efp64_full_exponent ⟨r, hi_part e EXP_BITS⟩ = e := by
      unfold efp64_full_exponent
      show hi_part e EXP_BITS + fp64_get_exponent r = e
      rw [hfld.2.2.2.1]
      exact hi_lo_part_add e
    rw [efp64_to_fp64_in_range ⟨r, hi_part e EXP_BITS⟩ hrnz
      (by rw [hfull2]; omega) (by rw [hfull2]; omega)]
    show fp64_beq (fp64_replace_exponent r (efp64_full_exponent ⟨r, hi_part e EXP_BITS⟩)) d = true
    rw [hfull2]
    have hback := fp64_replace_exponent_eq r e hfld.2.2.2.2
      (by rw [FP64_BIAS_eq]; omega) (by rw [FP64_BIAS_eq]; omega)
    have hdecomp := fp64_fields_decomp d hd
    have hrd : fp64_replace_exponent r e = d := by
      rw [hback, hfld.1, hfld.2.2.1]
      have : (e + FP64_BIAS).toNat = fp64_get_biased_exponent d := by
        rw [hedef]
        unfold fp64_get_exponent
        omega
      rw [this]
      omega
    rw [hrd, fp64_beq_iff _ _ hnan hnan]

/-- C2 witness: the round trip at 1.0 and at +0. -/
theorem C2_witness :
    (fp64_one < 2 ^ 64 ∧ 1 ≤ fp64_get_biased_exponent fp64_one ∧
      fp64_get_biased_exponent fp64_one ≤ 2046) ∧
    fp64_beq (efp64_to_fp64 (efp64_from_fp64 fp64_one)) fp64_one = true ∧
    fp64_beq (efp64_to_fp64 (efp64_from_fp64 0)) 0 = true :=
  ⟨⟨by with_unfolding_all decide, by with_unfolding_all decide, by with_unfolding_all decide⟩,
   C2_theorem fp64_one (by with_unfolding_all decide) (Or.inr ⟨by with_unfolding_all decide, by with_unfolding_all decide⟩),
   C2_theorem 0 (by with_unfolding_all decide) (Or.inl (by with_unfolding_all decide))⟩

/-- C4 counterexample: a negative value far below the representable range
converts to the positive zero pattern: the result does not carry the
value's sign, refuting the signed-zero part of the claim. -/
theorem C4_counterexample :
    efp64_is_zero (efp64_collect (fp64_neg fp64_one) (-2048)) = false ∧
    fp64_exponent_below (efp64_full_exponent (efp64_collect (fp64_neg fp64_one) (-2048))) = true ∧
    fp64_get_sign (fp64_neg fp64_one) = 1 ∧
    fp64_get_sign (efp64_to_fp64 (efp64_collect (fp64_neg fp64_one) (-2048))) = 0 := by
  with_unfolding_all decide

/-- C4 (amended): for a nonzero value whose full exponent is below the
representable native range efp64_to_fp64 returns the positive zero pattern
0.0 regardless of the value's sign, and for a full exponent above the range
it returns an infinity carrying the value's sign. -/
theorem C4_theorem (v : efp64_t) (hnz : efp64_is_zero v = false) :
    (fp64_exponent_below (efp64_full_exponent v) = true →
      efp64_to_fp64 v = fp64_zero_bits) ∧
    (fp64_exponent_below (efp64_full_exponent v) = false →
      fp64_exponent_above (efp64_full_exponent v) = true →
      efp64_to_fp64 v = fp64_infinity (fp64_get_sign v.fp)) := by
  simp only [efp64_to_fp64]
  rw [if_neg (by simp [hnz])]
  constructor
  · intro hb
    rw [hb]
    simp
  · intro hb ha
    rw [hb, ha]
    simp

/-- C4 witness: underflow at -2^1.0 scaled down, overflow at -1.0 scaled up. -/
theorem C4_witness :
    (efp64_is_zero (efp64_collect fp64_one (-2048)) = false ∧
      fp64_exponent_below (efp64_full_exponent (efp64_collect fp64_one (-2048))) = true ∧
      efp64_to_fp64 (efp64_collect fp64_one (-2048)) = fp64_zero_bits) ∧
    (efp64_is_zero (efp64_collect (fp64_neg fp64_one) 2048) = false ∧
      efp64_to_fp64 (efp64_collect (fp64_neg fp64_one) 2048) =
        fp64_infinity (fp64_get_sign (fp64_neg fp64_one))) :=
  ⟨⟨by with_unfolding_all decide, by with_unfolding_all decide,
    (C4_theorem (efp64_collect fp64_one (-2048)) (by with_unfolding_all decide)).1 (by with_unfolding_all decide)⟩,
   ⟨by with_unfolding_all decide,
    (C4_theorem (efp64_collect (fp64_neg fp64_one) 2048) (by with_unfolding_all decide)).2 (by with_unfolding_all decide) (by with_unfolding_all decide)⟩⟩

end EFP

namespace EFP

/-- C6 counterexample: against a nonzero value with negative significand the
canonical zero compares as larger (+1), not smaller (-1). -/
theorem C6_counterexample :
    efp64_is_zero (efp64_from_fp64 (fp64_neg fp64_one)) = false ∧
    efp64_cmp efp64_zero (efp64_from_fp64 (fp64_neg fp64_one)) ≠ -1 := by
  with_unfolding_all decide

/-- C6 (amended): ZEXP is strictly below every high exponent obtainable by
clearing the low bits of an exponent in the reachable range, and the
canonical zero compares as -1 against every nonzero canonical value with
positive significand; against a negative significand it compares as +1
(zero sits between negatives and positives, not below everything). -/
theorem C6_theorem :
    (∀ e : ℤ, -(2 ^ 61) ≤ e → ZEXP < hi_part e EXP_BITS) ∧
    (∀ b : efp64_t, efp64_canonical b → efp64_is_zero b = false →
      (fp64_get_sign b.fp = 0 → efp64_cmp efp64_zero b = -1) ∧
      (fp64_get_sign b.fp = 1 → efp64_cmp efp64_zero b = 1)) := by
  constructor
  · intro e he
    have h1 := hi_lo_part_add e
    have h2 := lo_part_bounds e
    rw [ZEXP_eq]
    omega
  · intro b hc hnz
    rcases efp64_canonical_elim b hc with hz | hfacts
    · rw [hz, efp64_is_zero_efp64_zero] at hnz
      exact absurd hnz (by simp)
    · obtain ⟨hlt64, hb1, hb2, hnan, hinf, hml, hmu, hdvd, hzx, hz0⟩ := hfacts
      have hsa : fp64_lt (efp64_zero.fp) fp64_zero_bits = false := by
        with_unfolding_all decide
      have hexp : efp64_zero.exp = ZEXP := rfl
      constructor
      · intro hsign
        have hsb : fp64_lt b.fp fp64_zero_bits = false := by
          rw [← Bool.not_eq_true, fp64_lt_iff b.fp fp64_zero_bits hnan
            (show fp64_isNaN fp64_zero_bits = false from fp64_isNaN_zero)]
          rw [show fp64_toRat fp64_zero_bits = 0 from fp64_toRat_zero]
          rw [fp64_toRat_of_sign_zero _ hsign]
          linarith
        simp only [efp64_cmp, hsa, hsb, hexp]
        rw [if_neg (by simp), if_neg (by simp), if_neg (by omega), if_pos hzx]
        simp
      · intro hsign
        have hsb : fp64_lt b.fp fp64_zero_bits = true := by
          rw [fp64_lt_iff b.fp fp64_zero_bits hnan
            (show fp64_isNaN fp64_zero_bits = false from fp64_isNaN_zero)]
          rw [show fp64_toRat fp64_zero_bits = 0 from fp64_toRat_zero]
          rw [fp64_toRat_of_sign_one _ hsign]
          linarith
        simp only [efp64_cmp, hsa, hsb, hexp]
        rw [if_neg (by simp), if_pos (by simp)]

/-- C6 witness: zero against 1.0 gives -1, zero against -1.0 gives +1, and
a sample exponent clears to a value above ZEXP. -/
theorem C6_witness :
    ZEXP < hi_part 0 EXP_BITS ∧
    efp64_cmp efp64_zero (efp64_from_fp64 fp64_one) = -1 ∧
    efp64_cmp efp64_zero (efp64_from_fp64 (fp64_neg fp64_one)) = 1 :=
  ⟨C6_theorem.1 0 (by norm_num),
   (C6_theorem.2 (efp64_from_fp64 fp64_one)
     (by unfold efp64_canonical; with_unfolding_all decide)
     (by with_unfolding_all decide)).1 (by with_unfolding_all decide),
   (C6_theorem.2 (efp64_from_fp64 (fp64_neg fp64_one))
     (by unfold efp64_canonical; with_unfolding_all decide)
     (by with_unfolding_all decide)).2 (by with_unfolding_all decide)⟩

/-- C7: extended addition is exactly commutative, in every exponent
configuration (equal, different, or so far apart that the alignment scale
factor underflows): both argument orders yield identical results. -/
theorem C7_theorem (a b : efp64_t) (ha : efp64_canonical a) (hb : efp64_canonical b) :
    efp64_add a b = efp64_add b a := by
  unfold efp64_add
  rcases lt_trichotomy a.exp b.exp with h | h | h
  · rw [if_neg (by omega), if_pos h]
  · have hfma : FMA64 a.fp (fp64_power2 (a.exp - b.exp)) b.fp =
        FMA64 b.fp (fp64_power2 (b.exp - a.exp)) a.fp := by
      rw [h, sub_self]
      unfold FMA64
      rw [fp64_power2_toRat 0 (by norm_num) (by norm_num), zpow_zero]
      congr 1
      ring
    rw [if_neg (by omega), if_neg (by omega), hfma, h]
  · rw [if_pos h, if_neg (by omega)]

/-- C7 witness: commutativity at two concrete canonical values. -/
theorem C7_witness :
    efp64_canonical (efp64_from_fp64 fp64_one) ∧
    efp64_canonical (efp64_collect fp64_two 64) ∧
    efp64_add (efp64_from_fp64 fp64_one) (efp64_collect fp64_two 64) =
      efp64_add (efp64_collect fp64_two 64) (efp64_from_fp64 fp64_one) :=
  ⟨by unfold efp64_canonical; with_unfolding_all decide,
   by unfold efp64_canonical; with_unfolding_all decide,
   C7_theorem _ _ (by unfold efp64_canonical; with_unfolding_all decide)
     (by unfold efp64_canonical; with_unfolding_all decide)⟩

/-- C10: when the high exponents of two nonzero canonical values differ by
at least 1024 the alignment factor fp64_power2 underflows to exact zero and
efp64_add returns the operand with the larger exponentHigh bitwise
unchanged, in both argument orders. -/
theorem C10_theorem (a b : efp64_t) (ha : efp64_canonical a) (hb : efp64_canonical b)
    (hza : efp64_is_zero a = false) (hzb : efp64_is_zero b = false)
    (hgap : b.exp + 1024 ≤ a.exp) :
    efp64_add a b = a ∧ efp64_add b a = a := by
  rcases efp64_canonical_elim a ha with hz | hfa
  · rw [hz, efp64_is_zero_efp64_zero] at hza
    exact absurd hza (by simp)
  obtain ⟨hlt64, hb1, hb2, hnan, hinf, hml, hmu, hdvd, hzx, hz0⟩ := hfa
  have hp2 : fp64_power2 (b.exp - a.exp) = 0 := fp64_power2_underflow _ (by omega)
  have hfma : FMA64 b.fp (fp64_power2 (b.exp - a.exp)) a.fp = a.fp := by
    unfold FMA64
    rw [hp2, show fp64_toRat 0 = 0 from fp64_toRat_zero, mul_zero, zero_add]
    exact fp64_round_idem a.fp hlt64 (by omega) (by omega)
  have hmaglt : fp64_toRatMag a.fp < (2 : ℚ) ^ (64 : ℤ) := by
    have := two_zpow_pos (11 : ℤ)
    linarith
  have hqc : efp64_quick_canonicalize ⟨FMA64 b.fp (fp64_power2 (b.exp - a.exp)) a.fp, a.exp⟩ = a := by
    rw [hfma]
    exact efp64_quick_canonicalize_id a hnan hml hmaglt
  constructor
  · unfold efp64_add
    rw [if_pos (by omega : b.exp < a.exp)]
    exact hqc
  · unfold efp64_add
    rw [if_neg (by omega : ¬ a.exp < b.exp)]
    exact hqc

/-- C10 witness: 2^1024 absorbs 1.0 exactly, in both orders. -/
theorem C10_witness :
    efp64_canonical (efp64_collect fp64_one 1024) ∧
    efp64_add (efp64_collect fp64_one 1024) (efp64_from_fp64 fp64_one) =
      efp64_collect fp64_one 1024 ∧
    efp64_add (efp64_from_fp64 fp64_one) (efp64_collect fp64_one 1024) =
      efp64_collect fp64_one 1024 :=
  ⟨by unfold efp64_canonical; with_unfolding_all decide,
   (C10_theorem (efp64_collect fp64_one 1024) (efp64_from_fp64 fp64_one)
     (by unfold efp64_canonical; with_unfolding_all decide)
     (by unfold efp64_canonical; with_unfolding_all decide)
     (by with_unfolding_all decide) (by with_unfolding_all decide) (by with_unfolding_all decide)).1,
   (C10_theorem (efp64_collect fp64_one 1024) (efp64_from_fp64 fp64_one)
     (by unfold efp64_canonical; with_unfolding_all decide)
     (by unfold efp64_canonical; with_unfolding_all decide)
     (by with_unfolding_all decide) (by with_unfolding_all decide) (by with_unfolding_all decide)).2⟩

end EFP

namespace EFP

/-- Casting an integer of magnitude at most 2^53 to a double is exact. -/
theorem fp64_of_int_exact (n : ℤ) (hn : n.natAbs ≤ 2 ^ 53) :
    fp64_toRat (fp64_of_int n) = (n : ℚ) := by
  unfold fp64_of_int
  by_cases h0 : n = 0
  · subst h0
    with_unfolding_all decide
  · have hq0 : (n : ℚ) ≠ 0 := Int.cast_ne_zero.mpr h0
    have habs1 : (1 : ℚ) ≤ |(n : ℚ)| := by
      rw [← Int.cast_abs]
      exact_mod_cast Int.one_le_abs h0
    have habs2 : |(n : ℚ)| ≤ 2 ^ (53 : ℤ) := by
      rw [← Int.cast_abs, Int.abs_eq_natAbs]
      rw [show ((2 : ℚ) ^ (53 : ℤ)) = ((2 ^ 53 : ℕ) : ℚ) by push_cast; norm_num]
      exact_mod_cast hn
    have hpos : 0 < |(n : ℚ)| := by linarith
    have hs := qLog2_spec |(n : ℚ)| hpos
    set E := qLog2 |(n : ℚ)| with hE
    have hE0 : 0 ≤ E := by
      by_contra hneg
      have hle : E + 1 ≤ 0 := by omega
      have h1 : (2 : ℚ) ^ (E + 1) ≤ (2 : ℚ) ^ (0 : ℤ) :=
        zpow_le_zpow_right₀ (by norm_num) hle
      rw [zpow_zero] at h1
      linarith [hs.2]
    have hE53 : E ≤ 53 := by
      have h1 : (2 : ℚ) ^ E ≤ (2 : ℚ) ^ (53 : ℤ) := le_trans hs.1 habs2
      exact two_zpow_le_iff.mp h1
    rcases eq_or_lt_of_le hE53 with hE53' | hE52
    · have hup : (2 : ℚ) ^ (53 : ℤ) ≤ |(n : ℚ)| := by
        rw [← hE53']
        exact hs.1
      have hval : |(n : ℚ)| = (2 : ℚ) ^ (53 : ℤ) := le_antisymm habs2 hup
      apply fp64_round_exact _ hq0 (by omega) (by omega) (2 ^ 52)
      rw [← hE, hval, hE53']
      rw [← zpow_add₀ (by norm_num : (2 : ℚ) ≠ 0)]
      norm_num
    · have hE52' : E ≤ 52 := by omega
      apply fp64_round_exact _ hq0 (by omega) (by omega) (|n| * 2 ^ (52 - E).toNat)
      rw [← hE]
      rw [show (2 : ℚ) ^ ((52 : ℤ) - E) = (2 : ℚ) ^ (((52 - E).toNat : ℕ)) from by
        rw [← zpow_natCast]
        congr 1
        omega]
      push_cast
      ring

/-- C8 counterexample: the canonical value 2^(2^53 + 1) (significand 2.0
with high exponent 2^53) has zeroed-exponent significand exactly 1.0, but
efp64_log2d returns 2^53, not 2^53 + 1: the cast of the 64-bit exponent to
a double rounds. -/
theorem C8_counterexample :
    efp64_canonical (efp64_collect fp64_two (2 ^ 53)) ∧
    fp64_beq (efp64_zeroed_fraction (efp64_collect fp64_two (2 ^ 53))) fp64_one = true ∧
    efp64_full_exponent (efp64_collect fp64_two (2 ^ 53)) = 2 ^ 53 + 1 ∧
    fp64_toRat (efp64_log2d (efp64_collect fp64_two (2 ^ 53))) ≠ ((2 ^ 53 + 1 : ℤ) : ℚ) :=
  ⟨by unfold efp64_canonical; with_unfolding_all decide,
   by with_unfolding_all decide,
   by with_unfolding_all decide,
   by with_unfolding_all decide⟩

/-- C8 (amended): for a value exactly equal to 2^K (significand with zeroed
exponent equal to 1.0), efp64_log2d returns K exactly provided |K| ≤ 2^53;
beyond 2^53 the integer-to-double cast of K itself rounds (see the
counterexample), so exactness cannot extend arbitrarily far outside the
native exponent range. -/
theorem C8_theorem (a : efp64_t)
    (hd : fp64_beq (efp64_zeroed_fraction a) fp64_one = true)
    (hK : (efp64_full_exponent a).natAbs ≤ 2 ^ 53) :
    fp64_toRat (efp64_log2d a) = ((efp64_full_exponent a : ℤ) : ℚ) := by
  have hd' : fp64_isNaN (efp64_zeroed_fraction a) = false ∧
      fp64_toRat (efp64_zeroed_fraction a) = 1 := by
    unfold fp64_beq at hd
    simp only [Bool.and_eq_true, Bool.not_eq_true', decide_eq_true_eq] at hd
    exact ⟨hd.1.1, by rw [hd.2, fp64_toRat_one]⟩
  simp only [efp64_log2d]
  have hle : fp64_le (efp64_zeroed_fraction a) fp64_zero_bits = false := by
    unfold fp64_le
    rw [hd'.1]
    rw [show fp64_isNaN fp64_zero_bits = false from fp64_isNaN_zero]
    rw [show fp64_toRat fp64_zero_bits = 0 from fp64_toRat_zero]
    rw [hd'.2]
    norm_num
  rw [if_neg (by simp [hle]), if_pos hd]
  exact fp64_of_int_exact _ hK

/-- C8 witness: log2 of the canonical 2^64 is exactly 64. -/
theorem C8_witness :
    fp64_beq (efp64_zeroed_fraction (efp64_collect fp64_one 64)) fp64_one = true ∧
    efp64_full_exponent (efp64_collect fp64_one 64) = 64 ∧
    fp64_toRat (efp64_log2d (efp64_collect fp64_one 64)) =
      ((efp64_full_exponent (efp64_collect fp64_one 64) : ℤ) : ℚ) :=
  ⟨by with_unfolding_all decide, by with_unfolding_all decide,
   C8_theorem (efp64_collect fp64_one 64) (by with_unfolding_all decide)
     (by with_unfolding_all decide)⟩

/-- C3 refuted (code bug): on 17 copies of the largest canonical value
(significand 2^64 - 2^11, high exponent 0) the 4-way interleaved reduction
produces an intermediate accumulator that is not valid (its significand has
overflowed to infinity): the combine/tail phase chains further
quick-multiplies onto accumulators that already hold up to
EFP64_MAX_MUL + 1 factors without an intervening canonicalize.  The final
result consequently disagrees with the canonicalizing slow reduction. -/
theorem C3_theorem :
    (efp64_mul_seq_x4_trace c3_failing_input).all efp64_is_valid = false ∧
    efp64_is_equal (efp64_mul_seq c3_failing_input)
      (efp64_mul_seq_slow c3_failing_input) = false := by
  with_unfolding_all decide

end EFP

namespace EFP

theorem qpow2_pos (n : ℤ) : 0 < qpow2 n := by
  rw [qpow2_eq]
  exact two_zpow_pos n

theorem fp64_lt_zero_iff (x : ℕ) (hx : fp64_isNaN x = false) :
    fp64_lt x fp64_zero_bits = true ↔ fp64_toRat x < 0 := by
  rw [fp64_lt_iff x fp64_zero_bits hx
    (show fp64_isNaN fp64_zero_bits = false from fp64_isNaN_zero)]
  rw [show fp64_toRat fp64_zero_bits = 0 from fp64_toRat_zero]

/-- Magnitude gap: a significand within the canonical window at a high
exponent at least one window width larger strictly dominates. -/
theorem efp64_gap_lt (x y : ℚ) (ex ey : ℤ)
    (hx : x ≤ (2 : ℚ) ^ (64 : ℤ) - (2 : ℚ) ^ (11 : ℤ)) (hx0 : 0 < x)
    (hy : 1 ≤ y) (hgap : ex + 64 ≤ ey) :
    x * qpow2 ex < y * qpow2 ey := by
  rw [qpow2_eq, qpow2_eq]
  have h1 : x * (2 : ℚ) ^ ex < (2 : ℚ) ^ (64 : ℤ) * (2 : ℚ) ^ ex := by
    apply mul_lt_mul_of_pos_right _ (two_zpow_pos ex)
    have := two_zpow_pos (11 : ℤ)
    linarith
  have h2 : (2 : ℚ) ^ (64 : ℤ) * (2 : ℚ) ^ ex = (2 : ℚ) ^ (64 + ex) := by
    rw [← zpow_add₀ (by norm_num : (2 : ℚ) ≠ 0)]
  have h3 : (2 : ℚ) ^ (64 + ex) ≤ (2 : ℚ) ^ ey :=
    zpow_le_zpow_right₀ (by norm_num) (by omega)
  have h4 : (2 : ℚ) ^ ey ≤ y * (2 : ℚ) ^ ey :=
    le_mul_of_one_le_left (le_of_lt (two_zpow_pos ey)) hy
  calc x * (2 : ℚ) ^ ex < (2 : ℚ) ^ (64 + ex) := by rw [← h2]; exact h1
    _ ≤ (2 : ℚ) ^ ey := h3
    _ ≤ y * (2 : ℚ) ^ ey := h4

/-- At equal high exponents, comparison of the extended values reduces to
comparison of the significands. -/
theorem efp64_cmp_fp_aux (a b : efp64_t) (hna : fp64_isNaN a.fp = false)
    (hnb : fp64_isNaN b.fp = false) (hexp : a.exp = b.exp) :
    (fp64_lt a.fp b.fp = true → efp64_toRat a < efp64_toRat b) ∧
    (fp64_lt b.fp a.fp = true → efp64_toRat b < efp64_toRat a) ∧
    (fp64_lt a.fp b.fp = false → fp64_lt b.fp a.fp = false →
      efp64_toRat a = efp64_toRat b) := by
  unfold efp64_toRat
  rw [hexp]
  refine ⟨?_, ?_, ?_⟩
  · intro h
    exact mul_lt_mul_of_pos_right ((fp64_lt_iff _ _ hna hnb).mp h) (qpow2_pos b.exp)
  · intro h
    exact mul_lt_mul_of_pos_right ((fp64_lt_iff _ _ hnb hna).mp h) (qpow2_pos b.exp)
  · intro h1 h2
    have e1 : ¬ fp64_toRat a.fp < fp64_toRat b.fp := by
      rw [← fp64_lt_iff _ _ hna hnb, h1]
      simp
    have e2 : ¬ fp64_toRat b.fp < fp64_toRat a.fp := by
      rw [← fp64_lt_iff _ _ hnb hna, h2]
      simp
    rw [le_antisymm (not_lt.mp e2) (not_lt.mp e1)]

/-- Value-level classification of a canonical value: zero (at exponent
ZEXP), positive with significand in [1, 2^64 - 2^11], or negative with
significand in [-(2^64 - 2^11), -1]. -/
theorem efp64_canonical_cases (v : efp64_t) (hc : efp64_canonical v) :
    fp64_isNaN v.fp = false ∧
    ((fp64_toRat v.fp = 0 ∧ v.exp = ZEXP) ∨
     (1 ≤ fp64_toRat v.fp ∧ fp64_toRat v.fp ≤ (2 : ℚ) ^ (64 : ℤ) - (2 : ℚ) ^ (11 : ℤ) ∧
       EXP_MODULUS ∣ v.exp ∧ ZEXP < v.exp) ∨
     (fp64_toRat v.fp ≤ -1 ∧ -((2 : ℚ) ^ (64 : ℤ) - (2 : ℚ) ^ (11 : ℤ)) ≤ fp64_toRat v.fp ∧
       EXP_MODULUS ∣ v.exp ∧ ZEXP < v.exp)) := by
  rcases efp64_canonical_elim v hc with hz | hf
  · subst hz
    exact ⟨fp64_isNaN_zero, Or.inl ⟨fp64_toRat_zero, rfl⟩⟩
  · obtain ⟨hlt64, hb1, hb2, hnan, hinf, hml, hmu, hdvd, hzx, hz0⟩ := hf
    have hsgn : fp64_get_sign v.fp = 0 ∨ fp64_get_sign v.fp = 1 := by
      unfold fp64_get_sign
      omega
    refine ⟨hnan, ?_⟩
    rcases hsgn with hs | hs
    · refine Or.inr (Or.inl ⟨?_, ?_, hdvd, hzx⟩)
      · rw [fp64_toRat_of_sign_zero _ hs]
        exact hml
      · rw [fp64_toRat_of_sign_zero _ hs]
        exact hmu
    · refine Or.inr (Or.inr ⟨?_, ?_, hdvd, hzx⟩)
      · rw [fp64_toRat_of_sign_one _ hs]
        linarith
      · rw [fp64_toRat_of_sign_one _ hs]
        linarith

/-- Conversion from a zero or normal native double is canonical and
preserves the represented value exactly. -/
theorem efp64_from_fp64_spec (d : ℕ) (hd : d < 2 ^ 64)
    (h : fp64_toRat d = 0 ∨
      (1 ≤ fp64_get_biased_exponent d ∧ fp64_get_biased_exponent d ≤ 2046)) :
    efp64_canonical (efp64_from_fp64 d) ∧
      efp64_toRat (efp64_from_fp64 d) = fp64_toRat d := by
  rcases h with h | h
  · have hzf := (fp64_toRat_eq_zero_iff d).mp h
    have hnan : fp64_isNaN d = false := fp64_isNaN_false_of_biased d (by omega)
    have hz : efp64_is_zero ⟨d, 0⟩ = true := (efp64_is_zero_iff ⟨d, 0⟩).mpr ⟨hnan, h⟩
    unfold efp64_from_fp64 efp64_canonicalize
    rw [if_pos hz]
    constructor
    · exact ⟨by norm_num [efp64_zero, fp64_zero_bits], Or.inl ⟨rfl, rfl⟩⟩
    · unfold efp64_toRat
      rw [show fp64_toRat efp64_zero.fp = 0 from fp64_toRat_zero, h, zero_mul]
  · have hnan : fp64_isNaN d = false := fp64_isNaN_false_of_biased d (by omega)
    have hnz : fp64_toRat d ≠ 0 := by
      rw [Ne, fp64_toRat_eq_zero_iff]
      omega
    have hz : efp64_is_zero ⟨d, 0⟩ = false := by
      rw [← Bool.not_eq_true, efp64_is_zero_iff]
      exact fun hc => hnz hc.2
    unfold efp64_from_fp64 efp64_canonicalize
    rw [if_neg (by simp [hz])]
    have hfull : efp64_full_exponent ⟨d, 0⟩ = fp64_get_exponent d := by
      unfold efp64_full_exponent
      simp
    rw [hfull]
    set e := fp64_get_exponent d with hedef
    have he : -1022 ≤ e ∧ e ≤ 1023 := by
      rw [hedef]
      unfold fp64_get_exponent FP64_BIAS
      omega
    have hlo := lo_part_bounds e
    have hhl := hi_lo_part_add e
    have hfld := fp64_replace_exponent_fields d (lo_part e EXP_BITS) hd
      (by rw [FP64_BIAS_eq]; omega) (by rw [FP64_BIAS_eq]; omega)
    set r := fp64_replace_exponent d (lo_part e EXP_BITS) with hrdef
    have hbr : 1 ≤ fp64_get_biased_exponent r := by
      rw [hfld.2.1, FP64_BIAS_eq]
      omega
    have hcast_r : (fp64_get_biased_exponent r : ℤ) = lo_part e EXP_BITS + 1023 := by
      rw [hfld.2.1, FP64_BIAS_eq]
      omega
    have hcast_d : (fp64_get_biased_exponent d : ℤ) = e + 1023 := by
      rw [hedef]
      unfold fp64_get_exponent FP64_BIAS
      omega
    have hmag : fp64_toRatMag r * qpow2 (hi_part e EXP_BITS) = fp64_toRatMag d := by
      rw [fp64_toRatMag_normal r hbr, fp64_toRatMag_normal d (by omega)]
      rw [hfld.2.2.1, hcast_r, hcast_d, qpow2_eq]
      rw [mul_assoc, ← zpow_add₀ (by norm_num : (2 : ℚ) ≠ 0)]
      rw [show lo_part e EXP_BITS + 1023 - 1075 + hi_part e EXP_BITS =
        e + 1023 - 1075 from by omega]
    constructor
    · refine ⟨hfld.2.2.2.2, Or.inr ⟨?_, ?_, ?_, ?_⟩⟩
      · show 0 ≤ fp64_get_exponent r
        rw [hfld.2.2.2.1]
        omega
      · show fp64_get_exponent r < EXP_MODULUS
        rw [hfld.2.2.2.1, EXP_MODULUS_eq]
        omega
      · show EXP_MODULUS ∣ hi_part e EXP_BITS
        rw [EXP_MODULUS_eq]
        exact hi_part_dvd e
      · show ZEXP < hi_part e EXP_BITS
        rw [ZEXP_eq]
        omega
    · unfold efp64_toRat
      show fp64_toRat r * qpow2 (hi_part e EXP_BITS) = fp64_toRat d
      have hsgn : fp64_get_sign d = 0 ∨ fp64_get_sign d = 1 := by
        unfold fp64_get_sign
        omega
      rcases hsgn with hs | hs
      · rw [fp64_toRat_of_sign_zero r (by rw [hfld.1]; exact hs),
          fp64_toRat_of_sign_zero d hs]
        exact hmag
      · rw [fp64_toRat_of_sign_one r (by rw [hfld.1]; exact hs),
          fp64_toRat_of_sign_one d hs, neg_mul, hmag]

/-- On canonical values, efp64_cmp decides the order of the represented
rational values: it returns -1, 0 or 1 exactly according to the trichotomy. -/
theorem efp64_cmp_correct (a b : efp64_t) (ha : efp64_canonical a)
    (hb : efp64_canonical b) :
    (efp64_cmp a b = -1 ∧ efp64_toRat a < efp64_toRat b) ∨
    (efp64_cmp a b = 0 ∧ efp64_toRat a = efp64_toRat b) ∨
    (efp64_cmp a b = 1 ∧ efp64_toRat b < efp64_toRat a) := by
  obtain ⟨hnaA, hca⟩ := efp64_canonical_cases a ha
  obtain ⟨hnaB, hcb⟩ := efp64_canonical_cases b hb
  have hqa := qpow2_pos a.exp
  have hqb := qpow2_pos b.exp
  cases hsa : fp64_lt a.fp fp64_zero_bits with
  | true =>
    have hA : fp64_toRat a.fp < 0 := (fp64_lt_zero_iff a.fp hnaA).mp hsa
    cases hsb : fp64_lt b.fp fp64_zero_bits with
    | true =>
      have hB : fp64_toRat b.fp < 0 := (fp64_lt_zero_iff b.fp hnaB).mp hsb
      obtain ⟨haN1, haN2, hdva, hzxa⟩ :
          fp64_toRat a.fp ≤ -1 ∧
            -((2 : ℚ) ^ (64 : ℤ) - (2 : ℚ) ^ (11 : ℤ)) ≤ fp64_toRat a.fp ∧
            EXP_MODULUS ∣ a.exp ∧ ZEXP < a.exp := by
        rcases hca with hZ | hP | hN
        · exact absurd hA (by rw [hZ.1]; norm_num)
        · exact absurd hA (by linarith [hP.1])
        · exact hN
      obtain ⟨hbN1, hbN2, hdvb, hzxb⟩ :
          fp64_toRat b.fp ≤ -1 ∧
            -((2 : ℚ) ^ (64 : ℤ) - (2 : ℚ) ^ (11 : ℤ)) ≤ fp64_toRat b.fp ∧
            EXP_MODULUS ∣ b.exp ∧ ZEXP < b.exp := by
        rcases hcb with hZ | hP | hN
        · exact absurd hB (by rw [hZ.1]; norm_num)
        · exact absurd hB (by linarith [hP.1])
        · exact hN
      rw [EXP_MODULUS_eq] at hdva hdvb
      simp only [efp64_cmp, hsa, hsb]
      rw [if_neg (by simp), if_neg (by simp)]
      rcases lt_trichotomy b.exp a.exp with hexp | hexp | hexp
      · rw [if_pos hexp, if_pos trivial]
        refine Or.inl ⟨rfl, ?_⟩
        have hgap := efp64_gap_lt (-fp64_toRat b.fp) (-fp64_toRat a.fp) b.exp a.exp
          (by linarith) (by linarith) (by linarith) (by omega)
        rw [neg_mul, neg_mul] at hgap
        unfold efp64_toRat
        linarith
      · rw [if_neg (by omega), if_neg (by omega)]
        have haux := efp64_cmp_fp_aux a b hnaA hnaB hexp.symm
        cases hlt1 : fp64_lt a.fp b.fp with
        | true =>
          rw [if_pos rfl]
          exact Or.inl ⟨rfl, haux.1 hlt1⟩
        | false =>
          rw [if_neg (by simp)]
          cases hlt2 : fp64_lt b.fp a.fp with
          | true =>
            rw [if_pos rfl]
            exact Or.inr (Or.inr ⟨rfl, haux.2.1 hlt2⟩)
          | false =>
            rw [if_neg (by simp)]
            exact Or.inr (Or.inl ⟨rfl, haux.2.2 hlt1 hlt2⟩)
      · rw [if_neg (by omega), if_pos hexp, if_pos trivial]
        refine Or.inr (Or.inr ⟨by norm_num, ?_⟩)
        have hgap := efp64_gap_lt (-fp64_toRat a.fp) (-fp64_toRat b.fp) a.exp b.exp
          (by linarith) (by linarith) (by linarith) (by omega)
        rw [neg_mul, neg_mul] at hgap
        unfold efp64_toRat
        linarith
    | false =>
      have hB : 0 ≤ fp64_toRat b.fp := by
        by_contra hneg
        rw [(fp64_lt_zero_iff b.fp hnaB).mpr (not_le.mp hneg)] at hsb
        exact absurd hsb (by simp)
      simp only [efp64_cmp, hsa, hsb]
      rw [if_pos (by simp)]
      refine Or.inl ⟨rfl, ?_⟩
      have h1 : fp64_toRat a.fp * qpow2 a.exp < 0 := mul_neg_of_neg_of_pos hA hqa
      have h2 : 0 ≤ fp64_toRat b.fp * qpow2 b.exp := mul_nonneg hB hqb.le
      unfold efp64_toRat
      linarith
  | false =>
    have hA : 0 ≤ fp64_toRat a.fp := by
      by_contra hneg
      rw [(fp64_lt_zero_iff a.fp hnaA).mpr (not_le.mp hneg)] at hsa
      exact absurd hsa (by simp)
    cases hsb : fp64_lt b.fp fp64_zero_bits with
    | true =>
      have hB : fp64_toRat b.fp < 0 := (fp64_lt_zero_iff b.fp hnaB).mp hsb
      simp only [efp64_cmp, hsa, hsb]
      rw [if_neg (by simp), if_pos (by simp)]
      refine Or.inr (Or.inr ⟨rfl, ?_⟩)
      have h1 : fp64_toRat b.fp * qpow2 b.exp < 0 := mul_neg_of_neg_of_pos hB hqb
      have h2 : 0 ≤ fp64_toRat a.fp * qpow2 a.exp := mul_nonneg hA hqa.le
      unfold efp64_toRat
      linarith
    | false =>
      have hB : 0 ≤ fp64_toRat b.fp := by
        by_contra hneg
        rw [(fp64_lt_zero_iff b.fp hnaB).mpr (not_le.mp hneg)] at hsb
        exact absurd hsb (by simp)
      simp only [efp64_cmp, hsa, hsb]
      rw [if_neg (by simp), if_neg (by simp)]
      rcases lt_trichotomy b.exp a.exp with hexp | hexp | hexp
      · rw [if_pos hexp, if_neg (by simp)]
        refine Or.inr (Or.inr ⟨rfl, ?_⟩)
        obtain ⟨haP1, haP2, hdva, hzxa⟩ :
            1 ≤ fp64_toRat a.fp ∧
              fp64_toRat a.fp ≤ (2 : ℚ) ^ (64 : ℤ) - (2 : ℚ) ^ (11 : ℤ) ∧
              EXP_MODULUS ∣ a.exp ∧ ZEXP < a.exp := by
          rcases hca with hZ | hP | hN
          · exfalso
            rcases hcb with hZ' | hP' | hN'
            · rcases lt_irrefl _ (hZ.2 ▸ hZ'.2 ▸ hexp)
            · exact absurd (hZ.2 ▸ hexp) (by exact not_lt.mpr (le_of_lt hP'.2.2.2))
            · exact absurd (hZ.2 ▸ hexp) (by exact not_lt.mpr (le_of_lt hN'.2.2.2))
          · exact hP
          · exact absurd hA (by linarith [hN.1])
        rcases hcb with hZ | hP | hN
        · unfold efp64_toRat
          rw [hZ.1, zero_mul]
          exact mul_pos (by linarith) hqa
        · rw [EXP_MODULUS_eq] at hdva
          have hdvb := hP.2.2.1
          rw [EXP_MODULUS_eq] at hdvb
          unfold efp64_toRat
          exact efp64_gap_lt _ _ _ _ hP.2.1 (by linarith [hP.1]) haP1 (by omega)
        · exact absurd hB (by linarith [hN.1])
      · rw [if_neg (by omega), if_neg (by omega)]
        have haux := efp64_cmp_fp_aux a b hnaA hnaB hexp.symm
        cases hlt1 : fp64_lt a.fp b.fp with
        | true =>
          rw [if_pos rfl]
          exact Or.inl ⟨rfl, haux.1 hlt1⟩
        | false =>
          rw [if_neg (by simp)]
          cases hlt2 : fp64_lt b.fp a.fp with
          | true =>
            rw [if_pos rfl]
            exact Or.inr (Or.inr ⟨rfl, haux.2.1 hlt2⟩)
          | false =>
            rw [if_neg (by simp)]
            exact Or.inr (Or.inl ⟨rfl, haux.2.2 hlt1 hlt2⟩)
      · rw [if_neg (by omega), if_pos hexp, if_neg (by simp)]
        refine Or.inl ⟨by norm_num, ?_⟩
        obtain ⟨hbP1, hbP2, hdvb, hzxb⟩ :
            1 ≤ fp64_toRat b.fp ∧
              fp64_toRat b.fp ≤ (2 : ℚ) ^ (64 : ℤ) - (2 : ℚ) ^ (11 : ℤ) ∧
              EXP_MODULUS ∣ b.exp ∧ ZEXP < b.exp := by
          rcases hcb with hZ | hP | hN
          · exfalso
            rcases hca with hZ' | hP' | hN'
            · rcases lt_irrefl _ (hZ.2 ▸ hZ'.2 ▸ hexp)
            · exact absurd (hZ.2 ▸ hexp) (by exact not_lt.mpr (le_of_lt hP'.2.2.2))
            · exact absurd (hZ.2 ▸ hexp) (by exact not_lt.mpr (le_of_lt hN'.2.2.2))
          · exact hP
          · exact absurd hB (by linarith [hN.1])
        rcases hca with hZ | hP | hN
        · unfold efp64_toRat
          rw [hZ.1, zero_mul]
          exact mul_pos (by linarith) hqb
        · rw [EXP_MODULUS_eq] at hdvb
          have hdva := hP.2.2.1
          rw [EXP_MODULUS_eq] at hdva
          unfold efp64_toRat
          exact efp64_gap_lt _ _ _ _ hP.2.1 (by linarith [hP.1]) hbP1 (by omega)
        · exact absurd hA (by linarith [hN.1])

/-- C5 counterexample: the positive-zero significand carried at high
exponent 64 and the canonical zero both satisfy efp64_is_zero, yet they
compare as unequal: the exponent tie-break fires before the zero
significands can compare equal, so zero is not a single equivalence class
across internal encodings. -/
theorem C5_counterexample :
    efp64_is_zero (efp64_collect fp64_zero_bits 64) = true ∧
    efp64_is_zero efp64_zero = true ∧
    efp64_cmp (efp64_collect fp64_zero_bits 64) efp64_zero ≠ 0 := by
  with_unfolding_all decide

/-- C5 (amended): on canonical values efp64_cmp returns exactly one of
-1, 0, +1, matching the real-number trichotomy of the represented values;
two zero values compare as equal when their exponentHigh fields agree (but
not across differing encodings, see the counterexample); and the ordering
agrees with the native-double ordering for values converted from zero or
normal doubles. -/
theorem C5_theorem :
    (∀ a b : efp64_t, efp64_canonical a → efp64_canonical b →
      (efp64_cmp a b = -1 ∧ efp64_toRat a < efp64_toRat b) ∨
      (efp64_cmp a b = 0 ∧ efp64_toRat a = efp64_toRat b) ∨
      (efp64_cmp a b = 1 ∧ efp64_toRat b < efp64_toRat a)) ∧
    (∀ a b : efp64_t, efp64_is_zero a = true → efp64_is_zero b = true →
      a.exp = b.exp → efp64_cmp a b = 0) ∧
    (∀ x y : ℕ, x < 2 ^ 64 → y < 2 ^ 64 →
      (fp64_toRat x = 0 ∨
        (1 ≤ fp64_get_biased_exponent x ∧ fp64_get_biased_exponent x ≤ 2046)) →
      (fp64_toRat y = 0 ∨
        (1 ≤ fp64_get_biased_exponent y ∧ fp64_get_biased_exponent y ≤ 2046)) →
      efp64_cmp (efp64_from_fp64 x) (efp64_from_fp64 y) =
        if fp64_lt x y = true then -1 else if fp64_lt y x = true then 1 else 0) := by
  refine ⟨efp64_cmp_correct, ?_, ?_⟩
  · intro a b h1 h2 hexp
    obtain ⟨hna, hza⟩ := (efp64_is_zero_iff a).mp h1
    obtain ⟨hnb, hzb⟩ := (efp64_is_zero_iff b).mp h2
    have hsa : fp64_lt a.fp fp64_zero_bits = false := by
      rw [← Bool.not_eq_true, fp64_lt_zero_iff a.fp hna, hza]
      norm_num
    have hsb : fp64_lt b.fp fp64_zero_bits = false := by
      rw [← Bool.not_eq_true, fp64_lt_zero_iff b.fp hnb, hzb]
      norm_num
    have hab : fp64_lt a.fp b.fp = false := by
      rw [← Bool.not_eq_true, fp64_lt_iff a.fp b.fp hna hnb, hza, hzb]
      norm_num
    have hba : fp64_lt b.fp a.fp = false := by
      rw [← Bool.not_eq_true, fp64_lt_iff b.fp a.fp hnb hna, hza, hzb]
      norm_num
    simp only [efp64_cmp, hsa, hsb, hab, hba]
    rw [if_neg (by simp), if_neg (by simp), if_neg (by omega), if_neg (by omega),
      if_neg (by simp), if_neg (by simp)]
  · intro x y hx hy hdx hdy
    have hnx : fp64_isNaN x = false := by
      rcases hdx with h | h
      · have := (fp64_toRat_eq_zero_iff x).mp h
        exact fp64_isNaN_false_of_biased x (by omega)
      · exact fp64_isNaN_false_of_biased x (by omega)
    have hny : fp64_isNaN y = false := by
      rcases hdy with h | h
      · have := (fp64_toRat_eq_zero_iff y).mp h
        exact fp64_isNaN_false_of_biased y (by omega)
      · exact fp64_isNaN_false_of_biased y (by omega)
    obtain ⟨hcx, hvx⟩ := efp64_from_fp64_spec x hx hdx
    obtain ⟨hcy, hvy⟩ := efp64_from_fp64_spec y hy hdy
    rcases efp64_cmp_correct _ _ hcx hcy with ⟨hc, hv⟩ | ⟨hc, hv⟩ | ⟨hc, hv⟩
    · rw [hvx, hvy] at hv
      rw [hc, if_pos ((fp64_lt_iff x y hnx hny).mpr hv)]
    · rw [hvx, hvy] at hv
      rw [hc, if_neg (by rw [fp64_lt_iff x y hnx hny, hv]; exact lt_irrefl _),
        if_neg (by rw [fp64_lt_iff y x hny hnx, hv]; exact lt_irrefl _)]
    · rw [hvx, hvy] at hv
      rw [hc, if_neg (by rw [fp64_lt_iff x y hnx hny]; exact not_lt.mpr (le_of_lt hv)),
        if_pos ((fp64_lt_iff y x hny hnx).mpr hv)]

/-- C5 witness: the trichotomy at the canonical pair (1.0, 2.0 at high
exponent 64), the zero class at matching encodings, and native agreement
at the pair (1.0, 2.0). -/
theorem C5_witness :
    ((efp64_cmp (efp64_from_fp64 fp64_one) (efp64_collect fp64_two 64) = -1 ∧
      efp64_toRat (efp64_from_fp64 fp64_one) < efp64_toRat (efp64_collect fp64_two 64)) ∨
     (efp64_cmp (efp64_from_fp64 fp64_one) (efp64_collect fp64_two 64) = 0 ∧
      efp64_toRat (efp64_from_fp64 fp64_one) = efp64_toRat (efp64_collect fp64_two 64)) ∨
     (efp64_cmp (efp64_from_fp64 fp64_one) (efp64_collect fp64_two 64) = 1 ∧
      efp64_toRat (efp64_collect fp64_two 64) < efp64_toRat (efp64_from_fp64 fp64_one))) ∧
    efp64_cmp (efp64_collect (fp64_neg fp64_zero_bits) ZEXP) efp64_zero = 0 ∧
    efp64_cmp (efp64_from_fp64 fp64_one) (efp64_from_fp64 fp64_two) =
      (if fp64_lt fp64_one fp64_two = true then -1
       else if fp64_lt fp64_two fp64_one = true then 1 else 0) :=
  ⟨C5_theorem.1 (efp64_from_fp64 fp64_one) (efp64_collect fp64_two 64)
     (by unfold efp64_canonical; with_unfolding_all decide)
     (by unfold efp64_canonical; with_unfolding_all decide),
   C5_theorem.2.1 (efp64_collect (fp64_neg fp64_zero_bits) ZEXP) efp64_zero
     (by with_unfolding_all decide) (by with_unfolding_all decide)
     (by with_unfolding_all decide),
   C5_theorem.2.2 fp64_one fp64_two (by with_unfolding_all decide)
     (by with_unfolding_all decide) (by with_unfolding_all decide)
     (by with_unfolding_all decide)⟩

end EFP

namespace EFP

theorem int_emod_eq (a b : ℤ) : a.emod b = a % b := rfl

theorem qLog2_ge (q : ℚ) (k : ℤ) (hq : 0 < q) (h : (2 : ℚ) ^ k ≤ q) : k ≤ qLog2 q := by
  have hs := qLog2_spec q hq
  have h2 := two_zpow_lt_iff.mp (lt_of_le_of_lt h hs.2)
  omega

theorem qLog2_le (q : ℚ) (k : ℤ) (hq : 0 < q) (h : q < (2 : ℚ) ^ (k + 1)) : qLog2 q ≤ k := by
  have hs := qLog2_spec q hq
  have h2 := two_zpow_lt_iff.mp (lt_of_le_of_lt hs.1 h)
  omega

theorem fp64_assemble_lt (s : ℕ) (e : ℤ) (f : ℕ) : fp64_assemble s e f < 2 ^ 64 := by
  unfold fp64_assemble
  have h1 := Int.emod_nonneg ((f : ℤ) + (e + FP64_BIAS).emod (2 ^ 64) * 2 ^ 52 + (s : ℤ) * 2 ^ 63)
    (by norm_num : (2 ^ 64 : ℤ) ≠ 0)
  have h2 := Int.emod_lt_of_pos ((f : ℤ) + (e + FP64_BIAS).emod (2 ^ 64) * 2 ^ 52 + (s : ℤ) * 2 ^ 63)
    (by norm_num : (0 : ℤ) < 2 ^ 64)
  simp only [int_emod_eq] at h1 h2 ⊢
  omega

theorem fp64_replace_exponent_lt (x : ℕ) (e : ℤ) : fp64_replace_exponent x e < 2 ^ 64 := by
  unfold fp64_replace_exponent
  have h1 := Int.emod_nonneg ((x % 2 ^ 52 + x / 2 ^ 63 * 2 ^ 63 : ℕ) + (e + FP64_BIAS).emod (2 ^ 64) * 2 ^ 52)
    (by norm_num : (2 ^ 64 : ℤ) ≠ 0)
  have h2 := Int.emod_lt_of_pos ((x % 2 ^ 52 + x / 2 ^ 63 * 2 ^ 63 : ℕ) + (e + FP64_BIAS).emod (2 ^ 64) * 2 ^ 52)
    (by norm_num : (0 : ℤ) < 2 ^ 64)
  simp only [int_emod_eq] at h1 h2 ⊢
  omega

theorem efp64_canonicalize_fp_lt (a : efp64_t) : (efp64_canonicalize a).fp < 2 ^ 64 := by
  unfold efp64_canonicalize
  by_cases hz : efp64_is_zero a = true
  · rw [if_pos hz]
    norm_num [efp64_zero, fp64_zero_bits]
  · rw [if_neg hz]
    exact fp64_replace_exponent_lt _ _

/-- The positive rounder always yields a finite-size pattern below the sign
bit, and never a NaN. -/
theorem fp64_roundPos_shape (q : ℚ) :
    fp64_roundPos q < 2 ^ 63 ∧ fp64_isNaN (fp64_roundPos q) = false := by
  by_cases h0 : q ≤ 0
  · have hv : fp64_roundPos q = 0 := by
      simp only [fp64_roundPos]
      rw [if_pos h0]
    rw [hv]
    exact ⟨by norm_num, fp64_isNaN_zero⟩
  · push_neg at h0
    have hs := qLog2_spec q h0
    by_cases h1 : qLog2 q < -1022
    · have hv : fp64_roundPos q = (rne (q * qpow2 1074)).toNat := by
        simp only [fp64_roundPos]
        rw [if_neg (not_le.mpr h0), if_pos h1]
      have hq52 : q * qpow2 1074 < 2 ^ 52 := by
        rw [qpow2_eq]
        have h2 : (2 : ℚ) ^ (qLog2 q + 1) ≤ (2 : ℚ) ^ (-1022 : ℤ) :=
          zpow_le_zpow_right₀ (by norm_num) (by omega)
        calc q * (2 : ℚ) ^ (1074 : ℤ)
            < (2 : ℚ) ^ (-1022 : ℤ) * (2 : ℚ) ^ (1074 : ℤ) :=
              mul_lt_mul_of_pos_right (lt_of_lt_of_le hs.2 h2) (two_zpow_pos _)
          _ = (2 : ℚ) ^ (52 : ℤ) := by
              rw [← zpow_add₀ (by norm_num : (2 : ℚ) ≠ 0)]
              norm_num
          _ = 2 ^ 52 := by norm_num
      have hrne : rne (q * qpow2 1074) ≤ 2 ^ 52 := by
        have hle := rne_le (q * qpow2 1074)
        have h4 : ((rne (q * qpow2 1074) : ℤ) : ℚ) < ((2 ^ 52 + 1 : ℤ) : ℚ) := by
          push_cast
          linarith
        have h5 : rne (q * qpow2 1074) < 2 ^ 52 + 1 := by exact_mod_cast h4
        omega
      constructor
      · rw [hv]
        omega
      · rw [hv]
        apply fp64_isNaN_false_of_biased
        unfold fp64_get_biased_exponent
        omega
    · by_cases h2 : 1023 < qLog2 q
      · have hv : fp64_roundPos q = fp64_infinity 0 := by
          simp only [fp64_roundPos]
          rw [if_neg (not_le.mpr h0), if_neg h1, if_pos h2]
        rw [hv]
        exact ⟨by with_unfolding_all decide, by with_unfolding_all decide⟩
      · have hmb0 := fp64_roundPos_m_bounds q h0
        have hmb : 2 ^ 52 ≤ rne (q * qpow2 (52 - qLog2 q)) ∧
            rne (q * qpow2 (52 - qLog2 q)) ≤ 2 ^ 53 := by
          rw [qpow2_eq]
          exact ⟨hmb0.2.2.1, hmb0.2.2.2⟩
        simp only [fp64_roundPos]
        rw [if_neg (not_le.mpr h0), if_neg h1, if_neg h2]
        by_cases h3 : rne (q * qpow2 (52 - qLog2 q)) = 2 ^ 53
        · rw [if_pos h3]
          by_cases h4 : qLog2 q = 1023
          · rw [if_pos h4]
            exact ⟨by with_unfolding_all decide, by with_unfolding_all decide⟩
          · rw [if_neg h4]
            have hfl := fp64_assemble_fields 0 (qLog2 q + 1) 0 (by norm_num) (by norm_num)
              (by rw [FP64_BIAS_eq]; omega) (by rw [FP64_BIAS_eq]; omega)
            exact ⟨fp64_assemble_lt_sign0 _ 0 (by norm_num) (by rw [FP64_BIAS_eq]; omega)
                (by rw [FP64_BIAS_eq]; omega),
              fp64_isNaN_false_of_biased _ (by rw [hfl.2.1, FP64_BIAS_eq]; omega)⟩
        · rw [if_neg h3]
          have hfr : (rne (q * qpow2 (52 - qLog2 q))).toNat - 2 ^ 52 < 2 ^ 52 := by omega
          have hfl := fp64_assemble_fields 0 (qLog2 q) _ (by norm_num) hfr
            (by rw [FP64_BIAS_eq]; omega) (by rw [FP64_BIAS_eq]; omega)
          exact ⟨fp64_assemble_lt_sign0 _ _ hfr (by rw [FP64_BIAS_eq]; omega)
              (by rw [FP64_BIAS_eq]; omega),
            fp64_isNaN_false_of_biased _ (by rw [hfl.2.1, FP64_BIAS_eq]; omega)⟩

/-- The signed rounder always yields a pattern below 2^64, never a NaN. -/
theorem fp64_round_shape (q : ℚ) :
    fp64_round q < 2 ^ 64 ∧ fp64_isNaN (fp64_round q) = false := by
  unfold fp64_round
  split_ifs with h
  · have hsh := fp64_roundPos_shape (-q)
    have hf := fp64_add_sign_fields (fp64_roundPos (-q)) hsh.1
    constructor
    · exact hf.2.2.2.2.2
    · unfold fp64_isNaN at hsh ⊢
      rw [hf.2.1, hf.2.2.1]
      exact hsh.2
  · have hsh := fp64_roundPos_shape q
    exact ⟨by omega, hsh.2⟩

theorem fp64_round_zero : fp64_round 0 = 0 := by with_unfolding_all decide

/-- Any subnormal pattern denotes a magnitude of at most 2^-1022. -/
theorem fp64_toRatMag_subnormal_le (x : ℕ) (hb : fp64_get_biased_exponent x = 0) :
    fp64_toRatMag x ≤ (2 : ℚ) ^ (-1022 : ℤ) := by
  unfold fp64_toRatMag
  rw [if_pos hb, qpow2_eq]
  calc (fp64_get_fraction x : ℚ) * (2 : ℚ) ^ (-1074 : ℤ)
      ≤ ((2 ^ 52 : ℕ) : ℚ) * (2 : ℚ) ^ (-1074 : ℤ) :=
        mul_le_mul_of_nonneg_right
          (by exact_mod_cast (le_of_lt (fp64_get_fraction_lt x))) (two_zpow_pos _).le
    _ = (2 : ℚ) ^ (-1022 : ℤ) := by
        rw [show ((2 ^ 52 : ℕ) : ℚ) = (2 : ℚ) ^ (52 : ℤ) by norm_num,
          ← zpow_add₀ (by norm_num : (2 : ℚ) ≠ 0)]
        norm_num

/-- A magnitude of at least 1 forces a normal (or larger) biased exponent. -/
theorem one_le_mag_biased (x : ℕ) (h : (1 : ℚ) ≤ fp64_toRatMag x) :
    1 ≤ fp64_get_biased_exponent x := by
  by_contra hb
  push_neg at hb
  have hb0 : fp64_get_biased_exponent x = 0 := by omega
  have h1 := fp64_toRatMag_subnormal_le x hb0
  have h2 : (2 : ℚ) ^ (-1022 : ℤ) < (2 : ℚ) ^ (0 : ℤ) := two_zpow_lt_iff.mpr (by norm_num)
  rw [zpow_zero] at h2
  linarith

/-- A double magnitude strictly below 2^k is at most 2^k - 2^(k-53): the
gap to the next power of two is at least one unit in the last place. -/
theorem fp64_toRatMag_lt_step (x : ℕ) (k : ℤ) (hk : -1020 ≤ k)
    (h : fp64_toRatMag x < (2 : ℚ) ^ k) :
    fp64_toRatMag x ≤ (2 : ℚ) ^ k - (2 : ℚ) ^ (k - 53) := by
  by_cases hb : 1 ≤ fp64_get_biased_exponent x
  · have he := fp64_exponent_lt x hb k h
    have hnorm := fp64_toRatMag_normal x hb
    have hf := fp64_get_fraction_lt x
    have hble : (fp64_get_biased_exponent x : ℤ) - 1075 ≤ k - 53 := by
      unfold fp64_get_exponent FP64_BIAS at he
      omega
    rw [hnorm]
    calc ((2 ^ 52 + fp64_get_fraction x : ℕ) : ℚ) *
          (2 : ℚ) ^ ((fp64_get_biased_exponent x : ℤ) - 1075)
        ≤ ((2 ^ 53 - 1 : ℕ) : ℚ) *
          (2 : ℚ) ^ ((fp64_get_biased_exponent x : ℤ) - 1075) :=
          mul_le_mul_of_nonneg_right
            (by exact_mod_cast (by omega : 2 ^ 52 + fp64_get_fraction x ≤ 2 ^ 53 - 1))
            (two_zpow_pos _).le
      _ ≤ ((2 ^ 53 - 1 : ℕ) : ℚ) * (2 : ℚ) ^ (k - 53) :=
          mul_le_mul_of_nonneg_left (zpow_le_zpow_right₀ (by norm_num) hble) (by positivity)
      _ = (2 : ℚ) ^ k - (2 : ℚ) ^ (k - 53) := by
          rw [show ((2 ^ 53 - 1 : ℕ) : ℚ) = (2 : ℚ) ^ (53 : ℤ) - 1 by norm_num]
          rw [sub_mul, one_mul, ← zpow_add₀ (by norm_num : (2 : ℚ) ≠ 0)]
          rw [show (53 : ℤ) + (k - 53) = k by ring]
  · push_neg at hb
    have hb0 : fp64_get_biased_exponent x = 0 := by omega
    have h1 := fp64_toRatMag_subnormal_le x hb0
    have h2 : (2 : ℚ) ^ (-1022 : ℤ) ≤ (2 : ℚ) ^ (k - 1) :=
      two_zpow_le_iff.mpr (by omega)
    have h3 : (2 : ℚ) ^ (k - 53) ≤ (2 : ℚ) ^ (k - 1) := two_zpow_le_iff.mpr (by omega)
    have h4 : (2 : ℚ) ^ (k - 1) + (2 : ℚ) ^ (k - 1) = (2 : ℚ) ^ k := by
      rw [show k = (k - 1) + 1 by ring, zpow_add₀ (by norm_num : (2 : ℚ) ≠ 0), zpow_one,
        show k - 1 + 1 - 1 = k - 1 by ring]
      ring
    linarith

/-- Window transfer for rounding: if the magnitude of the exact value sits
between 2^k1 and just under 2^(k2+1) (with an ulp of slack at the top), the
rounded magnitude sits in the same window. -/
theorem fp64_round_mag_bounds (q : ℚ) (hq : q ≠ 0) (k1 k2 : ℤ)
    (hk1 : -1022 ≤ k1) (hk2 : k2 ≤ 1022) (hks : k1 ≤ k2)
    (h1 : (2 : ℚ) ^ k1 ≤ |q|) (h2 : |q| < (2 : ℚ) ^ (k2 + 1) - (2 : ℚ) ^ (k2 - 53)) :
    (2 : ℚ) ^ k1 ≤ fp64_toRatMag (fp64_round q) ∧
    fp64_toRatMag (fp64_round q) < (2 : ℚ) ^ (k2 + 1) := by
  have habs : 0 < |q| := abs_pos.mpr hq
  have hE1 : k1 ≤ qLog2 |q| := qLog2_ge _ _ habs h1
  have hE2 : qLog2 |q| ≤ k2 := by
    apply qLog2_le _ _ habs
    have hpos : (0 : ℚ) < (2 : ℚ) ^ (k2 - 53) := two_zpow_pos _
    linarith
  have hrs := fp64_round_spec q hq (by omega) (by omega)
  rw [hrs.2.2.2.1]
  constructor
  · calc (2 : ℚ) ^ k1 ≤ (2 : ℚ) ^ qLog2 |q| := zpow_le_zpow_right₀ (by norm_num) hE1
      _ ≤ _ := fp64_roundPos_lower |q| habs (by omega) (by omega)
  · rcases lt_or_eq_of_le hE2 with h | h
    · calc fp64_toRat (fp64_roundPos |q|) ≤ (2 : ℚ) ^ (qLog2 |q| + 1) :=
          fp64_roundPos_upper |q| habs (by omega) (by omega)
        _ < (2 : ℚ) ^ (k2 + 1) := two_zpow_lt_iff.mpr (by omega)
    · have hst : |q| < (2 : ℚ) ^ (qLog2 |q| + 1) - (2 : ℚ) ^ (qLog2 |q| - 53) := by
        rw [h]
        exact h2
      have hres := fp64_roundPos_upper_strict |q| habs (by omega) (by omega) hst
      rw [h] at hres
      exact hres

/-- In the window [1, 2^64 - 2^11] the rounded result's embedded exponent
lands inside [0, 64). -/
theorem fp64_round_window (q : ℚ) (hq : q ≠ 0)
    (h1 : 1 ≤ |q|) (h2 : |q| ≤ (2 : ℚ) ^ (64 : ℤ) - (2 : ℚ) ^ (11 : ℤ)) :
    0 ≤ fp64_get_exponent (fp64_round q) ∧ fp64_get_exponent (fp64_round q) < 64 := by
  have hG := fp64_round_mag_bounds q hq 0 63 (by norm_num) (by norm_num) (by norm_num)
    (by rw [zpow_zero]; exact h1)
    (by
      have h10 : (2 : ℚ) ^ (10 : ℤ) < (2 : ℚ) ^ (11 : ℤ) := two_zpow_lt_iff.mpr (by norm_num)
      rw [show (63 : ℤ) + 1 = 64 by norm_num, show (63 : ℤ) - 53 = 10 by norm_num]
      linarith)
  rw [show (63 : ℤ) + 1 = 64 by norm_num] at hG
  have hb1 : 1 ≤ fp64_get_biased_exponent (fp64_round q) := by
    apply one_le_mag_biased
    calc (1 : ℚ) = (2 : ℚ) ^ (0 : ℤ) := by norm_num
      _ ≤ _ := hG.1
  constructor
  · apply fp64_exponent_ge _ hb1
    exact hG.1
  · exact fp64_exponent_lt _ hb1 64 hG.2

theorem efp64_canonical_dvd (v : efp64_t) (hc : efp64_canonical v) : (64 : ℤ) ∣ v.exp := by
  rcases hc.2 with hz | hn
  · rw [hz.2, ZEXP_eq]
    exact ⟨-(2 ^ 56), by norm_num⟩
  · have hd := hn.2.2.1
    rwa [EXP_MODULUS_eq] at hd

theorem fp64_power2_le (p : ℤ) (hp : p ≤ -64) :
    0 ≤ fp64_toRat (fp64_power2 p) ∧ fp64_toRat (fp64_power2 p) ≤ (2 : ℚ) ^ (-64 : ℤ) := by
  by_cases h : p ≤ -1023
  · rw [fp64_power2_underflow p h]
    rw [show fp64_toRat 0 = 0 from fp64_toRat_zero]
    exact ⟨le_refl 0, (two_zpow_pos _).le⟩
  · rw [fp64_power2_toRat p (by omega) (by omega)]
    exact ⟨(two_zpow_pos p).le, two_zpow_le_iff.mpr hp⟩

theorem efp64_mul_seq_x1_loop_fp_lt (l : List efp64_t) :
    ∀ (res : efp64_t) (cnt : ℕ), res.fp < 2 ^ 64 →
      (efp64_mul_seq_x1_loop res cnt l).fp < 2 ^ 64 := by
  induction l with
  | nil =>
    intro res cnt h
    simpa [efp64_mul_seq_x1_loop] using h
  | cons a t ih =>
    intro res cnt h
    simp only [efp64_mul_seq_x1_loop]
    split_ifs
    · exact ih _ _ (efp64_canonicalize_fp_lt _)
    · exact ih _ _ (fp64_round_shape _).1

theorem efp64_foldl_quick_mul_fp_lt (l : List efp64_t) :
    ∀ r : efp64_t, r.fp < 2 ^ 64 → (l.foldl efp64_quick_mul r).fp < 2 ^ 64 := by
  induction l with
  | nil =>
    intro r h
    simpa using h
  | cons a t ih =>
    intro r h
    rw [List.foldl_cons]
    exact ih _ (fp64_round_shape _).1

theorem fp64_sqrt_lt (x : ℕ) (hx : x < 2 ^ 64) : fp64_sqrt x < 2 ^ 64 := by
  simp only [fp64_sqrt]
  split_ifs
  · with_unfolding_all decide
  · with_unfolding_all decide
  · exact hx
  · exact hx
  · with_unfolding_all decide
  · exact fp64_assemble_lt _ _ _
  · exact fp64_assemble_lt _ _ _
  · exact fp64_assemble_lt _ _ _

end EFP

namespace EFP

/-- Scaling a significand in [2^-64, 1 - 2^-53] up by 2^64 lands the
embedded exponent inside the window. -/
theorem fp64_mul_pow64_window (x : ℕ)
    (h1 : (2 : ℚ) ^ (-(64) : ℤ) ≤ fp64_toRatMag x)
    (h2 : fp64_toRatMag x ≤ 1 - (2 : ℚ) ^ (-(53) : ℤ)) :
    0 ≤ fp64_get_exponent (fp64_mul x (fp64_power2 EXP_MODULUS)) ∧
    fp64_get_exponent (fp64_mul x (fp64_power2 EXP_MODULUS)) < 64 := by
  have hval : fp64_toRat (fp64_power2 EXP_MODULUS) = (2 : ℚ) ^ (64 : ℤ) := by
    rw [EXP_MODULUS_eq]
    exact fp64_power2_toRat 64 (by norm_num) (by norm_num)
  have habs : |fp64_toRat x * fp64_toRat (fp64_power2 EXP_MODULUS)| =
      fp64_toRatMag x * (2 : ℚ) ^ (64 : ℤ) := by
    rw [abs_mul, fp64_abs_toRat, hval, abs_of_pos (two_zpow_pos _)]
  have hqne : fp64_toRat x * fp64_toRat (fp64_power2 EXP_MODULUS) ≠ 0 := by
    apply abs_pos.mp
    rw [habs]
    exact mul_pos (lt_of_lt_of_le (two_zpow_pos _) h1) (two_zpow_pos _)
  have hq1 : 1 ≤ |fp64_toRat x * fp64_toRat (fp64_power2 EXP_MODULUS)| := by
    rw [habs]
    calc (1 : ℚ) = (2 : ℚ) ^ (-(64) : ℤ) * (2 : ℚ) ^ (64 : ℤ) := by
          rw [← zpow_add₀ (by norm_num : (2 : ℚ) ≠ 0)]
          norm_num
      _ ≤ _ := mul_le_mul_of_nonneg_right h1 (two_zpow_pos _).le
  have hq2 : |fp64_toRat x * fp64_toRat (fp64_power2 EXP_MODULUS)| ≤
      (2 : ℚ) ^ (64 : ℤ) - (2 : ℚ) ^ (11 : ℤ) := by
    rw [habs]
    calc fp64_toRatMag x * (2 : ℚ) ^ (64 : ℤ)
        ≤ (1 - (2 : ℚ) ^ (-(53) : ℤ)) * (2 : ℚ) ^ (64 : ℤ) :=
          mul_le_mul_of_nonneg_right h2 (two_zpow_pos _).le
      _ = (2 : ℚ) ^ (64 : ℤ) - (2 : ℚ) ^ (11 : ℤ) := by
          rw [sub_mul, one_mul, ← zpow_add₀ (by norm_num : (2 : ℚ) ≠ 0)]
          norm_num
  have hw := fp64_round_window (fp64_toRat x * fp64_toRat (fp64_power2 EXP_MODULUS)) hqne hq1 hq2
  exact hw

/-- Scaling a significand in [2^64, 2^128 - 2^75] down by 2^64 lands the
embedded exponent inside the window. -/
theorem fp64_mul_pow64inv_window (x : ℕ)
    (h1 : (2 : ℚ) ^ (64 : ℤ) ≤ fp64_toRatMag x)
    (h2 : fp64_toRatMag x ≤ (2 : ℚ) ^ (128 : ℤ) - (2 : ℚ) ^ (75 : ℤ)) :
    0 ≤ fp64_get_exponent (fp64_mul x (fp64_power2 (-EXP_MODULUS))) ∧
    fp64_get_exponent (fp64_mul x (fp64_power2 (-EXP_MODULUS))) < 64 := by
  have hval : fp64_toRat (fp64_power2 (-EXP_MODULUS)) = (2 : ℚ) ^ (-(64) : ℤ) := by
    rw [EXP_MODULUS_eq]
    exact fp64_power2_toRat (-64) (by norm_num) (by norm_num)
  have habs : |fp64_toRat x * fp64_toRat (fp64_power2 (-EXP_MODULUS))| =
      fp64_toRatMag x * (2 : ℚ) ^ (-(64) : ℤ) := by
    rw [abs_mul, fp64_abs_toRat, hval, abs_of_pos (two_zpow_pos _)]
  have hqne : fp64_toRat x * fp64_toRat (fp64_power2 (-EXP_MODULUS)) ≠ 0 := by
    apply abs_pos.mp
    rw [habs]
    exact mul_pos (lt_of_lt_of_le (two_zpow_pos _) h1) (two_zpow_pos _)
  have hq1 : 1 ≤ |fp64_toRat x * fp64_toRat (fp64_power2 (-EXP_MODULUS))| := by
    rw [habs]
    calc (1 : ℚ) = (2 : ℚ) ^ (64 : ℤ) * (2 : ℚ) ^ (-(64) : ℤ) := by
          rw [← zpow_add₀ (by norm_num : (2 : ℚ) ≠ 0)]
          norm_num
      _ ≤ _ := mul_le_mul_of_nonneg_right h1 (two_zpow_pos _).le
  have hq2 : |fp64_toRat x * fp64_toRat (fp64_power2 (-EXP_MODULUS))| ≤
      (2 : ℚ) ^ (64 : ℤ) - (2 : ℚ) ^ (11 : ℤ) := by
    rw [habs]
    calc fp64_toRatMag x * (2 : ℚ) ^ (-(64) : ℤ)
        ≤ ((2 : ℚ) ^ (128 : ℤ) - (2 : ℚ) ^ (75 : ℤ)) * (2 : ℚ) ^ (-(64) : ℤ) :=
          mul_le_mul_of_nonneg_right h2 (two_zpow_pos _).le
      _ = (2 : ℚ) ^ (64 : ℤ) - (2 : ℚ) ^ (11 : ℤ) := by
          rw [sub_mul, ← zpow_add₀ (by norm_num : (2 : ℚ) ≠ 0),
            ← zpow_add₀ (by norm_num : (2 : ℚ) ≠ 0)]
          norm_num
  have hw := fp64_round_window (fp64_toRat x * fp64_toRat (fp64_power2 (-EXP_MODULUS))) hqne hq1 hq2
  exact hw

/-- Conditional invariant for the two-sided quick canonicalize: a NaN-free
significand that is zero or has magnitude in [2^-53, 2^128 - 2^75], with a
window-aligned high exponent, yields a window-invariant nonzero result. -/
theorem efp64_quick_canonicalize_inv (v : efp64_t)
    (hnan : fp64_isNaN v.fp = false) (hdvd : (64 : ℤ) ∣ v.exp)
    (hor : fp64_toRat v.fp = 0 ∨
      ((2 : ℚ) ^ (-(53) : ℤ) ≤ fp64_toRatMag v.fp ∧
        fp64_toRatMag v.fp ≤ (2 : ℚ) ^ (128 : ℤ) - (2 : ℚ) ^ (75 : ℤ)))
    (hz : efp64_is_zero (efp64_quick_canonicalize v) = false) :
    efp64_invariant (efp64_quick_canonicalize v) := by
  have habs := fp64_abs_fields v.fp
  have hnanabs : fp64_isNaN (fp64_abs v.fp) = false := by rw [habs.2.2.2.2, hnan]
  have hnan1 : fp64_isNaN fp64_one = false :=
    fp64_isNaN_false_of_biased _ (by rw [fp64_one_fields.2.1]; norm_num)
  have hc1 : fp64_lt (fp64_abs v.fp) fp64_one = true ↔ fp64_toRatMag v.fp < 1 := by
    rw [fp64_lt_iff _ _ hnanabs hnan1, habs.2.2.2.1, fp64_toRat_one]
  have hp2 : fp64_power2 EXP_MODULUS = fp64_assemble 0 64 0 := by
    rw [EXP_MODULUS_eq]
    exact fp64_power2_of_ge 64 (by norm_num)
  have hnanp : fp64_isNaN (fp64_power2 EXP_MODULUS) = false := by
    rw [hp2]
    exact fp64_isNaN_false_of_biased _ (by
      rw [(fp64_assemble_fields 0 64 0 (by norm_num) (by norm_num)
        (by rw [FP64_BIAS_eq]; norm_num) (by rw [FP64_BIAS_eq]; norm_num)).2.1]
      rw [FP64_BIAS_eq]
      norm_num)
  have hvalhigh : fp64_toRat (fp64_power2 EXP_MODULUS) = (2 : ℚ) ^ (64 : ℤ) := by
    rw [EXP_MODULUS_eq]
    exact fp64_power2_toRat 64 (by norm_num) (by norm_num)
  have hc2 : fp64_le (fp64_power2 EXP_MODULUS) (fp64_abs v.fp) = true ↔
      (2 : ℚ) ^ (64 : ℤ) ≤ fp64_toRatMag v.fp := by
    rw [fp64_le_iff _ _ hnanp hnanabs, habs.2.2.2.1, hvalhigh]
  simp only [efp64_quick_canonicalize] at hz ⊢
  by_cases h1 : fp64_lt (fp64_abs v.fp) fp64_one = true
  · rw [if_pos h1] at hz ⊢
    have hlt1 : fp64_toRatMag v.fp < 1 := hc1.mp h1
    rcases hor with h0 | ⟨hl, hu⟩
    · exfalso
      have hfp0 : fp64_mul v.fp (fp64_power2 EXP_MODULUS) = 0 := by
        unfold fp64_mul
        rw [h0, zero_mul]
        exact fp64_round_zero
      rw [hfp0] at hz
      rw [(efp64_is_zero_iff ⟨0, v.exp - EXP_MODULUS⟩).mpr
        ⟨fp64_isNaN_zero, fp64_toRat_zero⟩] at hz
      exact absurd hz (by simp)
    · have hstep : fp64_toRatMag v.fp ≤ 1 - (2 : ℚ) ^ (-(53) : ℤ) := by
        have hD := fp64_toRatMag_lt_step v.fp 0 (by norm_num) (by rwa [zpow_zero])
        rw [zpow_zero, show (0 : ℤ) - 53 = -53 by norm_num] at hD
        exact hD
      have h164 : (2 : ℚ) ^ (-(64) : ℤ) ≤ fp64_toRatMag v.fp := by
        calc (2 : ℚ) ^ (-(64) : ℤ) ≤ (2 : ℚ) ^ (-(53) : ℤ) := two_zpow_le_iff.mpr (by norm_num)
          _ ≤ _ := hl
      have hw := fp64_mul_pow64_window v.fp h164 hstep
      refine ⟨hw.1, ?_, ?_⟩
      · show fp64_get_exponent (fp64_mul v.fp (fp64_power2 EXP_MODULUS)) < EXP_MODULUS
        rw [EXP_MODULUS_eq]
        exact hw.2
      · show EXP_MODULUS ∣ v.exp - EXP_MODULUS
        rw [EXP_MODULUS_eq]
        omega
  · rw [if_neg h1] at hz ⊢
    have hge1 : (1 : ℚ) ≤ fp64_toRatMag v.fp := not_lt.mp (fun hlt => h1 (hc1.mpr hlt))
    by_cases h2 : fp64_le (fp64_power2 EXP_MODULUS) (fp64_abs v.fp) = true
    · rw [if_pos h2] at hz ⊢
      have hge64 : (2 : ℚ) ^ (64 : ℤ) ≤ fp64_toRatMag v.fp := hc2.mp h2
      rcases hor with h0 | ⟨hl, hu⟩
      · exfalso
        have hmag0 : fp64_toRatMag v.fp = 0 := by
          rw [← fp64_abs_toRat, h0, abs_zero]
        rw [hmag0] at hge64
        have := two_zpow_pos (64 : ℤ)
        linarith
      · have hw := fp64_mul_pow64inv_window v.fp hge64 hu
        refine ⟨hw.1, ?_, ?_⟩
        · show fp64_get_exponent (fp64_mul v.fp (fp64_power2 (-EXP_MODULUS))) < EXP_MODULUS
          rw [EXP_MODULUS_eq]
          exact hw.2
        · show EXP_MODULUS ∣ v.exp + EXP_MODULUS
          rw [EXP_MODULUS_eq]
          omega
    · rw [if_neg h2] at hz ⊢
      have hlt64 : fp64_toRatMag v.fp < (2 : ℚ) ^ (64 : ℤ) :=
        not_le.mp (fun hge => h2 (hc2.mpr hge))
      have hb1 := one_le_mag_biased v.fp hge1
      refine ⟨fp64_exponent_ge v.fp hb1 0 (by rw [zpow_zero]; exact hge1), ?_, ?_⟩
      · show fp64_get_exponent v.fp < EXP_MODULUS
        rw [EXP_MODULUS_eq]
        exact fp64_exponent_lt v.fp hb1 64 hlt64
      · show EXP_MODULUS ∣ v.exp
        rw [EXP_MODULUS_eq]
        exact hdvd

/-- Conditional invariant for the one-sided downward canonicalize. -/
theorem efp64_quick_down_inv (v : efp64_t)
    (hnan : fp64_isNaN v.fp = false) (hdvd : (64 : ℤ) ∣ v.exp)
    (hor : fp64_toRat v.fp = 0 ∨
      ((1 : ℚ) ≤ fp64_toRatMag v.fp ∧
        fp64_toRatMag v.fp ≤ (2 : ℚ) ^ (128 : ℤ) - (2 : ℚ) ^ (75 : ℤ)))
    (hz : efp64_is_zero (efp64_quick_down_canonicalize v) = false) :
    efp64_invariant (efp64_quick_down_canonicalize v) := by
  have habs := fp64_abs_fields v.fp
  have hnanabs : fp64_isNaN (fp64_abs v.fp) = false := by rw [habs.2.2.2.2, hnan]
  have hp2 : fp64_power2 EXP_MODULUS = fp64_assemble 0 64 0 := by
    rw [EXP_MODULUS_eq]
    exact fp64_power2_of_ge 64 (by norm_num)
  have hnanp : fp64_isNaN (fp64_power2 EXP_MODULUS) = false := by
    rw [hp2]
    exact fp64_isNaN_false_of_biased _ (by
      rw [(fp64_assemble_fields 0 64 0 (by norm_num) (by norm_num)
        (by rw [FP64_BIAS_eq]; norm_num) (by rw [FP64_BIAS_eq]; norm_num)).2.1]
      rw [FP64_BIAS_eq]
      norm_num)
  have hvalhigh : fp64_toRat (fp64_power2 EXP_MODULUS) = (2 : ℚ) ^ (64 : ℤ) := by
    rw [EXP_MODULUS_eq]
    exact fp64_power2_toRat 64 (by norm_num) (by norm_num)
  have hc2 : fp64_le (fp64_power2 EXP_MODULUS) (fp64_abs v.fp) = true ↔
      (2 : ℚ) ^ (64 : ℤ) ≤ fp64_toRatMag v.fp := by
    rw [fp64_le_iff _ _ hnanp hnanabs, habs.2.2.2.1, hvalhigh]
  simp only [efp64_quick_down_canonicalize] at hz ⊢
  by_cases h2 : fp64_le (fp64_power2 EXP_MODULUS) (fp64_abs v.fp) = true
  · rw [if_pos h2] at hz ⊢
    have hge64 : (2 : ℚ) ^ (64 : ℤ) ≤ fp64_toRatMag v.fp := hc2.mp h2
    rcases hor with h0 | ⟨hl, hu⟩
    · exfalso
      have hmag0 : fp64_toRatMag v.fp = 0 := by
        rw [← fp64_abs_toRat, h0, abs_zero]
      rw [hmag0] at hge64
      have := two_zpow_pos (64 : ℤ)
      linarith
    · have hw := fp64_mul_pow64inv_window v.fp hge64 hu
      refine ⟨hw.1, ?_, ?_⟩
      · show fp64_get_exponent (fp64_mul v.fp (fp64_power2 (-EXP_MODULUS))) < EXP_MODULUS
        rw [EXP_MODULUS_eq]
        exact hw.2
      · show EXP_MODULUS ∣ v.exp + EXP_MODULUS
        rw [EXP_MODULUS_eq]
        omega
  · rw [if_neg h2] at hz ⊢
    rcases hor with h0 | ⟨hl, hu⟩
    · exfalso
      rw [(efp64_is_zero_iff v).mpr ⟨hnan, h0⟩] at hz
      exact absurd hz (by simp)
    · have hlt64 : fp64_toRatMag v.fp < (2 : ℚ) ^ (64 : ℤ) :=
        not_le.mp (fun hge => h2 (hc2.mpr hge))
      have hb1 := one_le_mag_biased v.fp hl
      refine ⟨fp64_exponent_ge v.fp hb1 0 (by rw [zpow_zero]; exact hl), ?_, ?_⟩
      · show fp64_get_exponent v.fp < EXP_MODULUS
        rw [EXP_MODULUS_eq]
        exact fp64_exponent_lt v.fp hb1 64 hlt64
      · show EXP_MODULUS ∣ v.exp
        rw [EXP_MODULUS_eq]
        exact hdvd

/-- Conditional invariant for the one-sided upward canonicalize. -/
theorem efp64_quick_up_inv (v : efp64_t)
    (hnan : fp64_isNaN v.fp = false) (hdvd : (64 : ℤ) ∣ v.exp)
    (hor : fp64_toRat v.fp = 0 ∨
      ((2 : ℚ) ^ (-(64) : ℤ) ≤ fp64_toRatMag v.fp ∧
        fp64_toRatMag v.fp < (2 : ℚ) ^ (64 : ℤ)))
    (hz : efp64_is_zero (efp64_quick_up_canonicalize v) = false) :
    efp64_invariant (efp64_quick_up_canonicalize v) := by
  have habs := fp64_abs_fields v.fp
  have hnanabs : fp64_isNaN (fp64_abs v.fp) = false := by rw [habs.2.2.2.2, hnan]
  have hnan1 : fp64_isNaN fp64_one = false :=
    fp64_isNaN_false_of_biased _ (by rw [fp64_one_fields.2.1]; norm_num)
  have hc1 : fp64_lt (fp64_abs v.fp) fp64_one = true ↔ fp64_toRatMag v.fp < 1 := by
    rw [fp64_lt_iff _ _ hnanabs hnan1, habs.2.2.2.1, fp64_toRat_one]
  simp only [efp64_quick_up_canonicalize] at hz ⊢
  by_cases h1 : fp64_lt (fp64_abs v.fp) fp64_one = true
  · rw [if_pos h1] at hz ⊢
    have hlt1 : fp64_toRatMag v.fp < 1 := hc1.mp h1
    rcases hor with h0 | ⟨hl, hu⟩
    · exfalso
      have hfp0 : fp64_mul v.fp (fp64_power2 EXP_MODULUS) = 0 := by
        unfold fp64_mul
        rw [h0, zero_mul]
        exact fp64_round_zero
      rw [hfp0] at hz
      rw [(efp64_is_zero_iff ⟨0, v.exp - EXP_MODULUS⟩).mpr
        ⟨fp64_isNaN_zero, fp64_toRat_zero⟩] at hz
      exact absurd hz (by simp)
    · have hstep : fp64_toRatMag v.fp ≤ 1 - (2 : ℚ) ^ (-(53) : ℤ) := by
        have hD := fp64_toRatMag_lt_step v.fp 0 (by norm_num) (by rwa [zpow_zero])
        rw [zpow_zero, show (0 : ℤ) - 53 = -53 by norm_num] at hD
        exact hD
      have hw := fp64_mul_pow64_window v.fp hl hstep
      refine ⟨hw.1, ?_, ?_⟩
      · show fp64_get_exponent (fp64_mul v.fp (fp64_power2 EXP_MODULUS)) < EXP_MODULUS
        rw [EXP_MODULUS_eq]
        exact hw.2
      · show EXP_MODULUS ∣ v.exp - EXP_MODULUS
        rw [EXP_MODULUS_eq]
        omega
  · rw [if_neg h1] at hz ⊢
    have hge1 : (1 : ℚ) ≤ fp64_toRatMag v.fp := not_lt.mp (fun hlt => h1 (hc1.mpr hlt))
    rcases hor with h0 | ⟨hl, hu⟩
    · exfalso
      have hmag0 : fp64_toRatMag v.fp = 0 := by
        rw [← fp64_abs_toRat, h0, abs_zero]
      rw [hmag0] at hge1
      linarith
    · have hb1 := one_le_mag_biased v.fp hge1
      refine ⟨fp64_exponent_ge v.fp hb1 0 (by rw [zpow_zero]; exact hge1), ?_, ?_⟩
      · show fp64_get_exponent v.fp < EXP_MODULUS
        rw [EXP_MODULUS_eq]
        exact fp64_exponent_lt v.fp hb1 64 hu
      · show EXP_MODULUS ∣ v.exp
        rw [EXP_MODULUS_eq]
        exact hdvd

/-- A canonical nonzero significand, scaled to integer, is a nonzero
integer multiple of 2^-52. -/
theorem efp64_toRat_int52 (x : ℕ) (hb1 : 1023 ≤ fp64_get_biased_exponent x)
    (hb2 : fp64_get_biased_exponent x ≤ 1086) :
    ∃ k : ℤ, k ≠ 0 ∧ fp64_toRat x * (2 : ℚ) ^ (52 : ℤ) = (k : ℚ) := by
  have hmag := fp64_toRatMag_normal x (by omega)
  have hexpeq : ((fp64_get_biased_exponent x : ℤ) - 1075) + 52 =
      ((fp64_get_biased_exponent x - 1023 : ℕ) : ℤ) := by omega
  have hmag2 : fp64_toRatMag x * (2 : ℚ) ^ (52 : ℤ) =
      ((2 ^ 52 + fp64_get_fraction x : ℕ) : ℚ) *
        ((2 ^ (fp64_get_biased_exponent x - 1023) : ℕ) : ℚ) := by
    rw [hmag, mul_assoc, ← zpow_add₀ (by norm_num : (2 : ℚ) ≠ 0), hexpeq, zpow_natCast]
    push_cast
    ring
  have hk0 : (2 ^ 52 + fp64_get_fraction x) * 2 ^ (fp64_get_biased_exponent x - 1023) ≠ 0 := by
    positivity
  have hsgn : fp64_get_sign x = 0 ∨ fp64_get_sign x = 1 := by
    unfold fp64_get_sign
    omega
  rcases hsgn with hs | hs
  · refine ⟨((2 ^ 52 + fp64_get_fraction x) * 2 ^ (fp64_get_biased_exponent x - 1023) : ℕ),
      by exact_mod_cast hk0, ?_⟩
    rw [fp64_toRat_of_sign_zero x hs, hmag2]
    push_cast
    ring
  · refine ⟨-((2 ^ 52 + fp64_get_fraction x) * 2 ^ (fp64_get_biased_exponent x - 1023) : ℕ),
      neg_ne_zero.mpr (by exact_mod_cast hk0), ?_⟩
    rw [fp64_toRat_of_sign_one x hs, neg_mul, hmag2]
    push_cast
    ring

/-- Magnitude analysis of the aligned-addition argument: with canonical
inputs and the smaller exponent on the scaled side, the exact sum is zero
or has magnitude in [2^-53, 2^66]. -/
theorem efp64_add_arg_or (x y : efp64_t) (hx : efp64_canonical x) (hy : efp64_canonical y)
    (hle : y.exp ≤ x.exp) :
    fp64_toRat y.fp * fp64_toRat (fp64_power2 (y.exp - x.exp)) + fp64_toRat x.fp = 0 ∨
    ((2 : ℚ) ^ (-(53) : ℤ) ≤
        |fp64_toRat y.fp * fp64_toRat (fp64_power2 (y.exp - x.exp)) + fp64_toRat x.fp| ∧
      |fp64_toRat y.fp * fp64_toRat (fp64_power2 (y.exp - x.exp)) + fp64_toRat x.fp| ≤
        (2 : ℚ) ^ (66 : ℤ)) := by
  rcases efp64_canonical_elim x hx with hxz | hxf
  · rcases efp64_canonical_elim y hy with hyz | hyf
    · left
      rw [hxz, hyz]
      rw [show fp64_toRat efp64_zero.fp = 0 from fp64_toRat_zero]
      ring
    · exfalso
      have h1 : ZEXP < y.exp := hyf.2.2.2.2.2.2.2.2.1
      rw [hxz] at hle
      have h2 : efp64_zero.exp = ZEXP := rfl
      rw [h2] at hle
      omega
  · obtain ⟨hxlt, hxb1, hxb2, hxnan, hxinf, hxml, hxmu, hxdvd, hxzx, hxz0⟩ := hxf
    have hxabs : |fp64_toRat x.fp| = fp64_toRatMag x.fp := fp64_abs_toRat x.fp
    rcases efp64_canonical_elim y hy with hyz | hyf
    · have hy0 : fp64_toRat y.fp = 0 := by
        rw [hyz]
        exact fp64_toRat_zero
      right
      rw [hy0, zero_mul, zero_add]
      constructor
      · rw [hxabs]
        calc (2 : ℚ) ^ (-(53) : ℤ) ≤ (2 : ℚ) ^ (0 : ℤ) := two_zpow_le_iff.mpr (by norm_num)
          _ = 1 := zpow_zero 2
          _ ≤ _ := hxml
      · rw [hxabs]
        have h1 : (2 : ℚ) ^ (64 : ℤ) ≤ (2 : ℚ) ^ (66 : ℤ) := two_zpow_le_iff.mpr (by norm_num)
        have h2 := two_zpow_pos (11 : ℤ)
        linarith
    · obtain ⟨hylt, hyb1, hyb2, hynan, hyinf, hyml, hymu, hydvd, hyzx, hyz0⟩ := hyf
      have hyabs : |fp64_toRat y.fp| = fp64_toRatMag y.fp := fp64_abs_toRat y.fp
      rcases eq_or_lt_of_le hle with hexp | hexp
      · have hP : fp64_toRat (fp64_power2 (y.exp - x.exp)) = 1 := by
          rw [hexp, sub_self, fp64_power2_toRat 0 (by norm_num) (by norm_num), zpow_zero]
        rw [hP, mul_one]
        obtain ⟨kx, hkx0, hkx⟩ := efp64_toRat_int52 x.fp hxb1 hxb2
        obtain ⟨ky, hky0, hky⟩ := efp64_toRat_int52 y.fp hyb1 hyb2
        have hsum : (fp64_toRat y.fp + fp64_toRat x.fp) * (2 : ℚ) ^ (52 : ℤ) =
            ((ky + kx : ℤ) : ℚ) := by
          push_cast
          rw [add_mul]
          linarith [hkx, hky]
        by_cases hks : ky + kx = 0
        · left
          have h2 : (fp64_toRat y.fp + fp64_toRat x.fp) * (2 : ℚ) ^ (52 : ℤ) = 0 := by
            rw [hsum]
            exact_mod_cast hks
          rcases mul_eq_zero.mp h2 with h3 | h3
          · exact h3
          · exact absurd h3 (ne_of_gt (two_zpow_pos _))
        · right
          have h1 : (1 : ℚ) ≤ |((ky + kx : ℤ) : ℚ)| := by
            rw [← Int.cast_abs]
            exact_mod_cast Int.one_le_abs hks
          have habs2 : |fp64_toRat y.fp + fp64_toRat x.fp| * (2 : ℚ) ^ (52 : ℤ) =
              |((ky + kx : ℤ) : ℚ)| := by
            rw [← abs_of_pos (two_zpow_pos (52 : ℤ)), ← abs_mul, hsum]
          constructor
          · have h2 : (2 : ℚ) ^ (-(52) : ℤ) ≤ |fp64_toRat y.fp + fp64_toRat x.fp| := by
              by_contra hcon
              push_neg at hcon
              have h3 : |fp64_toRat y.fp + fp64_toRat x.fp| * (2 : ℚ) ^ (52 : ℤ) <
                  (2 : ℚ) ^ (-(52) : ℤ) * (2 : ℚ) ^ (52 : ℤ) :=
                mul_lt_mul_of_pos_right hcon (two_zpow_pos _)
              rw [habs2, ← zpow_add₀ (by norm_num : (2 : ℚ) ≠ 0)] at h3
              rw [show (-(52) : ℤ) + 52 = 0 by norm_num, zpow_zero] at h3
              linarith
            calc (2 : ℚ) ^ (-(53) : ℤ) ≤ (2 : ℚ) ^ (-(52) : ℤ) := two_zpow_le_iff.mpr (by norm_num)
              _ ≤ _ := h2
          · have htr := abs_add (fp64_toRat y.fp) (fp64_toRat x.fp)
            rw [hyabs, hxabs] at htr
            have ha : (2 : ℚ) ^ (64 : ℤ) + (2 : ℚ) ^ (64 : ℤ) = (2 : ℚ) ^ (65 : ℤ) := by
              rw [show (65 : ℤ) = 64 + 1 by norm_num,
                zpow_add₀ (by norm_num : (2 : ℚ) ≠ 0), zpow_one]
              ring
            have hb' : (2 : ℚ) ^ (65 : ℤ) ≤ (2 : ℚ) ^ (66 : ℤ) := two_zpow_le_iff.mpr (by norm_num)
            have hc := two_zpow_pos (11 : ℤ)
            linarith
      · have hgap : y.exp - x.exp ≤ -64 := by
          rw [EXP_MODULUS_eq] at hxdvd hydvd
          omega
        have hPb := fp64_power2_le (y.exp - x.exp) hgap
        have htyP : |fp64_toRat y.fp * fp64_toRat (fp64_power2 (y.exp - x.exp))| ≤
            1 - (2 : ℚ) ^ (-(53) : ℤ) := by
          rw [abs_mul, hyabs, abs_of_nonneg hPb.1]
          calc fp64_toRatMag y.fp * fp64_toRat (fp64_power2 (y.exp - x.exp))
              ≤ ((2 : ℚ) ^ (64 : ℤ) - (2 : ℚ) ^ (11 : ℤ)) * (2 : ℚ) ^ (-(64) : ℤ) :=
                mul_le_mul hymu hPb.2 hPb.1 (by
                  have h1 := two_zpow_pos (64 : ℤ)
                  have h2 := two_zpow_pos (11 : ℤ)
                  have h3 : (2 : ℚ) ^ (11 : ℤ) < (2 : ℚ) ^ (64 : ℤ) :=
                    two_zpow_lt_iff.mpr (by norm_num)
                  linarith)
            _ = 1 - (2 : ℚ) ^ (-(53) : ℤ) := by
                rw [sub_mul, ← zpow_add₀ (by norm_num : (2 : ℚ) ≠ 0),
                  ← zpow_add₀ (by norm_num : (2 : ℚ) ≠ 0)]
                norm_num
        right
        have htri : fp64_toRatMag x.fp -
            |fp64_toRat y.fp * fp64_toRat (fp64_power2 (y.exp - x.exp))| ≤
            |fp64_toRat y.fp * fp64_toRat (fp64_power2 (y.exp - x.exp)) + fp64_toRat x.fp| := by
          have h := abs_sub_abs_le_abs_sub (fp64_toRat x.fp)
            (-(fp64_toRat y.fp * fp64_toRat (fp64_power2 (y.exp - x.exp))))
          rw [abs_neg, sub_neg_eq_add, hxabs] at h
          calc fp64_toRatMag x.fp - |fp64_toRat y.fp * fp64_toRat (fp64_power2 (y.exp - x.exp))|
              ≤ |fp64_toRat x.fp + fp64_toRat y.fp * fp64_toRat (fp64_power2 (y.exp - x.exp))| := h
            _ = _ := by rw [add_comm]
        constructor
        · linarith
        · have htr := abs_add (fp64_toRat y.fp * fp64_toRat (fp64_power2 (y.exp - x.exp)))
            (fp64_toRat x.fp)
          rw [hxabs] at htr
          have h1 : (2 : ℚ) ^ (64 : ℤ) ≤ (2 : ℚ) ^ (66 : ℤ) := two_zpow_le_iff.mpr (by norm_num)
          have h2 := two_zpow_pos (11 : ℤ)
          have h3 := two_zpow_pos (-(53) : ℤ)
          linarith

/-- The aligned-addition branch of efp64_add preserves the window invariant
for nonzero results. -/
theorem efp64_add_aux (x y : efp64_t) (hx : efp64_canonical x) (hy : efp64_canonical y)
    (hle : y.exp ≤ x.exp)
    (hz : efp64_is_zero (efp64_quick_canonicalize
      ⟨FMA64 y.fp (fp64_power2 (y.exp - x.exp)) x.fp, x.exp⟩) = false) :
    efp64_invariant (efp64_quick_canonicalize
      ⟨FMA64 y.fp (fp64_power2 (y.exp - x.exp)) x.fp, x.exp⟩) := by
  refine efp64_quick_canonicalize_inv _ (fp64_round_shape _).2 (efp64_canonical_dvd x hx) ?_ hz
  rcases efp64_add_arg_or x y hx hy hle with h0 | ⟨h1, h2⟩
  · left
    show fp64_toRat (fp64_round (fp64_toRat y.fp *
      fp64_toRat (fp64_power2 (y.exp - x.exp)) + fp64_toRat x.fp)) = 0
    rw [h0, fp64_round_zero]
    exact fp64_toRat_zero
  · right
    have hq0 : fp64_toRat y.fp * fp64_toRat (fp64_power2 (y.exp - x.exp)) + fp64_toRat x.fp ≠ 0 :=
      abs_pos.mp (lt_of_lt_of_le (two_zpow_pos _) h1)
    have hbnd := fp64_round_mag_bounds _ hq0 (-(53)) 66 (by norm_num) (by norm_num) (by norm_num) h1
      (by
        have e1 : (2 : ℚ) ^ ((66 : ℤ) - 53) < (2 : ℚ) ^ (66 : ℤ) := two_zpow_lt_iff.mpr (by norm_num)
        have e2 : (2 : ℚ) ^ (66 : ℤ) + (2 : ℚ) ^ (66 : ℤ) = (2 : ℚ) ^ ((66 : ℤ) + 1) := by
          rw [zpow_add₀ (by norm_num : (2 : ℚ) ≠ 0), zpow_one]
          ring
        linarith)
    constructor
    · show (2 : ℚ) ^ (-(53) : ℤ) ≤ fp64_toRatMag (fp64_round (fp64_toRat y.fp *
        fp64_toRat (fp64_power2 (y.exp - x.exp)) + fp64_toRat x.fp))
      exact hbnd.1
    · show fp64_toRatMag (fp64_round (fp64_toRat y.fp *
        fp64_toRat (fp64_power2 (y.exp - x.exp)) + fp64_toRat x.fp)) ≤
        (2 : ℚ) ^ (128 : ℤ) - (2 : ℚ) ^ (75 : ℤ)
      have h67 := hbnd.2
      have e1 : (2 : ℚ) ^ ((66 : ℤ) + 1) ≤ (2 : ℚ) ^ (127 : ℤ) := two_zpow_le_iff.mpr (by norm_num)
      have e2 : (2 : ℚ) ^ (75 : ℤ) ≤ (2 : ℚ) ^ (127 : ℤ) := two_zpow_le_iff.mpr (by norm_num)
      have e3 : (2 : ℚ) ^ (127 : ℤ) + (2 : ℚ) ^ (127 : ℤ) = (2 : ℚ) ^ (128 : ℤ) := by
        rw [show (128 : ℤ) = 127 + 1 by norm_num,
          zpow_add₀ (by norm_num : (2 : ℚ) ≠ 0), zpow_one]
        ring
      linarith

end EFP

namespace EFP

/-- Magnitude analysis of the product of two canonical significands. -/
theorem efp64_mul_arg_or (a b : efp64_t) (ha : efp64_canonical a) (hb : efp64_canonical b) :
    fp64_toRat a.fp * fp64_toRat b.fp = 0 ∨
    ((1 : ℚ) ≤ |fp64_toRat a.fp * fp64_toRat b.fp| ∧
      |fp64_toRat a.fp * fp64_toRat b.fp| ≤ (2 : ℚ) ^ (128 : ℤ) - (2 : ℚ) ^ (75 : ℤ)) := by
  rcases efp64_canonical_elim a ha with haz | haf
  · left
    rw [haz, show fp64_toRat efp64_zero.fp = 0 from fp64_toRat_zero, zero_mul]
  rcases efp64_canonical_elim b hb with hbz | hbf
  · left
    rw [hbz, show fp64_toRat efp64_zero.fp = 0 from fp64_toRat_zero, mul_zero]
  obtain ⟨_, _, _, _, _, haml, hamu, _, _, _⟩ := haf
  obtain ⟨_, _, _, _, _, hbml, hbmu, _, _, _⟩ := hbf
  right
  rw [abs_mul, fp64_abs_toRat, fp64_abs_toRat]
  constructor
  · calc (1 : ℚ) = 1 * 1 := by norm_num
      _ ≤ fp64_toRatMag a.fp * fp64_toRatMag b.fp :=
        mul_le_mul haml hbml (by norm_num) (by linarith)
  · have hb64 : fp64_toRatMag b.fp ≤ (2 : ℚ) ^ (64 : ℤ) := by
      have := two_zpow_pos (11 : ℤ)
      linarith
    calc fp64_toRatMag a.fp * fp64_toRatMag b.fp
        ≤ ((2 : ℚ) ^ (64 : ℤ) - (2 : ℚ) ^ (11 : ℤ)) * (2 : ℚ) ^ (64 : ℤ) :=
          mul_le_mul hamu hb64 (by linarith) (by
            have h1 := two_zpow_pos (64 : ℤ)
            have h2 := two_zpow_pos (11 : ℤ)
            have h3 : (2 : ℚ) ^ (11 : ℤ) < (2 : ℚ) ^ (64 : ℤ) := two_zpow_lt_iff.mpr (by norm_num)
            linarith)
      _ = (2 : ℚ) ^ (128 : ℤ) - (2 : ℚ) ^ (75 : ℤ) := by
          rw [sub_mul, ← zpow_add₀ (by norm_num : (2 : ℚ) ≠ 0),
            ← zpow_add₀ (by norm_num : (2 : ℚ) ≠ 0)]
          norm_num

/-- Nonzero results of the four-way batched reduction satisfy the window
invariant: its final step is a full canonicalize of an accumulator whose
significand is a rounded (hence finite-size) pattern. -/
theorem efp64_mul_seq_x4_inv (a b c d : efp64_t) (t : List efp64_t)
    (hz : efp64_is_zero (efp64_mul_seq_x4 (a :: b :: c :: d :: t)) = false) :
    efp64_invariant (efp64_mul_seq_x4 (a :: b :: c :: d :: t)) := by
  simp only [efp64_mul_seq_x4] at hz ⊢
  have hr : (efp64_quick_mul (efp64_quick_mul (efp64_quick_mul
      (if EFP64_MAX_MUL < (efp64_mul_seq_x4_loop (a, b, c, d) 0 t).2.1 * 4 then
        efp64_canon4 (efp64_mul_seq_x4_loop (a, b, c, d) 0 t).1
      else (efp64_mul_seq_x4_loop (a, b, c, d) 0 t).1).1
      (if EFP64_MAX_MUL < (efp64_mul_seq_x4_loop (a, b, c, d) 0 t).2.1 * 4 then
        efp64_canon4 (efp64_mul_seq_x4_loop (a, b, c, d) 0 t).1
      else (efp64_mul_seq_x4_loop (a, b, c, d) 0 t).1).2.1)
      (if EFP64_MAX_MUL < (efp64_mul_seq_x4_loop (a, b, c, d) 0 t).2.1 * 4 then
        efp64_canon4 (efp64_mul_seq_x4_loop (a, b, c, d) 0 t).1
      else (efp64_mul_seq_x4_loop (a, b, c, d) 0 t).1).2.2.1)
      (if EFP64_MAX_MUL < (efp64_mul_seq_x4_loop (a, b, c, d) 0 t).2.1 * 4 then
        efp64_canon4 (efp64_mul_seq_x4_loop (a, b, c, d) 0 t).1
      else (efp64_mul_seq_x4_loop (a, b, c, d) 0 t).1).2.2.2).fp < 2 ^ 64 :=
    (fp64_round_shape _).1
  have hfold := efp64_foldl_quick_mul_fp_lt (efp64_mul_seq_x4_loop (a, b, c, d) 0 t).2.2 _ hr
  rcases efp64_canonicalize_inv _ hfold with h | h
  · rw [h] at hz
    rw [efp64_is_zero_efp64_zero] at hz
    exact absurd hz (by simp)
  · exact h

/-- C1 counterexample: (i) scaling the canonical 1.0 by 2^1 yields a
nonzero value whose exponentHigh, 1, is not a multiple of 64; (ii) dividing
1.0 by the canonical zero yields a nonzero (infinite-significand) value
whose embedded exponent is far outside [0, 64).  Both operations receive
canonical inputs, refuting the unrestricted invariant claim. -/
theorem C1_counterexample :
    (efp64_canonical (efp64_from_fp64 fp64_one) ∧
      efp64_is_zero (efp64_scale_power2 (efp64_from_fp64 fp64_one) 1) = false ∧
      ¬ efp64_invariant (efp64_scale_power2 (efp64_from_fp64 fp64_one) 1)) ∧
    (efp64_canonical efp64_zero ∧
      efp64_is_zero (efp64_div (efp64_from_fp64 fp64_one) efp64_zero) = false ∧
      ¬ efp64_invariant (efp64_div (efp64_from_fp64 fp64_one) efp64_zero)) :=
  ⟨⟨by unfold efp64_canonical; with_unfolding_all decide,
    by with_unfolding_all decide,
    by unfold efp64_invariant; with_unfolding_all decide⟩,
   ⟨by unfold efp64_canonical; with_unfolding_all decide,
    by with_unfolding_all decide,
    by unfold efp64_invariant; with_unfolding_all decide⟩⟩

/-- C1 (amended): every nonzero result of a public operation on canonical
inputs keeps the embedded exponent of the significand inside [0, 64) and
the high exponent a multiple of 64 — for conversion from a native double
(zero or normal), addition, multiplication, division by a nonzero value,
square root, scaling by a multiple of 64, and the batched product
reductions.  Scaling by a power that is not a multiple of 64 and dividing
by zero break the invariant (see the counterexample), so those inputs are
excluded. -/
theorem C1_theorem :
    (∀ d : ℕ, d < 2 ^ 64 →
      efp64_is_zero (efp64_from_fp64 d) = false → efp64_invariant (efp64_from_fp64 d)) ∧
    (∀ a b : efp64_t, efp64_canonical a → efp64_canonical b →
      efp64_is_zero (efp64_add a b) = false → efp64_invariant (efp64_add a b)) ∧
    (∀ a b : efp64_t, efp64_canonical a → efp64_canonical b →
      efp64_is_zero (efp64_mul a b) = false → efp64_invariant (efp64_mul a b)) ∧
    (∀ a b : efp64_t, efp64_canonical a → efp64_canonical b → efp64_is_zero b = false →
      efp64_is_zero (efp64_div a b) = false → efp64_invariant (efp64_div a b)) ∧
    (∀ a : efp64_t, efp64_canonical a →
      efp64_is_zero (efp64_sqrt a) = false → efp64_invariant (efp64_sqrt a)) ∧
    (∀ (a : efp64_t) (k : ℤ), efp64_canonical a → (64 : ℤ) ∣ k →
      efp64_is_zero (efp64_scale_power2 a k) = false →
      efp64_invariant (efp64_scale_power2 a k)) ∧
    (∀ l : List efp64_t, (∀ v ∈ l, efp64_canonical v) →
      efp64_is_zero (efp64_mul_seq l) = false → efp64_invariant (efp64_mul_seq l)) := by
  refine ⟨?_, ?_, ?_, ?_, ?_, ?_, ?_⟩
  · intro d hd hz
    rcases efp64_canonicalize_inv ⟨d, 0⟩ hd with h | h
    · exfalso
      rw [show efp64_from_fp64 d = efp64_canonicalize ⟨d, 0⟩ from rfl, h,
        efp64_is_zero_efp64_zero] at hz
      exact absurd hz (by simp)
    · exact h
  · intro a b ha hb hz
    unfold efp64_add at hz ⊢
    by_cases h : b.exp < a.exp
    · rw [if_pos h] at hz ⊢
      exact efp64_add_aux a b ha hb (le_of_lt h) hz
    · rw [if_neg h] at hz ⊢
      exact efp64_add_aux b a hb ha (by omega) hz
  · intro a b ha hb hz
    refine efp64_quick_down_inv (efp64_quick_mul a b) (fp64_round_shape _).2 ?_ ?_ hz
    · show (64 : ℤ) ∣ a.exp + b.exp
      exact dvd_add (efp64_canonical_dvd a ha) (efp64_canonical_dvd b hb)
    · rcases efp64_mul_arg_or a b ha hb with h0 | ⟨h1, h2⟩
      · left
        show fp64_toRat (fp64_round (fp64_toRat a.fp * fp64_toRat b.fp)) = 0
        rw [h0, fp64_round_zero]
        exact fp64_toRat_zero
      · right
        have hq0 : fp64_toRat a.fp * fp64_toRat b.fp ≠ 0 :=
          abs_pos.mp (by linarith)
        have hbnd := fp64_round_mag_bounds _ hq0 0 127 (by norm_num) (by norm_num) (by norm_num)
          (by rw [zpow_zero]; exact h1)
          (by
            have e1 : (2 : ℚ) ^ ((127 : ℤ) - 53) < (2 : ℚ) ^ (75 : ℤ) :=
              two_zpow_lt_iff.mpr (by norm_num)
            rw [show (127 : ℤ) + 1 = 128 by norm_num]
            linarith)
        constructor
        · show (1 : ℚ) ≤ fp64_toRatMag (fp64_round (fp64_toRat a.fp * fp64_toRat b.fp))
          have h3 := hbnd.1
          rwa [zpow_zero] at h3
        · show fp64_toRatMag (fp64_round (fp64_toRat a.fp * fp64_toRat b.fp)) ≤
            (2 : ℚ) ^ (128 : ℤ) - (2 : ℚ) ^ (75 : ℤ)
          have hlt : fp64_toRatMag (fp64_round (fp64_toRat a.fp * fp64_toRat b.fp)) <
              (2 : ℚ) ^ (128 : ℤ) := by
            have h3 := hbnd.2
            rwa [show (127 : ℤ) + 1 = 128 by norm_num] at h3
          have hst := fp64_toRatMag_lt_step _ 128 (by norm_num) hlt
          rwa [show (128 : ℤ) - 53 = 75 by norm_num] at hst
  · intro a b ha hb hbz hz
    have hbnan : fp64_isNaN b.fp = false := (efp64_canonical_cases b hb).1
    have hbne : fp64_toRat b.fp ≠ 0 := by
      intro h
      rw [(efp64_is_zero_iff b).mpr ⟨hbnan, h⟩] at hbz
      exact absurd hbz (by simp)
    have hdivr : fp64_div a.fp b.fp = fp64_round (fp64_toRat a.fp / fp64_toRat b.fp) := by
      unfold fp64_div
      rw [if_neg hbne]
    have hkey : efp64_div a b = efp64_quick_up_canonicalize
        ⟨fp64_round (fp64_toRat a.fp / fp64_toRat b.fp), a.exp - b.exp⟩ := by
      unfold efp64_div
      rw [hdivr]
    rw [hkey] at hz ⊢
    refine efp64_quick_up_inv _ (fp64_round_shape _).2 ?_ ?_ hz
    · show (64 : ℤ) ∣ a.exp - b.exp
      exact dvd_sub (efp64_canonical_dvd a ha) (efp64_canonical_dvd b hb)
    · rcases efp64_canonical_elim a ha with haz | haf
      · left
        show fp64_toRat (fp64_round (fp64_toRat a.fp / fp64_toRat b.fp)) = 0
        rw [show fp64_toRat a.fp = 0 from by rw [haz]; exact fp64_toRat_zero,
          zero_div, fp64_round_zero]
        exact fp64_toRat_zero
      · obtain ⟨_, _, _, _, _, haml, hamu, _, _, _⟩ := haf
        rcases efp64_canonical_elim b hb with hbz2 | hbf
        · exfalso
          apply hbne
          rw [hbz2]
          exact fp64_toRat_zero
        obtain ⟨_, _, _, _, _, hbml, hbmu, _, _, _⟩ := hbf
        right
        have habsd : |fp64_toRat a.fp / fp64_toRat b.fp| =
            fp64_toRatMag a.fp / fp64_toRatMag b.fp := by
          rw [abs_div, fp64_abs_toRat, fp64_abs_toRat]
        have hbpos : (0 : ℚ) < fp64_toRatMag b.fp := by linarith
        have hq1 : (2 : ℚ) ^ (-(64) : ℤ) ≤ |fp64_toRat a.fp / fp64_toRat b.fp| := by
          rw [habsd]
          have hb64 : fp64_toRatMag b.fp ≤ (2 : ℚ) ^ (64 : ℤ) := by
            have := two_zpow_pos (11 : ℤ)
            linarith
          have hs1 : 1 / (2 : ℚ) ^ (64 : ℤ) ≤ 1 / fp64_toRatMag b.fp :=
            one_div_le_one_div_of_le hbpos hb64
          have hs2 : (2 : ℚ) ^ (-(64) : ℤ) = 1 / (2 : ℚ) ^ (64 : ℤ) := by
            rw [zpow_neg, one_div]
          have h1mb : (0 : ℚ) ≤ 1 / fp64_toRatMag b.fp := by positivity
          calc (2 : ℚ) ^ (-(64) : ℤ) = 1 / (2 : ℚ) ^ (64 : ℤ) := hs2
            _ ≤ 1 / fp64_toRatMag b.fp := hs1
            _ = 1 * (1 / fp64_toRatMag b.fp) := (one_mul _).symm
            _ ≤ fp64_toRatMag a.fp * (1 / fp64_toRatMag b.fp) :=
              mul_le_mul_of_nonneg_right haml h1mb
            _ = fp64_toRatMag a.fp / fp64_toRatMag b.fp := by ring
        have hq2 : |fp64_toRat a.fp / fp64_toRat b.fp| ≤
            (2 : ℚ) ^ (64 : ℤ) - (2 : ℚ) ^ (11 : ℤ) := by
          rw [habsd]
          calc fp64_toRatMag a.fp / fp64_toRatMag b.fp ≤ fp64_toRatMag a.fp :=
              div_le_self (by linarith) hbml
            _ ≤ _ := hamu
        have hq0 : fp64_toRat a.fp / fp64_toRat b.fp ≠ 0 :=
          abs_pos.mp (lt_of_lt_of_le (two_zpow_pos _) hq1)
        have hbnd := fp64_round_mag_bounds _ hq0 (-(64)) 63 (by norm_num) (by norm_num)
          (by norm_num) hq1
          (by
            have e1 : (2 : ℚ) ^ ((63 : ℤ) - 53) < (2 : ℚ) ^ (11 : ℤ) :=
              two_zpow_lt_iff.mpr (by norm_num)
            rw [show (63 : ℤ) + 1 = 64 by norm_num]
            linarith)
        constructor
        · show (2 : ℚ) ^ (-(64) : ℤ) ≤
            fp64_toRatMag (fp64_round (fp64_toRat a.fp / fp64_toRat b.fp))
          exact hbnd.1
        · show fp64_toRatMag (fp64_round (fp64_toRat a.fp / fp64_toRat b.fp)) <
            (2 : ℚ) ^ (64 : ℤ)
          have h3 := hbnd.2
          rwa [show (63 : ℤ) + 1 = 64 by norm_num] at h3
  · intro a ha hz
    unfold efp64_sqrt at hz ⊢
    by_cases hcond : (efp64_is_zero a || fp64_lt a.fp fp64_zero_bits) = true
    · rw [if_pos hcond] at hz
      rw [efp64_is_zero_efp64_zero] at hz
      exact absurd hz (by simp)
    · rw [if_neg hcond] at hz ⊢
      have hfplt : fp64_sqrt a.fp < 2 ^ 64 := fp64_sqrt_lt a.fp ha.1
      rcases efp64_canonicalize_inv ⟨fp64_sqrt a.fp, Int.tdiv a.exp 2⟩ hfplt with h | h
      · rw [h] at hz
        rw [efp64_is_zero_efp64_zero] at hz
        exact absurd hz (by simp)
      · exact h
  · intro a k ha hdk hz
    rcases efp64_canonical_elim a ha with haz | haf
    · exfalso
      rw [haz] at hz
      rw [show efp64_is_zero (efp64_scale_power2 efp64_zero k) = true from
        (efp64_is_zero_iff _).mpr ⟨fp64_isNaN_zero, fp64_toRat_zero⟩] at hz
      exact absurd hz (by simp)
    · obtain ⟨hlt, hb1, hb2, hnan, hinf, hml, hmu, hdvd, hzx, hz0⟩ := haf
      refine ⟨?_, ?_, ?_⟩
      · show 0 ≤ fp64_get_exponent a.fp
        unfold fp64_get_exponent FP64_BIAS
        omega
      · show fp64_get_exponent a.fp < EXP_MODULUS
        rw [EXP_MODULUS_eq]
        unfold fp64_get_exponent FP64_BIAS
        omega
      · show EXP_MODULUS ∣ a.exp + k
        rw [EXP_MODULUS_eq]
        rw [EXP_MODULUS_eq] at hdvd
        exact dvd_add hdvd hdk
  · intro l hcl hz
    unfold efp64_mul_seq at hz ⊢
    by_cases hlen : l.length < 8
    · rw [if_pos hlen] at hz ⊢
      cases l with
      | nil =>
        have he : efp64_mul_seq_x1 ([] : List efp64_t) = efp64_canonicalize ⟨fp64_one, 0⟩ := rfl
        rw [he] at hz ⊢
        rcases efp64_canonicalize_inv ⟨fp64_one, 0⟩ fp64_one_fields.2.2.2 with h | h
        · rw [h] at hz
          rw [efp64_is_zero_efp64_zero] at hz
          exact absurd hz (by simp)
        · exact h
      | cons v t =>
        have he : efp64_mul_seq_x1 (v :: t) =
            efp64_canonicalize (efp64_mul_seq_x1_loop v 1 t) := rfl
        rw [he] at hz ⊢
        have hv : v.fp < 2 ^ 64 := (hcl v (by simp)).1
        have hloop := efp64_mul_seq_x1_loop_fp_lt t v 1 hv
        rcases efp64_canonicalize_inv _ hloop with h | h
        · rw [h] at hz
          rw [efp64_is_zero_efp64_zero] at hz
          exact absurd hz (by simp)
        · exact h
    · rw [if_neg hlen] at hz ⊢
      rcases l with _ | ⟨a, _ | ⟨b, _ | ⟨c, _ | ⟨d, t⟩⟩⟩⟩
      · exact absurd (by simp) hlen
      · exact absurd (by simp) hlen
      · exact absurd (by simp) hlen
      · exact absurd (by simp) hlen
      · exact efp64_mul_seq_x4_inv a b c d t hz

/-- C1 witness: invariant at a concrete addition, a concrete scaling by 64,
and a concrete singleton batched product. -/
theorem C1_witness :
    efp64_invariant (efp64_add (efp64_from_fp64 fp64_one) (efp64_from_fp64 fp64_two)) ∧
    efp64_invariant (efp64_scale_power2 (efp64_from_fp64 fp64_two) 64) ∧
    efp64_invariant (efp64_mul_seq [efp64_from_fp64 fp64_two]) :=
  ⟨C1_theorem.2.1 (efp64_from_fp64 fp64_one) (efp64_from_fp64 fp64_two)
     (by unfold efp64_canonical; with_unfolding_all decide)
     (by unfold efp64_canonical; with_unfolding_all decide)
     (by with_unfolding_all decide),
   C1_theorem.2.2.2.2.2.1 (efp64_from_fp64 fp64_two) 64
     (by unfold efp64_canonical; with_unfolding_all decide)
     (by decide)
     (by with_unfolding_all decide),
   C1_theorem.2.2.2.2.2.2 [efp64_from_fp64 fp64_two]
     (by
       intro v hv
       rw [List.mem_singleton] at hv
       subst hv
       unfold efp64_canonical
       with_unfolding_all decide)
     (by with_unfolding_all decide)⟩

end EFP
